import Mathlib

set_option maxRecDepth 40000

/-!
# Verification of the Hungarian / Munkres assignment solver

This file gives a shallow embedding of the `minimize` function of the
`hungarian` crate (`src/lib.rs`) and proves properties of it.

Modelling conventions:
* The generic cost type `N : NumAssign + PrimInt` is instantiated at
  `Int`, with the `N::max_value()` sentinel taken from the `u64`
  instantiation used throughout the crate's tests.  Fixed-width wrapping
  is not reproduced; instead, every theorem whose conclusion depends on
  the values the arithmetic produces carries an explicit overflow-exclusion
  bound on its input — every entry times `FUEL h + 2` at most the
  sentinel — and the theorem `run_in_range` proves that on that domain
  every working-matrix entry of every reachable loop state, and every
  Step 6 intermediate (`entry + min` on a covered row, before the column
  pass subtracts), stays inside `[0, SENTINEL]`.  On that domain the
  exact `Int` arithmetic and the fixed-width program compute the same
  numbers, so the embedding is faithful there.
* The `ndarray::Array2` working matrices are embedded as functions
  `Nat → Nat → Int` (zero outside the allocated `h × w` range, matching
  `Array2::zeros`), and the `FixedBitSet` covers as `Nat → Bool`.
* A Rust panic (out-of-bounds slice index, `Option::unwrap` on `None`) is
  modelled as the result `none`.  The main `loop` is embedded with explicit
  fuel; running out of fuel also yields `none`.
-/

namespace Hungarian

/-- The `u64` maximum value, standing in for `N::max_value()`. -/
def SENTINEL : Int := 2 ^ 64 - 1

/-- `findBelow p n` is the smallest `k < n` with `p k = true`, if any.
This captures the row-major `for`-loop searches (`break` at first hit)
used throughout `minimize`. -/
def findBelow (p : Nat → Bool) : Nat → Option Nat
  | 0 => none
  | n + 1 =>
    match findBelow p n with
    | some k => some k
    | none => if p n then some n else none

/-- `minBelow f n` is the minimum of `f 0, …, f (n-1)` (for `n ≥ 1`);
this captures `row.iter().min().unwrap()`. -/
def minBelow (f : Nat → Int) : Nat → Int
  | 0 => 0
  | 1 => f 0
  | n + 2 => min (minBelow f (n + 1)) (f (n + 1))

/-- The clamping done while copying the input in Step 0: a negative cost is
skipped, which leaves the `Array2::zeros` initialization in place. -/
def clampNonneg (x : Int) : Int := if x < 0 then 0 else x

/-- Reading entry `(i, j)` of the row-major input slice. -/
def readCost (matrix : List Int) (width i j : Nat) : Int :=
  matrix.getD (width * i + j) 0

/-- Step 0: build the working matrix.  When `width < height` the input is
rotated: the Rust code stores `matrix[i][j]` at `(width - 1 - j, i)` of an
`Array2` of shape `(h, w) = (width, height)`.  Entries outside the working
`h × w` range are the untouched zeros of `Array2::zeros`. -/
def workingMatrix (matrix : List Int) (height width : Nat) : Nat → Nat → Int :=
  if width < height then
    fun r c =>
      if r < width ∧ c < height then
        clampNonneg (readCost matrix width c (width - 1 - r))
      else 0
  else
    fun i j =>
      if i < height ∧ j < width then
        clampNonneg (readCost matrix width i j)
      else 0

/-- Step 1: subtract from every row its minimum element.  The matrix has
shape `h × w`; entries outside that shape do not exist in the `Array2`
and are embedded as `0`. -/
def rowReduce (m : Nat → Nat → Int) (h w : Nat) : Nat → Nat → Int :=
  fun i j => if i < h ∧ j < w then m i j - minBelow (m i) w else 0

/-- Step 2: the greedy initializer.  Scans rows top to bottom, starring in
each row the first zero in a not-yet-covered column and covering that
column.  Returns the star set together with the auxiliary column cover
(which the Rust code clears again before entering the main loop). -/
def greedyInit (m : Nat → Nat → Int) (w : Nat) :
    Nat → ((Nat → Nat → Bool) × (Nat → Bool))
  | 0 => (fun _ _ => false, fun _ => false)
  | i + 1 =>
    match findBelow (fun j => !(greedyInit m w i).2 j && decide (m i j = 0)) w with
    | some j =>
      (fun a b => if a = i ∧ b = j then true else (greedyInit m w i).1 a b,
       fun b => if b = j then true else (greedyInit m w i).2 b)
    | none => greedyInit m w i

/-- The mutable state of the main loop of `minimize`. -/
structure State where
  m : Nat → Nat → Int
  stars : Nat → Nat → Bool
  primes : Nat → Nat → Bool
  rowCover : Nat → Bool
  colCover : Nat → Bool
  verify : Bool

/-- Step 3: cover every column containing a starred zero
(`col_cover.insert` only adds marks). -/
def coverStarCols (stars : Nat → Nat → Bool) (colCover : Nat → Bool)
    (h : Nat) : Nat → Bool :=
  fun j => colCover j || (findBelow (fun i => stars i j) h).isSome

/-- `col_cover.count_ones(..)`: the number of covered columns. -/
def coverCount (colCover : Nat → Bool) (w : Nat) : Nat :=
  ((List.range w).filter (fun j => colCover j)).length

/-- The starred column of working row `i`:
`r.iter().enumerate().find(|(_, v)| v)`. -/
def rowStar (stars : Nat → Nat → Bool) (w i : Nat) : Option Nat :=
  findBelow (fun j => stars i j) w

/-- Result extraction: for every working row find its starred column
(`unwrap` panics — result `none` — if some row has no star), then map
through the recorded orientation.  In the rotated case the Rust code
builds `vec![None; w]` and writes `result[j] = Some(h - i - 1)` for every
star `(i, j)`. -/
def extract (stars : Nat → Nat → Bool) (h w : Nat) (rotated : Bool) :
    Option (List (Option Nat)) :=
  if ∀ i ∈ List.range h, (rowStar stars w i).isSome then
    if rotated then
      some ((((List.range h).map (fun i => (rowStar stars w i).getD 0)).enum).foldl
        (fun res ij => res.set ij.2 (some (h - ij.1 - 1)))
        (List.replicate w none))
    else
      some ((List.range h).map (fun i => rowStar stars w i))
  else none

/-- Step 4's scan: the first (row-major) zero entry in an uncovered row and
uncovered column. -/
def findUZ (s : State) (h w : Nat) : Option (Nat × Nat) :=
  match findBelow
      (fun i => !s.rowCover i &&
        (findBelow (fun j => !s.colCover j && decide (s.m i j = 0)) w).isSome)
      h with
  | none => none
  | some i =>
    match findBelow (fun j => !s.colCover j && decide (s.m i j = 0)) w with
    | some j => some (i, j)
    | none => none

/-- Step 6: the minimum entry over uncovered rows and columns, starting
from the `N::max_value()` sentinel. -/
def uncoveredMin (s : State) (h w : Nat) : Int :=
  (List.range h).foldl
    (fun acc i =>
      if s.rowCover i then acc
      else
        (List.range w).foldl
          (fun acc2 j =>
            if s.colCover j then acc2
            else if s.m i j < acc2 then s.m i j else acc2)
          acc)
    SENTINEL

/-- Step 6: add the minimum to every covered row, subtract it from every
uncovered column.  The Rust code runs the two passes separately; the
largest value it ever holds is `m i j + d` on a covered row, which
`run_in_range` keeps within the `u64` range on the bounded domains
of the main theorems. -/
def dualAdjust (m : Nat → Nat → Int) (rowCover colCover : Nat → Bool)
    (d : Int) : Nat → Nat → Int :=
  fun i j =>
    (m i j + (if rowCover i then d else 0)) - (if colCover j then 0 else d)

/-- Step 5's alternating-path construction.  The path is kept in reverse
order (most recent cell first).  From the last cell's column, find a
starred zero (stop if none); then find the primed zero in that star's row
(the Rust code `unwrap`s — `none` models the panic).  `fuel` bounds the
number of rounds. -/
def buildPath (stars primes : Nat → Nat → Bool) (h w : Nat) :
    Nat → List (Nat × Nat) → Option (List (Nat × Nat))
  | 0, _ => none
  | _ + 1, [] => some []
  | fuel + 1, (i, j) :: rest =>
    match findBelow (fun a => stars a j) h with
    | none => some ((i, j) :: rest)
    | some i2 =>
      match findBelow (fun b => primes i2 b) w with
      | none => none
      | some j2 => buildPath stars primes h w fuel ((i2, j2) :: (i2, j) :: (i, j) :: rest)

/-- Step 5's toggle: sequentially, for every cell on the path, set its star
mark to its prime mark. -/
def togglePath (stars primes : Nat → Nat → Bool) (path : List (Nat × Nat)) :
    Nat → Nat → Bool :=
  path.foldl (fun st c => fun a b => if (a, b) = c then primes a b else st a b) stars

/-- The outcome of one iteration of the main `loop`. -/
inductive StepRes where
  | cont (s : State)
  | done (r : List (Option Nat))
  | panic
deriving Inhabited

/-- Step 3 as a state transformer: when `verify` holds, cover every column
containing a star (otherwise Step 3 is skipped and the cover is
unchanged). -/
def step3State (h : Nat) (s : State) : State :=
  { s with colCover := if s.verify then coverStarCols s.stars s.colCover h else s.colCover }

/-- Priming the zero found in Step 4. -/
def primeAt (s : State) (i j : Nat) : State :=
  { s with primes := fun a b => if a = i ∧ b = j then true else s.primes a b }

/-- The cover switch of Step 4: cover the primed zero's row, uncover its
row-star's column, and skip Step 3 on the next iteration. -/
def coverSwitch (s : State) (i j0 : Nat) : State :=
  { s with
    rowCover := fun a => if a = i then true else s.rowCover a
    colCover := fun b => if b = j0 then false else s.colCover b
    verify := false }

/-- Step 6 as a state transformer. -/
def adjustState (s : State) (h w : Nat) : State :=
  { s with
    m := dualAdjust s.m s.rowCover s.colCover (uncoveredMin s h w)
    verify := false }

/-- Step 5's conclusion: toggle the path, clear covers and primes, return
to Step 3. -/
def augmentState (s : State) (path : List (Nat × Nat)) : State :=
  { m := s.m
    stars := togglePath s.stars s.primes path
    primes := fun _ _ => false
    rowCover := fun _ => false
    colCover := fun _ => false
    verify := true }

/-- One iteration of the main `loop` of `minimize`:
Step 3 (when `verify`) with the termination test, then Step 4's scan,
dispatching to Step 6 (dual adjustment), the cover-switch branch, or
Step 5 (augmentation). -/
def stepOnce (h w : Nat) (rotated : Bool) (s : State) : StepRes :=
  if s.verify ∧ coverCount (step3State h s).colCover w = h then
    match extract s.stars h w rotated with
    | some r => StepRes.done r
    | none => StepRes.panic
  else
    match findUZ (step3State h s) h w with
    | none => StepRes.cont (adjustState (step3State h s) h w)
    | some (i, j) =>
      match findBelow (fun b => s.stars i b) w with
      | some j0 => StepRes.cont (coverSwitch (primeAt (step3State h s) i j) i j0)
      | none =>
        match buildPath s.stars (primeAt (step3State h s) i j).primes h w (h + 1) [(i, j)] with
        | none => StepRes.panic
        | some path => StepRes.cont (augmentState (primeAt (step3State h s) i j) path)

/-- The main `loop`, with explicit fuel (`none` on fuel exhaustion or on a
Rust panic). -/
def loopRun (h w : Nat) (rotated : Bool) : Nat → State → Option (List (Option Nat))
  | 0, _ => none
  | fuel + 1, s =>
    match stepOnce h w rotated s with
    | StepRes.done r => some r
    | StepRes.panic => none
    | StepRes.cont s2 => loopRun h w rotated fuel s2

/-- Fuel that is amply sufficient for the loop's termination bound
(at most `h + 1` phases of at most `2h + 3` iterations each). -/
def FUEL (h : Nat) : Nat := (h + 1) * (2 * h + 4)

/-- The loop's initial state: the row-reduced working matrix, the greedy
stars, no primes, and cleared covers with `verify = true`. -/
def initState (m1 : Nat → Nat → Int) (h w : Nat) : State :=
  { m := m1
    stars := (greedyInit m1 w h).1
    primes := fun _ _ => false
    rowCover := fun _ => false
    colCover := fun _ => false
    verify := true }

/-- The algorithm after input reading: row reduction, greedy stars, main
loop.  `h` and `w` are the working dimensions (`h ≤ w`). -/
def minimizeCore (m1 : Nat → Nat → Int) (h w : Nat) (rotated : Bool) :
    Option (List (Option Nat)) :=
  loopRun h w rotated (FUEL h) (initState m1 h w)

/-- The embedding of `minimize`.  Zero-sized inputs return the empty
vector; a too-short slice causes an out-of-bounds panic (`none`) while the
input is copied, before the algorithm proper runs. -/
def minimize (matrix : List Int) (height width : Nat) : Option (List (Option Nat)) :=
  if height = 0 ∨ width = 0 then some []
  else if matrix.length < height * width then none
  else
    let rotated := width < height
    let w := if rotated then height else width
    let h := if rotated then width else height
    minimizeCore (rowReduce (workingMatrix matrix height width) h w) h w rotated

/-- The first `n` iterations of the main loop, as a state trace: `some s`
is the state at the start of outer iteration `n` (when the loop neither
returned nor panicked before that point). -/
def iterateN (h w : Nat) (rotated : Bool) : Nat → State → Option State
  | 0, s => some s
  | n + 1, s =>
    match stepOnce h w rotated s with
    | StepRes.cont s2 => iterateN h w rotated n s2
    | _ => none

/-- The number of starred cells within the working `h × w` range. -/
def starCount (stars : Nat → Nat → Bool) (h w : Nat) : Nat :=
  (((Finset.range h) ×ˢ (Finset.range w)).filter (fun p => stars p.1 p.2 = true)).card

/-- The number of augmentation steps among the first `n` iterations of the
main loop: an augmentation is the only continuing step that returns to the
verification mode (`verify = true`). -/
def augCount (h w : Nat) (rotated : Bool) : Nat → State → Nat
  | 0, _ => 0
  | n + 1, s =>
    match stepOnce h w rotated s with
    | StepRes.cont s2 =>
      (if s2.verify then 1 else 0) + augCount h w rotated n s2
    | _ => 0

/-- The total cost, read off the original row-major input slice, of an
assignment list: entry `p ↦ some j` contributes cell `(p, j)`; a `none`
entry contributes nothing. -/
def assignCost (matrix : List Int) (width : Nat) (r : List (Option Nat)) : Int :=
  (r.enum.map (fun p => match p.2 with
    | some j => readCost matrix width p.1 j
    | none => 0)).sum

/-- A valid partial assignment for a `height × width` cost matrix: one
optional column per row, columns in range and pairwise distinct, and of
the maximal size `min height width`. -/
def ValidAssign (height width : Nat) (r : List (Option Nat)) : Prop :=
  r.length = height ∧
  (∀ p j, p < height → r.getD p none = some j → j < width) ∧
  (∀ p q j, p < height → q < height → r.getD p none = some j →
    r.getD q none = some j → p = q) ∧
  r.countP (fun x => x.isSome) = min height width

/-- A dual certificate for a loop state over the working matrix `m0`: the
current matrix is `m0` shifted by row and column potentials, the column
potentials lie between `0` and `D`, and every column without a star has
potential exactly `D`. -/
def DualInv (m0 : Nat → Nat → Int) (h w : Nat) (s : State) : Prop :=
  ∃ u v : Nat → Int, ∃ D : Int,
    (∀ i j, i < h → j < w → s.m i j = m0 i j - u i - v j) ∧
    (∀ j, j < w → 0 ≤ v j ∧ v j ≤ D) ∧
    (∀ j, j < w → (∀ i, s.stars i j = false) → v j = D) ∧
    (∀ i, i < h → (∀ j, s.stars i j = false) → 0 ≤ u i)

/-- The loop's termination measure: missing stars count full phases; inside
a phase, the verification flag, then the uncovered rows, then whether the
scan for an uncovered zero currently fails. -/
def loopMeasure (h w : Nat) (s : State) : Nat :=
  (h - starCount s.stars h w) * (2 * h + 4) +
    (if s.verify then 2 * h + 3
     else 2 * (h - coverCount s.rowCover h) +
       (if findUZ s h w = none then 1 else 0))

/-- A one-sided dual certificate used to bound the growth of the working
matrix: the current matrix is `m0` shifted by potentials with `v ≥ 0`,
`u ≥ -D`, and `u ≥ 0` on star-free rows.  `D` grows by the adjustment
minimum each Step 6, so entries stay at most `max m0 + D`. -/
def DualBound (m0 : Nat → Nat → Int) (h w : Nat) (D : Int) (s : State) : Prop :=
  ∃ u v : Nat → Int,
    (∀ i j, i < h → j < w → s.m i j = m0 i j - u i - v j) ∧
    (∀ j, j < w → 0 ≤ v j) ∧
    (∀ i, i < h → -D ≤ u i) ∧
    (∀ i, i < h → (∀ j, s.stars i j = false) → 0 ≤ u i)

/-! ## Specification lemmas for the scan helpers -/

theorem findBelow_eq_none {p : Nat → Bool} {n : Nat}
    (h : findBelow p n = none) : ∀ k, k < n → p k = false := by
  induction n with
  | zero => intro k hk; omega
  | succ m ih =>
    intro k hk
    rw [findBelow] at h
    cases hfb : findBelow p m with
    | some j => rw [hfb] at h; exact absurd h (by simp)
    | none =>
      rw [hfb] at h
      by_cases hpm : p m = true
      · rw [if_pos hpm] at h; exact absurd h (by simp)
      · rcases Nat.lt_succ_iff_lt_or_eq.mp hk with hlt | rfl
        · exact ih hfb k hlt
        · simpa using hpm

theorem findBelow_eq_some {p : Nat → Bool} {n k : Nat}
    (h : findBelow p n = some k) :
    k < n ∧ p k = true ∧ ∀ m, m < k → p m = false := by
  induction n with
  | zero => exact absurd h (by simp [findBelow])
  | succ m ih =>
    rw [findBelow] at h
    cases hfb : findBelow p m with
    | some j =>
      rw [hfb] at h
      obtain rfl : j = k := by simpa using h
      obtain ⟨h1, h2, h3⟩ := ih hfb
      exact ⟨Nat.lt_succ_of_lt h1, h2, h3⟩
    | none =>
      rw [hfb] at h
      by_cases hpm : p m = true
      · rw [if_pos hpm] at h
        obtain rfl : m = k := by simpa using h
        exact ⟨Nat.lt_succ_self _, hpm, findBelow_eq_none hfb⟩
      · rw [if_neg hpm] at h; exact absurd h (by simp)

theorem findBelow_isSome {p : Nat → Bool} {n : Nat} :
    (findBelow p n).isSome = true ↔ ∃ k, k < n ∧ p k = true := by
  constructor
  · intro h
    cases hfb : findBelow p n with
    | none => rw [hfb] at h; exact absurd h (by simp)
    | some k => exact ⟨k, (findBelow_eq_some hfb).1, (findBelow_eq_some hfb).2.1⟩
  · rintro ⟨k, hk, hp⟩
    cases hfb : findBelow p n with
    | none => exact absurd (findBelow_eq_none hfb k hk) (by simp [hp])
    | some j => simp

theorem findBelow_eq_none_iff {p : Nat → Bool} {n : Nat} :
    findBelow p n = none ↔ ∀ k, k < n → p k = false := by
  constructor
  · exact findBelow_eq_none
  · intro h
    cases hfb : findBelow p n with
    | none => rfl
    | some k =>
      obtain ⟨h1, h2, _⟩ := findBelow_eq_some hfb
      exact absurd h2 (by simp [h k h1])

theorem findBelow_congr {p q : Nat → Bool} {n : Nat}
    (h : ∀ k, k < n → p k = q k) : findBelow p n = findBelow q n := by
  induction n with
  | zero => rfl
  | succ m ih =>
    rw [findBelow, findBelow, ih (fun k hk => h k (Nat.lt_succ_of_lt hk)),
      h m (Nat.lt_succ_self m)]

theorem minBelow_le {f : Nat → Int} {n k : Nat} (hk : k < n) :
    minBelow f n ≤ f k := by
  induction n with
  | zero => omega
  | succ m ih =>
    match m, ih with
    | 0, _ =>
      obtain rfl : k = 0 := by omega
      exact le_refl _
    | l + 1, ih =>
      show min (minBelow f (l + 1)) (f (l + 1)) ≤ f k
      rcases Nat.lt_succ_iff_lt_or_eq.mp hk with hlt | rfl
      · exact le_trans (min_le_left _ _) (ih hlt)
      · exact min_le_right _ _

theorem minBelow_mem {f : Nat → Int} {n : Nat} (hn : 0 < n) :
    ∃ k, k < n ∧ minBelow f n = f k := by
  induction n with
  | zero => omega
  | succ m ih =>
    match m, ih with
    | 0, _ => exact ⟨0, Nat.zero_lt_one, rfl⟩
    | l + 1, ih =>
      obtain ⟨k, hk, hmin⟩ := ih (Nat.succ_pos l)
      show ∃ k2, k2 < l + 2 ∧ min (minBelow f (l + 1)) (f (l + 1)) = f k2
      rcases le_total (minBelow f (l + 1)) (f (l + 1)) with hle | hle
      · exact ⟨k, Nat.lt_succ_of_lt hk, by rw [min_eq_left hle, hmin]⟩
      · exact ⟨l + 1, Nat.lt_succ_self _, min_eq_right hle⟩

theorem minBelow_congr {f g : Nat → Int} {n : Nat}
    (h : ∀ k, k < n → f k = g k) : minBelow f n = minBelow g n := by
  induction n with
  | zero => rfl
  | succ m ih =>
    match m, ih with
    | 0, _ => exact h 0 Nat.one_pos
    | l + 1, ih =>
      show min (minBelow f (l + 1)) (f (l + 1)) = min (minBelow g (l + 1)) (g (l + 1))
      rw [ih (fun k hk => h k (Nat.lt_succ_of_lt hk)), h (l + 1) (Nat.lt_succ_self _)]

theorem minBelow_sub_const {f : Nat → Int} {c : Int} {n : Nat} (hn : 0 < n) :
    minBelow (fun j => f j - c) n = minBelow f n - c := by
  induction n with
  | zero => omega
  | succ m ih =>
    match m, ih with
    | 0, _ => rfl
    | l + 1, ih =>
      show min (minBelow (fun j => f j - c) (l + 1)) (f (l + 1) - c) = _
      rw [ih (Nat.succ_pos l)]
      exact min_sub_sub_right _ _ _

/-! ## Reading the input: clamping, truncation, shifts -/

theorem clampNonneg_nonneg (x : Int) : 0 ≤ clampNonneg x := by
  unfold clampNonneg; split <;> omega

theorem clampNonneg_idem (x : Int) : clampNonneg (clampNonneg x) = clampNonneg x := by
  unfold clampNonneg; split <;> simp

theorem clampNonneg_eq_self {x : Int} (h : 0 ≤ x) : clampNonneg x = x :=
  if_neg (by omega)

theorem readCost_map_clamp (matrix : List Int) (width i j : Nat) :
    readCost (matrix.map clampNonneg) width i j = clampNonneg (readCost matrix width i j) := by
  unfold readCost
  rw [List.getD_eq_getElem?_getD, List.getD_eq_getElem?_getD, List.getElem?_map]
  cases matrix[width * i + j]? with
  | none => simp [clampNonneg]
  | some x => simp

theorem readCost_take {matrix : List Int} {n width i j : Nat}
    (hn : width * i + j < n) :
    readCost (matrix.take n) width i j = readCost matrix width i j := by
  unfold readCost
  rw [List.getD_eq_getElem?_getD, List.getD_eq_getElem?_getD, List.getElem?_take,
    if_pos hn]

theorem workingMatrix_map_clamp (matrix : List Int) (height width : Nat) :
    workingMatrix (matrix.map clampNonneg) height width = workingMatrix matrix height width := by
  unfold workingMatrix
  split <;> funext a b <;> split
  · rw [readCost_map_clamp, clampNonneg_idem]
  · rfl
  · rw [readCost_map_clamp, clampNonneg_idem]
  · rfl

theorem workingMatrix_take {matrix : List Int} {height width : Nat} :
    workingMatrix (matrix.take (height * width)) height width = workingMatrix matrix height width := by
  unfold workingMatrix
  split <;> funext a b
  · by_cases hg : a < width ∧ b < height
    · rw [if_pos hg, if_pos hg, readCost_take]
      have h1 : width - 1 - a < width := by omega
      calc width * b + (width - 1 - a) < width * b + width := by omega
        _ = width * (b + 1) := by ring
        _ ≤ width * height := Nat.mul_le_mul_left width hg.2
        _ = height * width := Nat.mul_comm _ _
    · rw [if_neg hg, if_neg hg]
  · by_cases hg : a < height ∧ b < width
    · rw [if_pos hg, if_pos hg, readCost_take]
      calc width * a + b < width * a + width := by omega
        _ = width * (a + 1) := by ring
        _ ≤ width * height := Nat.mul_le_mul_left width hg.1
        _ = height * width := Nat.mul_comm _ _
    · rw [if_neg hg, if_neg hg]

theorem minimize_map_clamp (matrix : List Int) (height width : Nat) :
    minimize matrix height width = minimize (matrix.map clampNonneg) height width := by
  unfold minimize
  rw [List.length_map, workingMatrix_map_clamp]

theorem minimize_take {matrix : List Int} {height width : Nat}
    (hlen : height * width ≤ matrix.length) :
    minimize matrix height width = minimize (matrix.take (height * width)) height width := by
  unfold minimize
  rw [List.length_take, workingMatrix_take]
  have : min (height * width) matrix.length = height * width := min_eq_left hlen
  rw [this]
  by_cases h0 : height = 0 ∨ width = 0
  · rw [if_pos h0, if_pos h0]
  · rw [if_neg h0, if_neg h0, if_neg (by omega), if_neg (by omega)]

theorem minimize_short {matrix : List Int} {height width : Nat}
    (hh : 0 < height) (hw : 0 < width) (hlen : matrix.length < height * width) :
    minimize matrix height width = none := by
  unfold minimize
  rw [if_neg (by omega), if_pos hlen]

/-- Row- and column-shift congruence at the level of the reduced working
matrix: if `m2` is `m` with the constant `c` subtracted from working row
`i0`, the two matrices row-reduce identically. -/
theorem rowReduce_shift {m m2 : Nat → Nat → Int} {h w i0 : Nat} {c : Int}
    (hm : ∀ i j, i < h → j < w → m2 i j = m i j - (if i = i0 then c else 0)) :
    rowReduce m2 h w = rowReduce m h w := by
  funext i j
  unfold rowReduce
  by_cases hg : i < h ∧ j < w
  · rw [if_pos hg, if_pos hg]
    have hw0 : 0 < w := by omega
    by_cases hi : i = i0
    · subst hi
      have hmin : minBelow (m2 i) w = minBelow (m i) w - c := by
        rw [minBelow_congr (g := fun b => m i b - c)
          (fun k hk => by rw [hm i k hg.1 hk, if_pos rfl]), minBelow_sub_const hw0]
      rw [hmin, hm i j hg.1 hg.2, if_pos rfl]
      ring
    · have hrow : ∀ k, k < w → m2 i k = m i k := fun k hk => by
        rw [hm i k hg.1 hk, if_neg hi]; ring
      rw [minBelow_congr hrow, hrow j hg.2]
  · rw [if_neg hg, if_neg hg]

/-- Shifting one row of an unrotated input (`height ≤ width`) by a
constant does not change the result: the row reduction cancels the
shift. -/
theorem minimize_rowShift {matrix matrix2 : List Int} {height width i0 : Nat} {c : Int}
    (hrot : height ≤ width) (hi0 : i0 < height)
    (hlen : matrix2.length = matrix.length)
    (hval : ∀ k, k < matrix.length →
      matrix2.getD k 0 = matrix.getD k 0 - (if k / width = i0 then c else 0))
    (hnn : ∀ k, k < matrix.length → 0 ≤ matrix.getD k 0)
    (hnn2 : ∀ k, k < matrix2.length → 0 ≤ matrix2.getD k 0) :
    minimize matrix2 height width = minimize matrix height width := by
  by_cases h0 : height = 0 ∨ width = 0
  · unfold minimize; rw [if_pos h0, if_pos h0]
  · push_neg at h0
    by_cases hshort : matrix.length < height * width
    · rw [minimize_short (by omega) (by omega) (by omega),
        minimize_short (by omega) (by omega) hshort]
    · have hwlt : ¬ (width < height) := by omega
      have hw0 : 0 < width := by omega
      have hm : ∀ i j, i < height → j < width →
          workingMatrix matrix2 height width i j =
            workingMatrix matrix height width i j - (if i = i0 then c else 0) := by
        intro i j hi hj
        have hk : width * i + j < matrix.length := by
          calc width * i + j < width * i + width := by omega
            _ = width * (i + 1) := by ring
            _ ≤ width * height := Nat.mul_le_mul_left width hi
            _ = height * width := Nat.mul_comm _ _
            _ ≤ matrix.length := by omega
        have hdiv : (width * i + j) / width = i := by
          rw [Nat.mul_add_div hw0, Nat.div_eq_of_lt hj]
          omega
        have hg : i < height ∧ j < width := ⟨hi, hj⟩
        unfold workingMatrix
        rw [if_neg hwlt, if_neg hwlt]
        rw [if_pos hg, if_pos hg]
        unfold readCost
        rw [clampNonneg_eq_self (hnn2 _ (by omega)), clampNonneg_eq_self (hnn _ hk),
          hval _ hk, hdiv]
      have hcond : ¬ (height = 0 ∨ width = 0) := by omega
      unfold minimize
      rw [hlen]
      simp only [if_neg hcond, if_neg hshort, if_neg hwlt, decide_eq_false hwlt]
      rw [rowReduce_shift hm]


/-- Shifting one column of a rotated input (`width < height`) by a
constant does not change the result: the column becomes a working row,
and the row reduction cancels the shift. -/
theorem minimize_colShift {matrix matrix2 : List Int} {height width j0 : Nat} {c : Int}
    (hrot : width < height) (hj0 : j0 < width)
    (hlen : matrix2.length = matrix.length)
    (hval : ∀ k, k < matrix.length →
      matrix2.getD k 0 = matrix.getD k 0 - (if k % width = j0 then c else 0))
    (hnn : ∀ k, k < matrix.length → 0 ≤ matrix.getD k 0)
    (hnn2 : ∀ k, k < matrix2.length → 0 ≤ matrix2.getD k 0) :
    minimize matrix2 height width = minimize matrix height width := by
  by_cases h0 : height = 0 ∨ width = 0
  · unfold minimize; rw [if_pos h0, if_pos h0]
  · push_neg at h0
    by_cases hshort : matrix.length < height * width
    · rw [minimize_short (by omega) (by omega) (by omega),
        minimize_short (by omega) (by omega) hshort]
    · have hw0 : 0 < width := by omega
      have hm : ∀ r s, r < width → s < height →
          workingMatrix matrix2 height width r s =
            workingMatrix matrix height width r s - (if r = width - 1 - j0 then c else 0) := by
        intro r s hr hs
        have hk : width * s + (width - 1 - r) < matrix.length := by
          calc width * s + (width - 1 - r) < width * s + width := by omega
            _ = width * (s + 1) := by ring
            _ ≤ width * height := Nat.mul_le_mul_left width hs
            _ = height * width := Nat.mul_comm _ _
            _ ≤ matrix.length := by omega
        have hmod : (width * s + (width - 1 - r)) % width = width - 1 - r := by
          rw [Nat.mul_add_mod]
          exact Nat.mod_eq_of_lt (by omega)
        have hg : r < width ∧ s < height := ⟨hr, hs⟩
        unfold workingMatrix
        rw [if_pos hrot, if_pos hrot]
        rw [if_pos hg, if_pos hg]
        unfold readCost
        rw [clampNonneg_eq_self (hnn2 _ (by omega)), clampNonneg_eq_self (hnn _ hk),
          hval _ hk, hmod]
        congr 1
        exact if_congr (by constructor <;> intro <;> omega) rfl rfl
      have hcond : ¬ (height = 0 ∨ width = 0) := by omega
      unfold minimize
      rw [hlen]
      simp only [if_neg hcond, if_neg hshort, if_pos hrot, decide_eq_true hrot]
      rw [rowReduce_shift hm]

/-! ## Shape of the returned assignment -/

theorem length_foldl_set (ps : List (Nat × Nat)) (f : Nat × Nat → Option Nat)
    (init : List (Option Nat)) :
    (ps.foldl (fun res ij => res.set ij.2 (f ij)) init).length = init.length := by
  induction ps generalizing init with
  | nil => rfl
  | cons p tl ih => rw [List.foldl_cons, ih, List.length_set]

theorem mem_foldl_set {ps : List (Nat × Nat)} {f : Nat × Nat → Option Nat}
    {init : List (Option Nat)} {x : Option Nat}
    (hx : x ∈ ps.foldl (fun res ij => res.set ij.2 (f ij)) init) :
    x ∈ init ∨ ∃ ij ∈ ps, x = f ij := by
  induction ps generalizing init with
  | nil => exact Or.inl hx
  | cons p tl ih =>
    rw [List.foldl_cons] at hx
    rcases ih hx with hmem | ⟨ij, hij, rfl⟩
    · rcases List.mem_or_eq_of_mem_set hmem with hmem2 | rfl
      · exact Or.inl hmem2
      · exact Or.inr ⟨p, List.mem_cons_self _ _, rfl⟩
    · exact Or.inr ⟨ij, List.mem_cons_of_mem _ hij, rfl⟩

/-- The `done` outcome of an iteration always carries an extracted
result. -/
theorem stepOnce_done {h w : Nat} {rotated : Bool} {s : State} {r : List (Option Nat)}
    (hstep : stepOnce h w rotated s = StepRes.done r) :
    extract s.stars h w rotated = some r := by
  unfold stepOnce at hstep
  split at hstep
  · split at hstep
    · rename_i r2 hex
      cases hstep
      exact hex
    · cases hstep
  · split at hstep
    · cases hstep
    · split at hstep
      · cases hstep
      · split at hstep
        · cases hstep
        · cases hstep

/-- Any result of the main loop is an extraction from some state's star
set. -/
theorem loopRun_some {h w : Nat} {rotated : Bool} {fuel : Nat} {s : State}
    {r : List (Option Nat)} (hrun : loopRun h w rotated fuel s = some r) :
    ∃ st : State, extract st.stars h w rotated = some r := by
  induction fuel generalizing s with
  | zero => exact absurd hrun (by simp [loopRun])
  | succ n ih =>
    rw [loopRun] at hrun
    cases hstep : stepOnce h w rotated s with
    | done r2 =>
      rw [hstep] at hrun
      obtain rfl : r2 = r := by cases hrun; rfl
      exact ⟨s, stepOnce_done hstep⟩
    | panic => rw [hstep] at hrun; exact absurd hrun (by simp)
    | cont s2 => rw [hstep] at hrun; exact ih hrun

theorem extract_length {stars : Nat → Nat → Bool} {h w : Nat} {rotated : Bool}
    {r : List (Option Nat)} (hex : extract stars h w rotated = some r) :
    r.length = if rotated then w else h := by
  unfold extract at hex
  split at hex
  · split at hex
    · rename_i hrot
      cases hex
      rw [if_pos hrot, length_foldl_set _ (fun ij => some (h - ij.1 - 1)),
        List.length_replicate]
    · rename_i hrot
      cases hex
      rw [if_neg hrot]
      simp
  · cases hex

theorem extract_isSome_unrotated {stars : Nat → Nat → Bool} {h w : Nat}
    {r : List (Option Nat)} (hex : extract stars h w false = some r) :
    ∀ x ∈ r, x.isSome = true := by
  unfold extract at hex
  split at hex
  · rename_i hall
    split at hex
    · rename_i hrot
      cases hrot
    · cases hex
      intro x hx
      obtain ⟨i, hi, rfl⟩ := List.mem_map.mp hx
      exact hall i hi
  · cases hex

theorem extract_entry_lt {stars : Nat → Nat → Bool} {h w : Nat} {rotated : Bool}
    {r : List (Option Nat)} (hex : extract stars h w rotated = some r) (hh : 0 < h) :
    ∀ x ∈ r, ∀ j, x = some j → j < if rotated then h else w := by
  unfold extract at hex
  split at hex
  · split at hex
    · rename_i hrot
      cases hex
      intro x hx j hj
      rcases mem_foldl_set hx with hmem | ⟨ij, _, rfl⟩
      · subst hj
        exact absurd (List.eq_of_mem_replicate hmem) (by simp)
      · obtain rfl : h - ij.1 - 1 = j := by
          simpa using hj
        rw [if_pos hrot]
        omega
    · rename_i hrot
      cases hex
      intro x hx j hj
      obtain ⟨i, _, rfl⟩ := List.mem_map.mp hx
      rw [if_neg hrot]
      exact (findBelow_eq_some (hj ▸ rfl : findBelow (fun b => stars i b) w = some j)).1
  · cases hex

/-- `minimize` on non-degenerate dimensions, with the orientation made
explicit. -/
theorem minimize_eq_core {matrix : List Int} {height width : Nat}
    (h1 : ¬(height = 0 ∨ width = 0)) (h2 : ¬(matrix.length < height * width)) :
    minimize matrix height width =
      if width < height then
        minimizeCore (rowReduce (workingMatrix matrix height width) width height)
          width height true
      else
        minimizeCore (rowReduce (workingMatrix matrix height width) height width)
          height width false := by
  unfold minimize
  rw [if_neg h1, if_neg h2]
  by_cases hr : width < height
  · simp only [if_pos hr, decide_eq_true hr]
  · simp only [if_neg hr, decide_eq_false hr]

/-! ## The loop invariant -/

/-- Facts about the star set and the reduced matrix that hold at every
point of the main loop: the stars are in range, form a partial matching,
and sit on zero entries of the (non-negative) reduced matrix. -/
structure StarInv (h w : Nat) (s : State) : Prop where
  lt : ∀ i j, s.stars i j = true → i < h ∧ j < w
  rowU : ∀ i j j2, s.stars i j = true → s.stars i j2 = true → j = j2
  colU : ∀ i i2 j, s.stars i j = true → s.stars i2 j = true → i = i2
  zero : ∀ i j, s.stars i j = true → s.m i j = 0
  nonneg : ∀ i j, i < h → j < w → 0 ≤ s.m i j

/-- Facts that hold in mid-phase states (after Step 3 has been applied):
properties of the primes, the covers, and the creation-order rank that
makes the augmenting path acyclic. -/
structure MidInv (h w : Nat) (s : State) : Prop where
  primes_lt : ∀ i j, s.primes i j = true → i < h ∧ j < w
  primes_row : ∀ i j j2, s.primes i j = true → s.primes i j2 = true → j = j2
  primes_zero : ∀ i j, s.primes i j = true → s.m i j = 0
  prime_cover : ∀ i j, s.primes i j = true → s.rowCover i = true ∧ s.colCover j = false
  star_cover : ∀ i j, s.stars i j = true → (s.rowCover i = true ↔ s.colCover j = false)
  rowCover_lt : ∀ i, s.rowCover i = true → i < h
  colCover_lt : ∀ j, s.colCover j = true → j < w
  colCover_star : ∀ j, s.colCover j = true → ∃ i, s.stars i j = true
  rowCover_prime : ∀ i, s.rowCover i = true → ∃ j, s.primes i j = true
  rowCover_star : ∀ i, s.rowCover i = true → ∃ j, s.stars i j = true
  disj : ∀ i j, s.stars i j = true → s.primes i j = false
  rank : ∃ rk : Nat → Nat, ∀ i j i2 j2, s.primes i j = true → s.stars i2 j = true →
    s.primes i2 j2 = true → rk i2 < rk i
  incomplete : ∃ i, i < h ∧ ∀ j, s.stars i j = false

/-- Phase-boundary states (`verify = true`): both covers and the prime set
are clear. -/
def VerifyInv (s : State) : Prop :=
  (∀ i, s.rowCover i = false) ∧ (∀ j, s.colCover j = false) ∧
    (∀ i j, s.primes i j = false)

/-- The full loop invariant. -/
def Inv (h w : Nat) (s : State) : Prop :=
  StarInv h w s ∧
    ((s.verify = true ∧ VerifyInv s) ∨ (s.verify = false ∧ MidInv h w s))

theorem findUZ_some {s : State} {h w i j : Nat} (hf : findUZ s h w = some (i, j)) :
    i < h ∧ j < w ∧ s.rowCover i = false ∧ s.colCover j = false ∧ s.m i j = 0 := by
  unfold findUZ at hf
  split at hf
  · cases hf
  · rename_i i1 houter
    split at hf
    · rename_i j1 hinner
      cases hf
      obtain ⟨hi, hpi, _⟩ := findBelow_eq_some houter
      obtain ⟨hj, hpj, _⟩ := findBelow_eq_some hinner
      simp only [Bool.and_eq_true, Bool.not_eq_true', decide_eq_true_eq] at hpi hpj
      exact ⟨hi, hj, hpi.1, hpj.1, hpj.2⟩
    · cases hf

theorem findUZ_none {s : State} {h w : Nat} (hf : findUZ s h w = none) :
    ∀ i j, i < h → j < w → s.rowCover i = false → s.colCover j = false →
      ¬ s.m i j = 0 := by
  intro i j hi hj hri hcj hz
  unfold findUZ at hf
  split at hf
  · rename_i houter
    have hall := findBelow_eq_none houter i hi
    simp only [Bool.and_eq_true, Bool.not_eq_true'] at hall
    have hsome : (findBelow (fun j => !s.colCover j && decide (s.m i j = 0)) w).isSome = true :=
      findBelow_isSome.mpr ⟨j, hj, by simp [hcj, hz]⟩
    rcases Bool.and_eq_false_iff.mp hall with hl | hr
    · simp [hri] at hl
    · simp [hsome] at hr
  · rename_i i1 houter
    split at hf
    · cases hf
    · rename_i hinner
      obtain ⟨_, hpi, _⟩ := findBelow_eq_some houter
      simp only [Bool.and_eq_true, Bool.not_eq_true'] at hpi
      rw [hinner] at hpi
      exact absurd hpi.2 (by simp)

/-- The step 4 scan succeeds whenever an uncovered zero exists. -/
theorem findUZ_isSome {s : State} {h w : Nat}
    (hex : ∃ i j, i < h ∧ j < w ∧ s.rowCover i = false ∧ s.colCover j = false ∧
      s.m i j = 0) :
    (findUZ s h w).isSome = true := by
  obtain ⟨i, j, hi, hj, hri, hcj, hz⟩ := hex
  have hinner : (findBelow (fun j => !s.colCover j && decide (s.m i j = 0)) w).isSome
      = true := findBelow_isSome.mpr ⟨j, hj, by simp [hcj, hz]⟩
  have houter : (findBelow
      (fun i => !s.rowCover i &&
        (findBelow (fun j => !s.colCover j && decide (s.m i j = 0)) w).isSome)
      h).isSome = true :=
    findBelow_isSome.mpr ⟨i, hi, by simp [hri, hinner]⟩
  unfold findUZ
  split
  · rename_i hfo
    rw [hfo] at houter
    simp at houter
  · rename_i i2 hfo
    have hp2 := (findBelow_eq_some hfo).2.1
    simp only [Bool.and_eq_true] at hp2
    split
    · simp
    · rename_i hfi
      rw [hfi] at hp2
      exact absurd hp2.2 (by simp)

/-- With a star-free row present and at least as many columns as rows,
some column is uncovered (each covered column holds a star, and those
stars occupy distinct rows other than the star-free one). -/
theorem exists_uncovered_col {h w : Nat} {s : State} (hS : StarInv h w s)
    (hM : MidInv h w s) (hw : h ≤ w) :
    ∃ j, j < w ∧ s.colCover j = false := by
  obtain ⟨istar, hilt, hnos⟩ := hM.incomplete
  by_contra hall
  push_neg at hall
  have hcov : ∀ j, j < w → s.colCover j = true := by
    intro j hj
    cases hc : s.colCover j with
    | false => exact absurd hc (hall j hj)
    | true => rfl
  have hfstar : ∀ j, j < w →
      s.stars ((findBelow (fun a => s.stars a j) h).getD 0) j = true := by
    intro j hj
    obtain ⟨a, ha⟩ := hM.colCover_star j (hcov j hj)
    have hsome : (findBelow (fun a => s.stars a j) h).isSome = true :=
      findBelow_isSome.mpr ⟨a, (hS.lt a j ha).1, ha⟩
    cases hfb : findBelow (fun a => s.stars a j) h with
    | none => rw [hfb] at hsome; simp at hsome
    | some a2 =>
      simp only [hfb, Option.getD_some]
      exact (findBelow_eq_some hfb).2.1
  have hcard : (Finset.range w).card ≤ ((Finset.range h).erase istar).card := by
    apply Finset.card_le_card_of_injOn
      (fun j => (findBelow (fun a => s.stars a j) h).getD 0)
    · intro j hj
      have hjw := Finset.mem_range.mp hj
      have hst := hfstar j hjw
      refine Finset.mem_erase.mpr ⟨?_, Finset.mem_range.mpr (hS.lt _ j hst).1⟩
      intro heq
      rw [heq] at hst
      rw [hnos j] at hst
      cases hst
    · intro j1 hj1 j2 hj2 heq
      have heq2 : (findBelow (fun a => s.stars a j1) h).getD 0 =
          (findBelow (fun a => s.stars a j2) h).getD 0 := heq
      exact hS.rowU _ j1 j2 (hfstar j1 (Finset.mem_range.mp hj1))
        (by rw [heq2]; exact hfstar j2 (Finset.mem_range.mp hj2))
  rw [Finset.card_range, Finset.card_erase_of_mem (Finset.mem_range.mpr hilt),
    Finset.card_range] at hcard
  omega

/-- The greedy initializer produces an in-range partial matching on zero
entries, whose starred columns are exactly recorded in its cover. -/
theorem greedyInit_spec (m : Nat → Nat → Int) (w : Nat) :
    ∀ n,
      (∀ i j, (greedyInit m w n).1 i j = true → i < n ∧ j < w ∧ m i j = 0) ∧
      (∀ i j, (greedyInit m w n).1 i j = true → (greedyInit m w n).2 j = true) ∧
      (∀ i j j2, (greedyInit m w n).1 i j = true → (greedyInit m w n).1 i j2 = true → j = j2) ∧
      (∀ i i2 j, (greedyInit m w n).1 i j = true → (greedyInit m w n).1 i2 j = true → i = i2) := by
  intro n
  induction n with
  | zero =>
    refine ⟨?_, ?_, ?_, ?_⟩
    · intro i j hij; simp [greedyInit] at hij
    · intro i j hij; simp [greedyInit] at hij
    · intro i j j2 hij hij2; simp [greedyInit] at hij
    · intro i i2 j hij hij2; simp [greedyInit] at hij
  | succ n ih =>
    obtain ⟨ih1, ih2, ih3, ih4⟩ := ih
    rw [greedyInit]
    cases hfb : findBelow (fun j => !(greedyInit m w n).2 j && decide (m n j = 0)) w with
    | none =>
      refine ⟨fun i j hij => ?_, ih2, ih3, ih4⟩
      obtain ⟨h1, h2, h3⟩ := ih1 i j hij
      exact ⟨Nat.lt_succ_of_lt h1, h2, h3⟩
    | some jst =>
      obtain ⟨hjw, hpred, _⟩ := findBelow_eq_some hfb
      simp only [Bool.and_eq_true, Bool.not_eq_true', decide_eq_true_eq] at hpred
      refine ⟨?_, ?_, ?_, ?_⟩
      · intro i j hij
        simp only at hij
        by_cases hc : i = n ∧ j = jst
        · exact ⟨by omega, hc.2 ▸ hjw, by rw [hc.1, hc.2]; exact hpred.2⟩
        · rw [if_neg hc] at hij
          obtain ⟨h1, h2, h3⟩ := ih1 i j hij
          exact ⟨Nat.lt_succ_of_lt h1, h2, h3⟩
      · intro i j hij
        simp only at hij ⊢
        by_cases hc : i = n ∧ j = jst
        · rw [if_pos hc.2]
        · rw [if_neg hc] at hij
          by_cases hj : j = jst
          · rw [if_pos hj]
          · rw [if_neg hj]
            exact ih2 i j hij
      · intro i j j2 hij hij2
        simp only at hij hij2
        by_cases hc : i = n ∧ j = jst
        · by_cases hc2 : i = n ∧ j2 = jst
          · rw [hc.2, hc2.2]
          · rw [if_neg hc2] at hij2
            have := (ih1 i j2 hij2).1
            omega
        · rw [if_neg hc] at hij
          by_cases hc2 : i = n ∧ j2 = jst
          · have := (ih1 i j hij).1
            omega
          · rw [if_neg hc2] at hij2
            exact ih3 i j j2 hij hij2
      · intro i i2 j hij hij2
        simp only at hij hij2
        by_cases hc : i = n ∧ j = jst
        · by_cases hc2 : i2 = n ∧ j = jst
          · rw [hc.1, hc2.1]
          · rw [if_neg hc2] at hij2
            have hcov := ih2 i2 j hij2
            rw [hc.2] at hcov
            exact absurd hcov (by simp [hpred.1])
        · rw [if_neg hc] at hij
          by_cases hc2 : i2 = n ∧ j = jst
          · have hcov := ih2 i j hij
            rw [hc2.2] at hcov
            exact absurd hcov (by simp [hpred.1])
          · rw [if_neg hc2] at hij2
            exact ih4 i i2 j hij hij2

/-! ## Bounds for the dual adjustment minimum -/

theorem foldlMin_le_init (s : State) (i : Nat) (l : List Nat) (acc : Int) :
    l.foldl (fun acc2 j => if s.colCover j then acc2
      else if s.m i j < acc2 then s.m i j else acc2) acc ≤ acc := by
  induction l generalizing acc with
  | nil => exact le_refl _
  | cons c tl ih =>
    rw [List.foldl_cons]
    refine le_trans (ih _) ?_
    split
    · exact le_refl _
    · split
      · omega
      · exact le_refl _

theorem foldlMin_le_mem (s : State) (i : Nat) (l : List Nat) (acc : Int) {j : Nat}
    (hj : j ∈ l) (hcj : s.colCover j = false) :
    l.foldl (fun acc2 j => if s.colCover j then acc2
      else if s.m i j < acc2 then s.m i j else acc2) acc ≤ s.m i j := by
  induction l generalizing acc with
  | nil => cases hj
  | cons c tl ih =>
    rw [List.foldl_cons]
    rcases List.mem_cons.mp hj with rfl | hmem
    · refine le_trans (foldlMin_le_init s i tl _) ?_
      rw [hcj]
      simp only [Bool.false_eq_true, if_false]
      split
      · exact le_refl _
      · omega
    · exact ih _ hmem

theorem foldlMin_lb (s : State) (i : Nat) (l : List Nat) (acc : Int) {c : Int}
    (hacc : c ≤ acc)
    (hm : ∀ j ∈ l, s.colCover j = false → c ≤ s.m i j) :
    c ≤ l.foldl (fun acc2 j => if s.colCover j then acc2
      else if s.m i j < acc2 then s.m i j else acc2) acc := by
  induction l generalizing acc with
  | nil => exact hacc
  | cons d tl ih =>
    rw [List.foldl_cons]
    refine ih _ ?_ (fun j hj hcj => hm j (List.mem_cons_of_mem _ hj) hcj)
    cases hcd : s.colCover d with
    | true => simpa [hcd] using hacc
    | false =>
      have := hm d (List.mem_cons_self _ _) hcd
      simp only [Bool.false_eq_true, if_false]
      split
      · exact this
      · exact hacc

theorem outerFold_le_init (s : State) (w : Nat) (l : List Nat) (acc : Int) :
    l.foldl (fun acc i => if s.rowCover i then acc
      else (List.range w).foldl (fun acc2 j => if s.colCover j then acc2
        else if s.m i j < acc2 then s.m i j else acc2) acc) acc ≤ acc := by
  induction l generalizing acc with
  | nil => exact le_refl _
  | cons c tl ih =>
    rw [List.foldl_cons]
    refine le_trans (ih _) ?_
    split
    · exact le_refl _
    · exact foldlMin_le_init s c (List.range w) acc

theorem uncoveredMin_le {s : State} {h w i j : Nat} (hi : i < h) (hj : j < w)
    (hri : s.rowCover i = false) (hcj : s.colCover j = false) :
    uncoveredMin s h w ≤ s.m i j := by
  unfold uncoveredMin
  have hmem : i ∈ List.range h := List.mem_range.mpr hi
  obtain ⟨l1, l2, hl⟩ := List.append_of_mem hmem
  rw [hl, List.foldl_append, List.foldl_cons]
  refine le_trans (outerFold_le_init s w l2 _) ?_
  rw [hri]
  simp only [Bool.false_eq_true, if_false]
  exact foldlMin_le_mem s i (List.range w) _ (List.mem_range.mpr hj) hcj

theorem uncoveredMin_lb {s : State} {h w : Nat} {c : Int} (hsent : c ≤ SENTINEL)
    (hm : ∀ i j, i < h → j < w → s.rowCover i = false → s.colCover j = false →
      c ≤ s.m i j) :
    c ≤ uncoveredMin s h w := by
  unfold uncoveredMin
  have : ∀ l : List Nat, (∀ i ∈ l, i < h) → ∀ acc : Int, c ≤ acc →
      c ≤ l.foldl (fun acc i => if s.rowCover i then acc
        else (List.range w).foldl (fun acc2 j => if s.colCover j then acc2
          else if s.m i j < acc2 then s.m i j else acc2) acc) acc := by
    intro l
    induction l with
    | nil => intro _ acc hacc; exact hacc
    | cons d tl ih =>
      intro hlt acc hacc
      rw [List.foldl_cons]
      refine ih (fun i hi => hlt i (List.mem_cons_of_mem _ hi)) _ ?_
      cases hrd : s.rowCover d with
      | true => simpa [hrd] using hacc
      | false =>
        simp only [Bool.false_eq_true, if_false]
        exact foldlMin_lb s d (List.range w) acc hacc
          (fun j hj hcj => hm d j (hlt d (List.mem_cons_self _ _))
            (List.mem_range.mp hj) hrd hcj)
  exact this (List.range h) (fun i hi => List.mem_range.mp hi) SENTINEL hsent

theorem foldlMin_attain (s : State) (i : Nat) (l : List Nat) (acc : Int) :
    l.foldl (fun acc2 j => if s.colCover j then acc2
      else if s.m i j < acc2 then s.m i j else acc2) acc = acc ∨
    ∃ j ∈ l, s.colCover j = false ∧
      l.foldl (fun acc2 j => if s.colCover j then acc2
        else if s.m i j < acc2 then s.m i j else acc2) acc = s.m i j := by
  induction l generalizing acc with
  | nil => exact Or.inl rfl
  | cons d tl ih =>
    rw [List.foldl_cons]
    by_cases hcd : s.colCover d = true
    · rw [if_pos hcd]
      rcases ih acc with h1 | ⟨j, hj, hcj, hfold⟩
      · exact Or.inl h1
      · exact Or.inr ⟨j, List.mem_cons_of_mem _ hj, hcj, hfold⟩
    · rw [if_neg hcd]
      have hcdf : s.colCover d = false := Bool.eq_false_iff.mpr hcd
      by_cases hlt : s.m i d < acc
      · rw [if_pos hlt]
        rcases ih (s.m i d) with h1 | ⟨j, hj, hcj, hfold⟩
        · exact Or.inr ⟨d, List.mem_cons_self _ _, hcdf, h1⟩
        · exact Or.inr ⟨j, List.mem_cons_of_mem _ hj, hcj, hfold⟩
      · rw [if_neg hlt]
        rcases ih acc with h1 | ⟨j, hj, hcj, hfold⟩
        · exact Or.inl h1
        · exact Or.inr ⟨j, List.mem_cons_of_mem _ hj, hcj, hfold⟩

theorem outerFold_attain (s : State) (w : Nat) (l : List Nat) (acc : Int) :
    l.foldl (fun acc i => if s.rowCover i then acc
      else (List.range w).foldl (fun acc2 j => if s.colCover j then acc2
        else if s.m i j < acc2 then s.m i j else acc2) acc) acc = acc ∨
    ∃ i ∈ l, s.rowCover i = false ∧ ∃ j ∈ List.range w, s.colCover j = false ∧
      l.foldl (fun acc i => if s.rowCover i then acc
        else (List.range w).foldl (fun acc2 j => if s.colCover j then acc2
          else if s.m i j < acc2 then s.m i j else acc2) acc) acc = s.m i j := by
  induction l generalizing acc with
  | nil => exact Or.inl rfl
  | cons d tl ih =>
    rw [List.foldl_cons]
    by_cases hrd : s.rowCover d = true
    · rw [if_pos hrd]
      rcases ih acc with h1 | ⟨i, hi, hri, j, hj, hcj, hfold⟩
      · exact Or.inl h1
      · exact Or.inr ⟨i, List.mem_cons_of_mem _ hi, hri, j, hj, hcj, hfold⟩
    · rw [if_neg hrd]
      have hrdf : s.rowCover d = false := Bool.eq_false_iff.mpr hrd
      rcases ih ((List.range w).foldl (fun acc2 j => if s.colCover j then acc2
          else if s.m d j < acc2 then s.m d j else acc2) acc) with
        h1 | ⟨i, hi, hri, j, hj, hcj, hfold⟩
      · rcases foldlMin_attain s d (List.range w) acc with h2 | ⟨j, hj, hcj, h2⟩
        · exact Or.inl (by rw [h1, h2])
        · exact Or.inr ⟨d, List.mem_cons_self _ _, hrdf, j, hj, hcj, by rw [h1, h2]⟩
      · exact Or.inr ⟨i, List.mem_cons_of_mem _ hi, hri, j, hj, hcj, hfold⟩

/-- The uncovered minimum is either the untouched sentinel or an actual
uncovered entry. -/
theorem uncoveredMin_attain (s : State) (h w : Nat) :
    uncoveredMin s h w = SENTINEL ∨
    ∃ i j, i < h ∧ j < w ∧ s.rowCover i = false ∧ s.colCover j = false ∧
      uncoveredMin s h w = s.m i j := by
  unfold uncoveredMin
  rcases outerFold_attain s w (List.range h) SENTINEL with
    h1 | ⟨i, hi, hri, j, hj, hcj, hfold⟩
  · exact Or.inl h1
  · exact Or.inr ⟨i, j, List.mem_range.mp hi, List.mem_range.mp hj, hri, hcj, hfold⟩

/-- After a dual adjustment on a bounded, dual-certified mid-phase state
with at least as many columns as rows, an uncovered zero exists (the
adjustment subtracts the uncovered minimum, which is attained, or else
equals the sentinel that some star-free uncovered cell already carries). -/
theorem adjust_zero {m0 : Nat → Nat → Int} {h w : Nat} {s : State}
    (hS : StarInv h w s) (hM : MidInv h w s) (hD : DualInv m0 h w s)
    (hbd : ∀ i j, i < h → j < w → m0 i j ≤ SENTINEL) (hw : h ≤ w) :
    ∃ i j, i < h ∧ j < w ∧ (adjustState s h w).rowCover i = false ∧
      (adjustState s h w).colCover j = false ∧ (adjustState s h w).m i j = 0 := by
  rcases uncoveredMin_attain s h w with hsent | ⟨i, j, hi, hj, hri, hcj, hval⟩
  · obtain ⟨istar, hilt, hnos⟩ := hM.incomplete
    have hriu : s.rowCover istar = false := by
      cases hrc : s.rowCover istar with
      | false => rfl
      | true =>
        obtain ⟨b, hb⟩ := hM.rowCover_star istar hrc
        rw [hnos b] at hb
        cases hb
    obtain ⟨j0, hj0, hcj0⟩ := exists_uncovered_col hS hM hw
    refine ⟨istar, j0, hilt, hj0, hriu, hcj0, ?_⟩
    have hle : uncoveredMin s h w ≤ s.m istar j0 :=
      uncoveredMin_le hilt hj0 hriu hcj0
    have hub : s.m istar j0 ≤ SENTINEL := by
      obtain ⟨u, v, D, hmuv, hvb, hvD, hu⟩ := hD
      rw [hmuv istar j0 hilt hj0]
      have h1 := hu istar hilt hnos
      have h2 := (hvb j0 hj0).1
      have h3 := hbd istar j0 hilt hj0
      omega
    show dualAdjust s.m s.rowCover s.colCover (uncoveredMin s h w) istar j0 = 0
    unfold dualAdjust
    rw [hriu, hcj0]
    simp only [Bool.false_eq_true, if_false]
    omega
  · refine ⟨i, j, hi, hj, hri, hcj, ?_⟩
    show dualAdjust s.m s.rowCover s.colCover (uncoveredMin s h w) i j = 0
    unfold dualAdjust
    rw [hri, hcj]
    simp only [Bool.false_eq_true, if_false]
    omega

/-! ## The toggle along the augmenting path -/

theorem togglePath_eq (stars primes : Nat → Nat → Bool) (path : List (Nat × Nat)) :
    ∀ a b, togglePath stars primes path a b =
      if (a, b) ∈ path then primes a b else stars a b := by
  induction path generalizing stars with
  | nil => intro a b; simp [togglePath]
  | cons c tl ih =>
    intro a b
    unfold togglePath at ih ⊢
    rw [List.foldl_cons]
    rw [ih (fun a b => if (a, b) = c then primes a b else stars a b) a b]
    by_cases hmem : (a, b) ∈ tl
    · rw [if_pos hmem, if_pos (List.mem_cons_of_mem _ hmem)]
    · rw [if_neg hmem]
      by_cases hc : (a, b) = c
      · rw [if_pos hc, if_pos (List.mem_cons.mpr (Or.inl hc))]
      · rw [if_neg hc, if_neg (by simp [hc, hmem])]

/-! ## Structure of the augmenting path -/

/-- Invariant of the accumulator of `buildPath`: `p` is the most recent
primed cell, `rest` the previously collected cells. -/
structure PathAcc (stars primes : Nat → Nat → Bool) (rk : Nat → Nat)
    (p : Nat × Nat) (rest : List (Nat × Nat)) : Prop where
  head_prime : primes p.1 p.2 = true
  cells : ∀ c ∈ rest, primes c.1 c.2 = true ∨ stars c.1 c.2 = true
  rk_lt : ∀ q ∈ rest, primes q.1 q.2 = true → rk p.1 < rk q.1
  colstar : ∀ q ∈ rest, primes q.1 q.2 = true →
    ∃ a, stars a q.2 = true ∧ (a, q.2) ∈ rest
  rowprime : ∀ c ∈ rest, stars c.1 c.2 = true →
    ∃ q, q ∈ p :: rest ∧ primes q.1 q.2 = true ∧ q.1 = c.1
  distinctcols : ∀ q q2, q ∈ rest → q2 ∈ rest → primes q.1 q.2 = true →
    primes q2.1 q2.2 = true → q.2 = q2.2 → q = q2
  rowstars : ∀ q ∈ rest, primes q.1 q.2 = true →
    ∀ t : Nat × Nat, stars t.1 t.2 = true → t.1 = q.1 → t ∈ rest
  headrowstar : ∀ t : Nat × Nat, stars t.1 t.2 = true → t.1 = p.1 → t ∈ rest
  nodup : (p :: rest).Nodup
  count : (p :: rest).countP (fun c => primes c.1 c.2) =
    (p :: rest).countP (fun c => stars c.1 c.2) + 1
  colprime : ∀ c ∈ rest, stars c.1 c.2 = true →
    ∃ q, q ∈ p :: rest ∧ primes q.1 q.2 = true ∧ q.2 = c.2

/-- What holds of a completed augmenting path. -/
structure PathOut (stars primes : Nat → Nat → Bool) (path : List (Nat × Nat)) : Prop where
  cells : ∀ c ∈ path, primes c.1 c.2 = true ∨ stars c.1 c.2 = true
  colstar : ∀ q ∈ path, primes q.1 q.2 = true →
    ∀ t : Nat × Nat, stars t.1 t.2 = true → t.2 = q.2 → t ∈ path
  rowstar : ∀ q ∈ path, primes q.1 q.2 = true →
    ∀ t : Nat × Nat, stars t.1 t.2 = true → t.1 = q.1 → t ∈ path
  distinctcols : ∀ q q2, q ∈ path → q2 ∈ path → primes q.1 q.2 = true →
    primes q2.1 q2.2 = true → q.2 = q2.2 → q = q2
  nodup : path.Nodup
  count : path.countP (fun c => primes c.1 c.2) =
    path.countP (fun c => stars c.1 c.2) + 1
  colprime : ∀ c ∈ path, stars c.1 c.2 = true →
    ∃ q, q ∈ path ∧ primes q.1 q.2 = true ∧ q.2 = c.2
  starprime : ∀ c ∈ path, stars c.1 c.2 = true →
    ∃ q, q ∈ path ∧ primes q.1 q.2 = true ∧ q.1 = c.1

/-- Extending the augmenting-path accumulator by the star found in the
head prime's column and the prime found in that star's row. -/
theorem pathAcc_extend {stars primes : Nat → Nat → Bool} {rk : Nat → Nat}
    (Hsr : ∀ i j j2, stars i j = true → stars i j2 = true → j = j2)
    (Hsc : ∀ i i2 j, stars i j = true → stars i2 j = true → i = i2)
    (Hpr : ∀ i j j2, primes i j = true → primes i j2 = true → j = j2)
    (Hd : ∀ i j, stars i j = true → primes i j = false)
    (Hrk : ∀ i j i2 j2, primes i j = true → stars i2 j = true →
      primes i2 j2 = true → rk i2 < rk i)
    {pi pj i2 j2 : Nat} {rest : List (Nat × Nat)}
    (A : PathAcc stars primes rk (pi, pj) rest)
    (sstar : stars i2 pj = true) (sprime : primes i2 j2 = true) :
    PathAcc stars primes rk (i2, j2) ((i2, pj) :: (pi, pj) :: rest) := by
    have K1 : rk i2 < rk pi := Hrk pi pj i2 j2 A.head_prime sstar sprime
    have K2 : (i2, j2) ∉ ((pi, pj) :: rest) := by
      intro hmem
      rcases List.mem_cons.mp hmem with heq | hmem2
      · injection heq with h1 h2
        subst h1
        exact absurd K1 (lt_irrefl _)
      · have h5 : rk pi < rk i2 := by simpa using A.rk_lt (i2, j2) hmem2 sprime
        omega
    have K3 : (i2, pj) ∉ ((pi, pj) :: rest) := by
      intro hmem
      rcases List.mem_cons.mp hmem with heq | hmem2
      · injection heq with h1 h2
        subst h1
        exact absurd K1 (lt_irrefl _)
      · obtain ⟨q, hq, hqp, hq1⟩ := A.rowprime (i2, pj) hmem2 sstar
        obtain ⟨q1, q2⟩ := q
        have h1 : q1 = i2 := hq1
        have h2 : q2 = j2 := Hpr i2 q2 j2 (h1 ▸ hqp) sprime
        rw [h1, h2] at hq
        exact K2 hq
    have K4 : ∀ q, q ∈ rest → primes q.1 q.2 = true → q.2 ≠ pj := by
      intro q hq hqp hcol
      obtain ⟨a, ha, hmem⟩ := A.colstar q hq hqp
      obtain rfl : a = i2 := Hsc a i2 q.2 ha (hcol ▸ sstar)
      exact K3 (List.mem_cons_of_mem _ (hcol ▸ hmem))
    have hnp : primes i2 pj = false := Hd i2 pj sstar
    have hns : stars i2 j2 = false := by
      cases hs : stars i2 j2 with
      | false => rfl
      | true => exact absurd sprime (by simp [Hd i2 j2 hs])
    have hj2pj : j2 ≠ pj := by
      rintro rfl
      exact absurd sprime (by simp [hnp])
    exact
      { head_prime := sprime
        cells := by
          intro c hc
          rcases List.mem_cons.mp hc with rfl | hc2
          · exact Or.inr sstar
          · rcases List.mem_cons.mp hc2 with rfl | hc3
            · exact Or.inl A.head_prime
            · exact A.cells c hc3
        rk_lt := by
          intro q hq hqp
          rcases List.mem_cons.mp hq with rfl | hq2
          · exact absurd hqp (by simp [hnp])
          · rcases List.mem_cons.mp hq2 with rfl | hq3
            · exact K1
            · exact lt_trans K1 (A.rk_lt q hq3 hqp)
        colstar := by
          intro q hq hqp
          rcases List.mem_cons.mp hq with rfl | hq2
          · exact absurd hqp (by simp [hnp])
          · rcases List.mem_cons.mp hq2 with rfl | hq3
            · exact ⟨i2, sstar, List.mem_cons_self _ _⟩
            · obtain ⟨a, ha, hmem⟩ := A.colstar q hq3 hqp
              exact ⟨a, ha, List.mem_cons_of_mem _ (List.mem_cons_of_mem _ hmem)⟩
        rowprime := by
          intro c hc hcs
          rcases List.mem_cons.mp hc with rfl | hc2
          · exact ⟨(i2, j2), List.mem_cons_self _ _, sprime, rfl⟩
          · rcases List.mem_cons.mp hc2 with rfl | hc3
            · exact absurd A.head_prime (by simp [Hd pi pj hcs])
            · obtain ⟨q, hq, hqp, hq1⟩ := A.rowprime c hc3 hcs
              exact ⟨q, List.mem_cons_of_mem _ (List.mem_cons_of_mem _ hq), hqp, hq1⟩
        distinctcols := by
          intro q q2 hq hq2 hqp hq2p hcols
          rcases List.mem_cons.mp hq with rfl | hqr
          · exact absurd hqp (by simp [hnp])
          · rcases List.mem_cons.mp hq2 with rfl | hq2r
            · exact absurd hq2p (by simp [hnp])
            · rcases List.mem_cons.mp hqr with rfl | hqr2
              · rcases List.mem_cons.mp hq2r with rfl | hq2r2
                · rfl
                · exact absurd hcols.symm (K4 q2 hq2r2 hq2p)
              · rcases List.mem_cons.mp hq2r with rfl | hq2r2
                · exact absurd hcols (K4 q hqr2 hqp)
                · exact A.distinctcols q q2 hqr2 hq2r2 hqp hq2p hcols
        rowstars := by
          intro q hq hqp t hst htr
          rcases List.mem_cons.mp hq with rfl | hq2
          · exact absurd hqp (by simp [hnp])
          · rcases List.mem_cons.mp hq2 with rfl | hq3
            · exact List.mem_cons_of_mem _
                (List.mem_cons_of_mem _ (A.headrowstar t hst htr))
            · exact List.mem_cons_of_mem _
                (List.mem_cons_of_mem _ (A.rowstars q hq3 hqp t hst htr))
        headrowstar := by
          rintro ⟨t1, t2⟩ hst htr
          have h1 : t1 = i2 := htr
          have h2 : t2 = pj := Hsr i2 t2 pj (h1 ▸ hst) sstar
          rw [h1, h2]
          exact List.mem_cons_self _ _
        nodup := by
          refine List.nodup_cons.mpr ⟨?_, List.nodup_cons.mpr ⟨K3, A.nodup⟩⟩
          intro hmem
          rcases List.mem_cons.mp hmem with heq | hmem2
          · exact hj2pj (congrArg Prod.snd heq)
          · exact K2 hmem2
        count := by
          have hp0 : primes pi pj = true := A.head_prime
          have hps : stars pi pj = false := by
            cases hs : stars pi pj with
            | false => rfl
            | true => exact absurd hp0 (by simp [Hd pi pj hs])
          have hAc := A.count
          simp [List.countP_cons, sprime, sstar, hnp, hns, hp0, hps] at hAc ⊢
          omega
        colprime := by
          intro c hc hcs
          rcases List.mem_cons.mp hc with rfl | hc2
          · exact ⟨(pi, pj), List.mem_cons_of_mem _ (List.mem_cons_of_mem _
              (List.mem_cons_self _ _)), A.head_prime, rfl⟩
          · rcases List.mem_cons.mp hc2 with rfl | hc3
            · exact absurd A.head_prime (by simp [Hd pi pj hcs])
            · obtain ⟨q, hq, hqp, hq2⟩ := A.colprime c hc3 hcs
              exact ⟨q, List.mem_cons_of_mem _ (List.mem_cons_of_mem _ hq), hqp, hq2⟩ }


/-- In a duplicate-free cell list, at most `h` cells are starred (their
rows are pairwise distinct). -/
theorem countP_stars_le {h w : Nat} {stars : Nat → Nat → Bool}
    {l : List (Nat × Nat)} (hnd : l.Nodup)
    (hsl : ∀ i j, stars i j = true → i < h ∧ j < w)
    (hrowU : ∀ i j j2, stars i j = true → stars i j2 = true → j = j2) :
    l.countP (fun c => stars c.1 c.2) ≤ h := by
  rw [List.countP_eq_length_filter]
  have hmapnd : ((l.filter (fun c => stars c.1 c.2)).map Prod.fst).Nodup := by
    apply List.Nodup.map_on ?_ (hnd.filter _)
    intro x hx y hy heq
    have hxs : stars x.1 x.2 = true := by
      have := List.mem_filter.mp hx
      simpa using this.2
    have hys : stars y.1 y.2 = true := by
      have := List.mem_filter.mp hy
      simpa using this.2
    have h2 : x.2 = y.2 := hrowU x.1 x.2 y.2 hxs (by rw [heq]; exact hys)
    exact Prod.ext heq h2
  have hsub : ∀ a ∈ (l.filter (fun c => stars c.1 c.2)).map Prod.fst, a < h := by
    intro a ha
    obtain ⟨c, hc, rfl⟩ := List.mem_map.mp ha
    have hcs : stars c.1 c.2 = true := by
      have := List.mem_filter.mp hc
      simpa using this.2
    exact (hsl c.1 c.2 hcs).1
  calc (l.filter (fun c => stars c.1 c.2)).length
      = ((l.filter (fun c => stars c.1 c.2)).map Prod.fst).length :=
        (List.length_map _ _).symm
    _ = ((l.filter (fun c => stars c.1 c.2)).map Prod.fst).toFinset.card :=
        (List.toFinset_card_of_nodup hmapnd).symm
    _ ≤ (Finset.range h).card := Finset.card_le_card
        (fun a ha => Finset.mem_range.mpr (hsub a (List.mem_toFinset.mp ha)))
    _ = h := Finset.card_range h

/-- The augmenting-path construction always completes within `h + 1`
rounds: every round consumes an unseen star, and a star of a prime's
column always has a prime in its own row. -/
theorem buildPath_total {stars primes : Nat → Nat → Bool} {h w : Nat}
    {rk : Nat → Nat}
    (Hsl : ∀ i j, stars i j = true → i < h ∧ j < w)
    (Hsr : ∀ i j j2, stars i j = true → stars i j2 = true → j = j2)
    (Hsc : ∀ i i2 j, stars i j = true → stars i2 j = true → i = i2)
    (Hpr : ∀ i j j2, primes i j = true → primes i j2 = true → j = j2)
    (Hd : ∀ i j, stars i j = true → primes i j = false)
    (Hrk : ∀ i j i2 j2, primes i j = true → stars i2 j = true →
      primes i2 j2 = true → rk i2 < rk i)
    (Hpl : ∀ i j, primes i j = true → i < h ∧ j < w)
    (Hsp : ∀ a b a2, stars a b = true → primes a2 b = true →
      ∃ b2, primes a b2 = true) :
    ∀ fuel (p : Nat × Nat) rest, PathAcc stars primes rk p rest →
      h + 1 ≤ (p :: rest).countP (fun c => stars c.1 c.2) + fuel →
      ∃ path, buildPath stars primes h w fuel (p :: rest) = some path := by
  intro fuel
  induction fuel with
  | zero =>
    intro p rest A hcnt
    exfalso
    have := countP_stars_le A.nodup Hsl Hsr
    omega
  | succ fuel ih =>
    rintro ⟨pi, pj⟩ rest A hcnt
    rw [buildPath]
    split
    · exact ⟨_, rfl⟩
    · rename_i i2 hstarfb
      have sstar : stars i2 pj = true := (findBelow_eq_some hstarfb).2.1
      obtain ⟨b2, hb2⟩ := Hsp i2 pj pi sstar A.head_prime
      split
      · rename_i hprimefb
        exact absurd hb2
          (by simp [findBelow_eq_none hprimefb b2 (Hpl i2 b2 hb2).2])
      · rename_i j2 hprimefb
        have sprime : primes i2 j2 = true := (findBelow_eq_some hprimefb).2.1
        have hns : stars i2 j2 = false := by
          cases hs : stars i2 j2 with
          | false => rfl
          | true => exact absurd sprime (by simp [Hd i2 j2 hs])
        have e1 : ((i2, j2) :: (i2, pj) :: (pi, pj) :: rest).countP
            (fun c => stars c.1 c.2) =
            ((pi, pj) :: rest).countP (fun c => stars c.1 c.2) + 1 := by
          simp [List.countP_cons, sstar, hns]
        exact ih (i2, j2) ((i2, pj) :: (pi, pj) :: rest)
          (pathAcc_extend Hsr Hsc Hpr Hd Hrk A sstar sprime) (by omega)

theorem buildPath_spec {stars primes : Nat → Nat → Bool} {h w : Nat} {rk : Nat → Nat}
    (Hsl : ∀ i j, stars i j = true → i < h ∧ j < w)
    (Hsr : ∀ i j j2, stars i j = true → stars i j2 = true → j = j2)
    (Hsc : ∀ i i2 j, stars i j = true → stars i2 j = true → i = i2)
    (Hpr : ∀ i j j2, primes i j = true → primes i j2 = true → j = j2)
    (Hd : ∀ i j, stars i j = true → primes i j = false)
    (Hrk : ∀ i j i2 j2, primes i j = true → stars i2 j = true → primes i2 j2 = true →
      rk i2 < rk i) :
    ∀ fuel (p : Nat × Nat) rest path,
      buildPath stars primes h w fuel (p :: rest) = some path →
      PathAcc stars primes rk p rest →
      PathOut stars primes path ∧ p ∈ path ∧ ∀ c ∈ rest, c ∈ path := by
  intro fuel
  induction fuel with
  | zero => intro p rest path hbp; cases hbp
  | succ fuel ih =>
    rintro ⟨pi, pj⟩ rest path hbp A
    rw [buildPath] at hbp
    split at hbp
    · -- no star in column pj: the path is complete
      rename_i hterm
      cases hbp
      have hnostar : ∀ t : Nat × Nat, stars t.1 t.2 = true → t.2 ≠ pj := by
        rintro ⟨t1, t2⟩ hst rfl
        exact absurd hst (by simp [findBelow_eq_none hterm t1 (Hsl t1 t2 hst).1])
      refine ⟨⟨?_, ?_, ?_, ?_, A.nodup, A.count, ?_, ?_⟩, List.mem_cons_self _ _,
        fun c hc => List.mem_cons_of_mem _ hc⟩
      · intro c hc
        rcases List.mem_cons.mp hc with rfl | hc2
        · exact Or.inl A.head_prime
        · exact A.cells c hc2
      · intro q hq hqp t hst htc
        rcases List.mem_cons.mp hq with rfl | hq2
        · exact absurd htc (hnostar t hst)
        · obtain ⟨a, ha, hmem⟩ := A.colstar q hq2 hqp
          obtain ⟨t1, t2⟩ := t
          have ht2 : t2 = q.2 := htc
          have ht1 : t1 = a := Hsc t1 a q.2 (ht2 ▸ hst) ha
          rw [ht1, ht2]
          exact List.mem_cons_of_mem _ hmem
      · intro q hq hqp t hst htr
        rcases List.mem_cons.mp hq with rfl | hq2
        · exact List.mem_cons_of_mem _ (A.headrowstar t hst htr)
        · exact List.mem_cons_of_mem _ (A.rowstars q hq2 hqp t hst htr)
      · intro q q2 hq hq2 hqp hq2p hcols
        rcases List.mem_cons.mp hq with rfl | hqr
        · rcases List.mem_cons.mp hq2 with rfl | hq2r
          · rfl
          · obtain ⟨a, ha, _⟩ := A.colstar q2 hq2r hq2p
            exact absurd (hcols ▸ rfl : (a, q2.2).2 = (pi, pj).2)
              (hnostar (a, q2.2) ha)
        · rcases List.mem_cons.mp hq2 with rfl | hq2r
          · obtain ⟨a, ha, _⟩ := A.colstar q hqr hqp
            exact absurd (hcols ▸ rfl : (a, q.2).2 = (pi, pj).2)
              (hnostar (a, q.2) ha)
          · exact A.distinctcols q q2 hqr hq2r hqp hq2p hcols
      · intro c hc hcs
        rcases List.mem_cons.mp hc with rfl | hc2
        · exact absurd A.head_prime (by simp [Hd pi pj hcs])
        · exact A.colprime c hc2 hcs
      · intro c hc hcs
        rcases List.mem_cons.mp hc with rfl | hc2
        · exact absurd A.head_prime (by simp [Hd pi pj hcs])
        · exact A.rowprime c hc2 hcs
    · -- a star (i2, pj) was found; follow it to the prime in its row
      rename_i i2 hstarfb
      have sstar : stars i2 pj = true := (findBelow_eq_some hstarfb).2.1
      split at hbp
      · cases hbp
      · rename_i j2 hprimefb
        have sprime : primes i2 j2 = true := (findBelow_eq_some hprimefb).2.1
        obtain ⟨hout, hheadmem, hrestmem⟩ :=
          ih (i2, j2) ((i2, pj) :: (pi, pj) :: rest) path hbp
          (pathAcc_extend Hsr Hsc Hpr Hd Hrk A sstar sprime)
        exact ⟨hout, hrestmem (pi, pj) (List.mem_cons_of_mem _ (List.mem_cons_self _ _)),
          fun c hc => hrestmem c (List.mem_cons_of_mem _ (List.mem_cons_of_mem _ hc))⟩

/-! ## Counting the stars -/

/-- Toggling along a completed augmenting path increases the number of
stars by exactly one. -/
theorem starCount_toggle {h w : Nat} {stars primes2 : Nat → Nat → Bool}
    {path : List (Nat × Nat)}
    (hsl : ∀ i j, stars i j = true → i < h ∧ j < w)
    (hpl : ∀ i j, primes2 i j = true → i < h ∧ j < w)
    (hout : PathOut stars primes2 path) :
    starCount (togglePath stars primes2 path) h w = starCount stars h w + 1 := by
  have hPsub : ∀ c ∈ path, c.1 < h ∧ c.2 < w := fun c hc =>
    (hout.cells c hc).elim (hpl c.1 c.2) (hsl c.1 c.2)
  have hE1 : ((Finset.range h) ×ˢ (Finset.range w)).filter
      (fun p => togglePath stars primes2 path p.1 p.2 = true) =
      (path.toFinset.filter (fun p => primes2 p.1 p.2 = true)) ∪
      ((((Finset.range h) ×ˢ (Finset.range w)).filter
        (fun p => stars p.1 p.2 = true)) \ path.toFinset) := by
    apply Finset.ext
    intro p
    simp only [Finset.mem_filter, Finset.mem_union, Finset.mem_sdiff,
      Finset.mem_product, Finset.mem_range, List.mem_toFinset]
    rw [togglePath_eq]
    by_cases hmem : (p.1, p.2) ∈ path
    · rw [if_pos hmem]
      have hmem2 : p ∈ path := by
        cases p
        exact hmem
      constructor
      · rintro ⟨_, hp⟩
        exact Or.inl ⟨hmem2, hp⟩
      · rintro (⟨_, hp⟩ | ⟨⟨_, _⟩, hnp⟩)
        · exact ⟨⟨(hPsub p hmem2).1, (hPsub p hmem2).2⟩, hp⟩
        · exact absurd hmem2 hnp
    · rw [if_neg hmem]
      have hmem2 : p ∉ path := by
        cases p
        exact hmem
      constructor
      · rintro ⟨hb, hp⟩
        exact Or.inr ⟨⟨hb, hp⟩, hmem2⟩
      · rintro (⟨hp, _⟩ | ⟨⟨hb, hp⟩, _⟩)
        · exact absurd hp hmem2
        · exact ⟨hb, hp⟩
  have hdisj : Disjoint
      (path.toFinset.filter (fun p => primes2 p.1 p.2 = true))
      ((((Finset.range h) ×ˢ (Finset.range w)).filter
        (fun p => stars p.1 p.2 = true)) \ path.toFinset) := by
    apply Finset.disjoint_left.mpr
    intro p hp hq
    exact absurd (Finset.mem_of_mem_filter p hp) (Finset.mem_sdiff.mp hq).2
  have hE3 : (((Finset.range h) ×ˢ (Finset.range w)).filter
      (fun p => stars p.1 p.2 = true)) ∩ path.toFinset =
      path.toFinset.filter (fun p => stars p.1 p.2 = true) := by
    apply Finset.ext
    intro p
    simp only [Finset.mem_inter, Finset.mem_filter, Finset.mem_product,
      Finset.mem_range, List.mem_toFinset]
    constructor
    · rintro ⟨⟨_, hst⟩, hmem⟩
      exact ⟨hmem, hst⟩
    · rintro ⟨hmem, hst⟩
      exact ⟨⟨⟨(hPsub p hmem).1, (hPsub p hmem).2⟩, hst⟩, hmem⟩
  have hcard1 : (path.toFinset.filter (fun p => primes2 p.1 p.2 = true)).card =
      path.countP (fun c => primes2 c.1 c.2) := by
    rw [← List.toFinset_filter, List.toFinset_card_of_nodup
      (hout.nodup.filter _), ← List.countP_eq_length_filter]
  have hcard2 : (path.toFinset.filter (fun p => stars p.1 p.2 = true)).card =
      path.countP (fun c => stars c.1 c.2) := by
    rw [← List.toFinset_filter, List.toFinset_card_of_nodup
      (hout.nodup.filter _), ← List.countP_eq_length_filter]
  have hsplit : ((((Finset.range h) ×ˢ (Finset.range w)).filter
      (fun p => stars p.1 p.2 = true)) \ path.toFinset).card +
      ((((Finset.range h) ×ˢ (Finset.range w)).filter
        (fun p => stars p.1 p.2 = true)) ∩ path.toFinset).card =
      (((Finset.range h) ×ˢ (Finset.range w)).filter
        (fun p => stars p.1 p.2 = true)).card :=
    Finset.card_sdiff_add_card_inter _ _
  unfold starCount
  rw [hE1, Finset.card_union_of_disjoint hdisj, hcard1, hout.count]
  rw [hE3, hcard2] at hsplit
  omega

/-- A partial matching has at most `h` stars. -/
theorem starCount_le {h w : Nat} {stars : Nat → Nat → Bool}
    (hrowU : ∀ i j j2, stars i j = true → stars i j2 = true → j = j2) :
    starCount stars h w ≤ h := by
  unfold starCount
  calc (((Finset.range h) ×ˢ (Finset.range w)).filter
      (fun p => stars p.1 p.2 = true)).card ≤ (Finset.range h).card := by
        apply Finset.card_le_card_of_injOn (fun p : Nat × Nat => p.1)
        · intro p hp
          simp only [Finset.mem_coe, Finset.mem_filter, Finset.mem_product,
            Finset.mem_range] at hp ⊢
          exact hp.1.1
        · intro p hp q hq heq
          simp only [Finset.mem_coe, Finset.mem_filter, Finset.mem_product,
            Finset.mem_range] at hp hq
          have h1 : p.1 = q.1 := heq
          have h2 : p.2 = q.2 := hrowU p.1 p.2 q.2 hp.2 (by rw [h1] at hp; exact (h1 ▸ hq.2))
          exact Prod.ext h1 h2
    _ = h := Finset.card_range h

theorem coverCount_eq_card (c : Nat → Bool) (w : Nat) :
    coverCount c w = ((Finset.range w).filter (fun j => c j = true)).card := by
  induction w with
  | zero => simp [coverCount]
  | succ n ih =>
    rw [coverCount, List.range_succ, List.filter_append, List.length_append,
      Finset.range_succ, Finset.filter_insert]
    rw [coverCount] at ih
    cases hcn : c n with
    | false =>
      rw [if_neg (by simp [hcn])]
      simp [List.filter_cons, hcn, ih]
    | true =>
      rw [if_pos (by simp [hcn]), Finset.card_insert_of_not_mem (by simp)]
      simp [List.filter_cons, hcn, ih]

/-- A cover never counts more than its range. -/
theorem coverCount_le (c : Nat → Bool) (n : Nat) : coverCount c n ≤ n := by
  rw [coverCount_eq_card]
  exact le_trans (Finset.card_filter_le _ _) (le_of_eq (Finset.card_range n))

/-- A cover leaving some index uncovered counts strictly fewer than its
range. -/
theorem coverCount_lt {c : Nat → Bool} {n i : Nat} (hi : i < n)
    (hci : c i = false) : coverCount c n < n := by
  rw [coverCount_eq_card]
  have hss : (Finset.range n).filter (fun j => c j = true) ⊂ Finset.range n := by
    rw [Finset.ssubset_iff_of_subset (Finset.filter_subset _ _)]
    exact ⟨i, Finset.mem_range.mpr hi, by simp [hci]⟩
  have := Finset.card_lt_card hss
  rw [Finset.card_range] at this
  exact this

/-- Covering a fresh in-range index raises the count by one. -/
theorem coverCount_update {c : Nat → Bool} {n i : Nat} (hi : i < n)
    (hci : c i = false) :
    coverCount (fun a => if a = i then true else c a) n = coverCount c n + 1 := by
  rw [coverCount_eq_card, coverCount_eq_card]
  have he : (Finset.range n).filter (fun j => (if j = i then true else c j) = true) =
      insert i ((Finset.range n).filter (fun j => c j = true)) := by
    ext a
    simp only [Finset.mem_filter, Finset.mem_insert, Finset.mem_range]
    by_cases ha : a = i
    · subst ha
      simp [hi]
    · simp [ha]
  rw [he, Finset.card_insert_of_not_mem (by simp [hci])]

/-- When verification is off, Step 3 leaves the state unchanged. -/
theorem step3State_id {h : Nat} {s : State} (hv : s.verify = false) :
    step3State h s = s := by
  cases s
  simp only at hv
  subst hv
  simp [step3State]

/-- The result extraction succeeds as soon as every row holds a star. -/
theorem extract_isSome_full {stars : Nat → Nat → Bool} {h w : Nat} (rot : Bool)
    (hlt : ∀ i j, stars i j = true → i < h ∧ j < w)
    (hfull : ∀ i, i < h → ∃ j, stars i j = true) :
    (extract stars h w rot).isSome = true := by
  unfold extract
  have hguard : ∀ i ∈ List.range h, (rowStar stars w i).isSome = true := by
    intro i hi
    obtain ⟨j, hj⟩ := hfull i (List.mem_range.mp hi)
    exact findBelow_isSome.mpr ⟨j, (hlt i j hj).2, hj⟩
  rw [if_pos hguard]
  split <;> simp

/-- The starred column of row `i`, if any, together with the starring
fact. -/
theorem rowStar_spec {stars : Nat → Nat → Bool} {w i j : Nat}
    (hj : stars i j = true) (hjw : j < w) :
    ∃ c, rowStar stars w i = some c ∧ stars i c = true := by
  cases hfb : rowStar stars w i with
  | none => exact absurd hj (by simp [findBelow_eq_none hfb j hjw])
  | some c => exact ⟨c, rfl, (findBelow_eq_some hfb).2.1⟩

/-- The starred columns are the image of the row-star assignment. -/
theorem starCols_eq_image {h w : Nat} {stars : Nat → Nat → Bool}
    (hbound : ∀ i j, stars i j = true → i < h ∧ j < w)
    (hrowU : ∀ i j j2, stars i j = true → stars i j2 = true → j = j2)
    (hfull : ∀ i, i < h → stars i ((rowStar stars w i).getD 0) = true) :
    (Finset.range w).filter
      (fun j => (findBelow (fun i => stars i j) h).isSome = true) =
      (Finset.range h).image (fun i => (rowStar stars w i).getD 0) := by
  apply Finset.ext
  intro j
  simp only [Finset.mem_filter, Finset.mem_range, Finset.mem_image]
  constructor
  · rintro ⟨hjw, hsome⟩
    cases hfb : findBelow (fun i => stars i j) h with
    | none => simp [hfb] at hsome
    | some i0 =>
      obtain ⟨hi0, hst, _⟩ := findBelow_eq_some hfb
      refine ⟨i0, hi0, ?_⟩
      obtain ⟨c, hc, hcs⟩ := rowStar_spec hst (hbound i0 j hst).2
      rw [hc]
      exact hrowU i0 c j hcs hst
  · rintro ⟨i, hi, rfl⟩
    have hst := hfull i hi
    exact ⟨(hbound _ _ hst).2, findBelow_isSome.mpr ⟨i, hi, hst⟩⟩

theorem starCols_card {h w : Nat} {stars : Nat → Nat → Bool}
    (hbound : ∀ i j, stars i j = true → i < h ∧ j < w)
    (hrowU : ∀ i j j2, stars i j = true → stars i j2 = true → j = j2)
    (hcolU : ∀ i i2 j, stars i j = true → stars i2 j = true → i = i2)
    (hfull : ∀ i, i < h → stars i ((rowStar stars w i).getD 0) = true) :
    ((Finset.range w).filter
      (fun j => (findBelow (fun i => stars i j) h).isSome = true)).card = h := by
  rw [starCols_eq_image hbound hrowU hfull, Finset.card_image_of_injOn, Finset.card_range]
  intro i1 hi1 i2 hi2 heq
  have heq2 : (rowStar stars w i1).getD 0 = (rowStar stars w i2).getD 0 := heq
  exact hcolU i1 i2 _ (hfull i1 (Finset.mem_range.mp hi1))
    (heq2 ▸ hfull i2 (Finset.mem_range.mp hi2))

/-! ## Preservation of the invariant -/

/-- After Step 3, a state satisfying the loop invariant satisfies the
mid-phase invariant. -/
theorem step3_inv {h w : Nat} {s : State} (hInv : Inv h w s)
    (hnc : s.verify = true → coverCount (step3State h s).colCover w ≠ h) :
    StarInv h w (step3State h s) ∧ MidInv h w (step3State h s) := by
  obtain ⟨hS, hmode⟩ := hInv
  rcases hmode with ⟨hv, hrc, hcc, hpr⟩ | ⟨hv, hM⟩
  · have hstars : (step3State h s).stars = s.stars := rfl
    have hm : (step3State h s).m = s.m := rfl
    have hrow : (step3State h s).rowCover = s.rowCover := rfl
    have hprimes : (step3State h s).primes = s.primes := rfl
    have hcol : (step3State h s).colCover =
        coverStarCols s.stars s.colCover h := by
      unfold step3State
      rw [hv]
      simp
    constructor
    · exact ⟨hS.lt, hS.rowU, hS.colU, hS.zero, hS.nonneg⟩
    · refine ⟨?_, ?_, ?_, ?_, ?_, ?_, ?_, ?_, ?_, ?_, ?_, ?_, ?_⟩
      · intro i j hpij; rw [hprimes] at hpij; rw [hpr] at hpij; cases hpij
      · intro i j j2 hpij; rw [hprimes] at hpij; rw [hpr] at hpij; cases hpij
      · intro i j hpij; rw [hprimes] at hpij; rw [hpr] at hpij; cases hpij
      · intro i j hpij; rw [hprimes] at hpij; rw [hpr] at hpij; cases hpij
      · intro i j hsij
        rw [hstars] at hsij
        rw [hrow, hcol]
        unfold coverStarCols
        rw [hrc, hcc]
        have : (findBelow (fun a => s.stars a j) h).isSome = true :=
          findBelow_isSome.mpr ⟨i, (hS.lt i j hsij).1, hsij⟩
        simp [this]
      · intro i hri; rw [hrow, hrc] at hri; cases hri
      · intro j hcj
        rw [hcol] at hcj
        unfold coverStarCols at hcj
        rw [hcc] at hcj
        simp only [Bool.false_or] at hcj
        obtain ⟨a, _, ha⟩ := findBelow_isSome.mp hcj
        exact (hS.lt a j ha).2
      · intro j hcj
        rw [hcol] at hcj
        unfold coverStarCols at hcj
        rw [hcc] at hcj
        simp only [Bool.false_or] at hcj
        obtain ⟨a, _, ha⟩ := findBelow_isSome.mp hcj
        exact ⟨a, by rw [hstars]; exact ha⟩
      · intro i hri; rw [hrow, hrc] at hri; cases hri
      · intro i hri; rw [hrow, hrc] at hri; cases hri
      · intro i j _; rw [hprimes, hpr]
      · exact ⟨fun _ => 0, by
          intro i j i2 j2 hp
          rw [hprimes, hpr] at hp
          cases hp⟩
      · -- the matching is incomplete: the failed termination test leaves a
        -- row without a star
        by_contra hall
        push_neg at hall
        have hfull : ∀ i, i < h →
            s.stars i ((rowStar s.stars w i).getD 0) = true := by
          intro i hi
          obtain ⟨j, hj⟩ := by
            have h2 := hall i
            rw [hstars] at h2
            exact h2 hi
          have hj2 : s.stars i j = true := by
            cases hsb : s.stars i j with
            | false => exact absurd hsb hj
            | true => rfl
          obtain ⟨c, hc, hcs⟩ := rowStar_spec hj2 (hS.lt i j hj2).2
          rw [hc]
          exact hcs
        apply hnc hv
        have h1 : coverCount (step3State h s).colCover w =
            ((Finset.range w).filter
              (fun j => (findBelow (fun a => s.stars a j) h).isSome = true)).card := by
          rw [coverCount_eq_card]
          congr 1
          apply Finset.filter_congr
          intro j _
          rw [hcol]
          unfold coverStarCols
          rw [hcc, Bool.false_or]
        rw [h1]
        exact starCols_card hS.lt hS.rowU hS.colU hfull
  · have heq : step3State h s = s := by
      have hcc2 : (if s.verify = true then coverStarCols s.stars s.colCover h
          else s.colCover) = s.colCover := by
        rw [hv]
        simp
      unfold step3State
      rw [hcc2]
    rw [heq]
    exact ⟨hS, hM⟩

theorem SENTINEL_pos : (0 : Int) ≤ SENTINEL := by norm_num [SENTINEL]

/-- Preservation through the dual adjustment (Step 6). -/
theorem adjust_pres {h w : Nat} {s1 : State} (hS : StarInv h w s1)
    (hM : MidInv h w s1) :
    Inv h w (adjustState s1 h w) := by
  set d := uncoveredMin s1 h w with hd
  have hd0 : 0 ≤ d :=
    uncoveredMin_lb SENTINEL_pos (fun i j hi hj hri hcj => hS.nonneg i j hi hj)
  have hmval : ∀ a b, (adjustState s1 h w).m a b =
      (s1.m a b + (if s1.rowCover a then d else 0)) -
        (if s1.colCover b then 0 else d) := fun a b => rfl
  have hzero : ∀ a b, s1.stars a b = true ∨ s1.primes a b = true →
      (adjustState s1 h w).m a b = 0 := by
    intro a b hab
    have hcover : s1.rowCover a = true ∧ s1.colCover b = false ∨
        s1.rowCover a = false ∧ s1.colCover b = true := by
      rcases hab with hst | hpr
      · have hiff := hM.star_cover a b hst
        cases hra : s1.rowCover a with
        | true => exact Or.inl ⟨rfl, hiff.mp hra⟩
        | false =>
          cases hcb : s1.colCover b with
          | true => exact Or.inr ⟨rfl, rfl⟩
          | false => exact absurd (hiff.mpr hcb) (by simp [hra])
      · exact Or.inl (hM.prime_cover a b hpr)
    have hmz : s1.m a b = 0 := by
      rcases hab with hst | hpr
      · exact hS.zero a b hst
      · exact hM.primes_zero a b hpr
    rw [hmval, hmz]
    rcases hcover with ⟨h1, h2⟩ | ⟨h1, h2⟩ <;> rw [h1, h2] <;> simp
  refine ⟨⟨hS.lt, hS.rowU, hS.colU, ?_, ?_⟩, Or.inr ⟨rfl, ?_⟩⟩
  · intro i j hsij
    exact hzero i j (Or.inl hsij)
  · intro i j hi hj
    rw [hmval]
    have hnn := hS.nonneg i j hi hj
    cases hri : s1.rowCover i with
    | true =>
      cases hcj : s1.colCover j with
      | true => simp; omega
      | false => simp; omega
    | false =>
      cases hcj : s1.colCover j with
      | true => simp; omega
      | false =>
        have hle : d ≤ s1.m i j := uncoveredMin_le hi hj hri hcj
        simp
        omega
  · refine ⟨hM.primes_lt, hM.primes_row, ?_, hM.prime_cover, hM.star_cover,
      hM.rowCover_lt, hM.colCover_lt, hM.colCover_star, hM.rowCover_prime,
      hM.rowCover_star, hM.disj, hM.rank, hM.incomplete⟩
    intro i j hpij
    exact hzero i j (Or.inr hpij)

/-- Preservation through the cover switch (priming a zero whose row holds
a star). -/
theorem coverSwitch_pres {h w : Nat} {s1 : State} (hS : StarInv h w s1)
    (hM : MidInv h w s1) {i j j0 : Nat} (hfz : findUZ s1 h w = some (i, j))
    (hj0 : findBelow (fun b => s1.stars i b) w = some j0) :
    Inv h w (coverSwitch (primeAt s1 i j) i j0) := by
  obtain ⟨hi, hj, hri, hcj, hmz⟩ := findUZ_some hfz
  have hstarij0 : s1.stars i j0 = true := (findBelow_eq_some hj0).2.1
  have hcj0 : s1.colCover j0 = true := by
    have hiff := hM.star_cover i j0 hstarij0
    cases hc : s1.colCover j0 with
    | true => rfl
    | false => exact absurd (hiff.mpr hc) (by simp [hri])
  have hjj0 : j ≠ j0 := by
    intro hh
    rw [hh, hcj0] at hcj
    cases hcj
  have hnoprow : ∀ b, s1.primes i b = false := by
    intro b
    cases hp : s1.primes i b with
    | false => rfl
    | true => exact absurd (hM.prime_cover i b hp).1 (by simp [hri])
  have hm2 : ∀ a b, (coverSwitch (primeAt s1 i j) i j0).m a b = s1.m a b :=
    fun a b => rfl
  have hst2 : ∀ a b, (coverSwitch (primeAt s1 i j) i j0).stars a b = s1.stars a b :=
    fun a b => rfl
  have hpr2 : ∀ a b, (coverSwitch (primeAt s1 i j) i j0).primes a b =
      (if a = i ∧ b = j then true else s1.primes a b) := fun a b => rfl
  have hrc2 : ∀ a, (coverSwitch (primeAt s1 i j) i j0).rowCover a =
      (if a = i then true else s1.rowCover a) := fun a => rfl
  have hcc2 : ∀ b, (coverSwitch (primeAt s1 i j) i j0).colCover b =
      (if b = j0 then false else s1.colCover b) := fun b => rfl
  have hstarij : s1.stars i j = false := by
    cases hsij : s1.stars i j with
    | false => rfl
    | true =>
      have hiff := hM.star_cover i j hsij
      rw [hri, hcj] at hiff
      exact absurd (hiff.mpr rfl) (by simp)
  refine ⟨⟨?_, ?_, ?_, ?_, ?_⟩, Or.inr ⟨rfl, ?_⟩⟩
  · intro a b hab; rw [hst2] at hab; exact hS.lt a b hab
  · intro a b b2 h1 h2; rw [hst2] at h1 h2; exact hS.rowU a b b2 h1 h2
  · intro a a2 b h1 h2; rw [hst2] at h1 h2; exact hS.colU a a2 b h1 h2
  · intro a b hab; rw [hst2] at hab; rw [hm2]; exact hS.zero a b hab
  · intro a b ha hb; rw [hm2]; exact hS.nonneg a b ha hb
  refine ⟨?_, ?_, ?_, ?_, ?_, ?_, ?_, ?_, ?_, ?_, ?_, ?_, ?_⟩
  · intro a b hab
    rw [hpr2] at hab
    by_cases hc : a = i ∧ b = j
    · exact ⟨hc.1 ▸ hi, hc.2 ▸ hj⟩
    · rw [if_neg hc] at hab; exact hM.primes_lt a b hab
  · intro a b b2 h1 h2
    rw [hpr2] at h1 h2
    by_cases hc1 : a = i ∧ b = j
    · by_cases hc2 : a = i ∧ b2 = j
      · rw [hc1.2, hc2.2]
      · rw [if_neg hc2] at h2
        rw [hc1.1] at h2
        exact absurd h2 (by simp [hnoprow b2])
    · rw [if_neg hc1] at h1
      by_cases hc2 : a = i ∧ b2 = j
      · rw [hc2.1] at h1
        exact absurd h1 (by simp [hnoprow b])
      · rw [if_neg hc2] at h2
        exact hM.primes_row a b b2 h1 h2
  · intro a b hab
    rw [hpr2] at hab
    rw [hm2]
    by_cases hc : a = i ∧ b = j
    · rw [hc.1, hc.2]; exact hmz
    · rw [if_neg hc] at hab; exact hM.primes_zero a b hab
  · intro a b hab
    rw [hpr2] at hab
    rw [hrc2, hcc2]
    by_cases hc : a = i ∧ b = j
    · rw [hc.1, hc.2]
      exact ⟨by simp, by rw [if_neg hjj0]; exact hcj⟩
    · rw [if_neg hc] at hab
      obtain ⟨h1, h2⟩ := hM.prime_cover a b hab
      constructor
      · by_cases ha : a = i
        · simp [ha]
        · rw [if_neg ha]; exact h1
      · by_cases hb : b = j0
        · simp [hb]
        · rw [if_neg hb]; exact h2
  · intro a b hab
    rw [hst2] at hab
    rw [hrc2, hcc2]
    by_cases ha : a = i
    · have hb : b = j0 := hS.rowU i b j0 (ha ▸ hab) hstarij0
      rw [if_pos ha, if_pos hb]
      simp
    · rw [if_neg ha]
      have hb : b ≠ j0 := by
        intro hb
        exact ha (hS.colU a i b hab (hb ▸ hstarij0))
      rw [if_neg hb]
      exact hM.star_cover a b hab
  · intro a ha
    rw [hrc2] at ha
    by_cases hc : a = i
    · exact hc ▸ hi
    · rw [if_neg hc] at ha; exact hM.rowCover_lt a ha
  · intro b hb
    rw [hcc2] at hb
    by_cases hc : b = j0
    · rw [if_pos hc] at hb; cases hb
    · rw [if_neg hc] at hb; exact hM.colCover_lt b hb
  · intro b hb
    rw [hcc2] at hb
    by_cases hc : b = j0
    · rw [if_pos hc] at hb; cases hb
    · rw [if_neg hc] at hb
      obtain ⟨a, ha⟩ := hM.colCover_star b hb
      exact ⟨a, by rw [hst2]; exact ha⟩
  · intro a ha
    rw [hrc2] at ha
    by_cases hc : a = i
    · refine ⟨j, ?_⟩
      rw [hpr2, if_pos ⟨hc, rfl⟩]
    · rw [if_neg hc] at ha
      obtain ⟨b, hb⟩ := hM.rowCover_prime a ha
      refine ⟨b, ?_⟩
      rw [hpr2, if_neg (fun hcc => hc hcc.1)]
      exact hb
  · intro a ha
    rw [hrc2] at ha
    by_cases hc : a = i
    · exact ⟨j0, by rw [hst2, hc]; exact hstarij0⟩
    · rw [if_neg hc] at ha
      obtain ⟨b, hb⟩ := hM.rowCover_star a ha
      exact ⟨b, by rw [hst2]; exact hb⟩
  · intro a b hab
    rw [hst2] at hab
    rw [hpr2]
    by_cases hc : a = i ∧ b = j
    · exfalso
      rw [hc.1, hc.2] at hab
      rw [hab] at hstarij
      cases hstarij
    · rw [if_neg hc]
      exact hM.disj a b hab
  · obtain ⟨rk, hrk⟩ := hM.rank
    refine ⟨fun a => if a = i then (Finset.range h).sup rk + 1 else rk a, ?_⟩
    intro a b a2 b2 hp1 hs1 hp2
    rw [hpr2] at hp1 hp2
    rw [hst2] at hs1
    by_cases hc1 : a = i ∧ b = j
    · have ha2 : a2 ≠ i := by
        intro ha2
        rw [ha2, hc1.2] at hs1
        rw [hs1] at hstarij
        cases hstarij
      simp only [if_pos hc1.1, if_neg ha2]
      have ha2h : a2 < h := (hS.lt a2 b hs1).1
      have hle : rk a2 ≤ (Finset.range h).sup rk :=
        Finset.le_sup (Finset.mem_range.mpr ha2h)
      omega
    · rw [if_neg hc1] at hp1
      by_cases hc2 : a2 = i ∧ b2 = j
      · exfalso
        have hs2 : s1.stars i b = true := hc2.1 ▸ hs1
        have hbj0 : b = j0 := hS.rowU i b j0 hs2 hstarij0
        have hcb := (hM.prime_cover a b hp1).2
        rw [hbj0, hcj0] at hcb
        cases hcb
      · rw [if_neg hc2] at hp2
        have hai : a ≠ i := by
          intro hh
          rw [hh] at hp1
          exact absurd hp1 (by simp [hnoprow b])
        have ha2i : a2 ≠ i := by
          intro hh
          rw [hh] at hp2
          exact absurd hp2 (by simp [hnoprow b2])
        simp only [if_neg ha2i, if_neg hai]
        exact hrk a b a2 b2 hp1 hs1 hp2
  · obtain ⟨i2, hi2, hall⟩ := hM.incomplete
    exact ⟨i2, hi2, fun b => by rw [hst2]; exact hall b⟩

/-- Preservation through the augmentation step (Step 5). -/
theorem augment_pres {h w : Nat} {s1 : State} (hS : StarInv h w s1)
    (hM : MidInv h w s1) {i j : Nat} (hfz : findUZ s1 h w = some (i, j))
    (hnostar : findBelow (fun b => s1.stars i b) w = none)
    {path : List (Nat × Nat)}
    (hbp : buildPath s1.stars (primeAt s1 i j).primes h w (h + 1) [(i, j)] = some path) :
    Inv h w (augmentState (primeAt s1 i j) path) ∧
      (∀ b, (∃ a, s1.stars a b = true) →
        ∃ a, (augmentState (primeAt s1 i j) path).stars a b = true) ∧
      (∀ a, (∃ b, s1.stars a b = true) →
        ∃ b, (augmentState (primeAt s1 i j) path).stars a b = true) ∧
      starCount (augmentState (primeAt s1 i j) path).stars h w =
        starCount s1.stars h w + 1 := by
  obtain ⟨hi, hj, hri, hcj, hmz⟩ := findUZ_some hfz
  have hnostarrow : ∀ b, s1.stars i b = false := by
    intro b
    cases hsb : s1.stars i b with
    | false => rfl
    | true =>
      exact absurd hsb (by simp [findBelow_eq_none hnostar b (hS.lt i b hsb).2])
  have hnoprow : ∀ b, s1.primes i b = false := by
    intro b
    cases hp : s1.primes i b with
    | false => rfl
    | true => exact absurd (hM.prime_cover i b hp).1 (by simp [hri])
  have hpr2 : ∀ a b, (primeAt s1 i j).primes a b =
      (if a = i ∧ b = j then true else s1.primes a b) := fun a b => rfl
  have hp2lt : ∀ a b, (primeAt s1 i j).primes a b = true → a < h ∧ b < w := by
    intro a b hab
    rw [hpr2] at hab
    by_cases hc : a = i ∧ b = j
    · exact ⟨hc.1 ▸ hi, hc.2 ▸ hj⟩
    · rw [if_neg hc] at hab; exact hM.primes_lt a b hab
  have hp2zero : ∀ a b, (primeAt s1 i j).primes a b = true → s1.m a b = 0 := by
    intro a b hab
    rw [hpr2] at hab
    by_cases hc : a = i ∧ b = j
    · rw [hc.1, hc.2]; exact hmz
    · rw [if_neg hc] at hab; exact hM.primes_zero a b hab
  have Hpr : ∀ a b b2, (primeAt s1 i j).primes a b = true →
      (primeAt s1 i j).primes a b2 = true → b = b2 := by
    intro a b b2 h1 h2
    rw [hpr2] at h1 h2
    by_cases hc1 : a = i ∧ b = j
    · by_cases hc2 : a = i ∧ b2 = j
      · rw [hc1.2, hc2.2]
      · rw [if_neg hc2] at h2
        rw [hc1.1] at h2
        exact absurd h2 (by simp [hnoprow b2])
    · rw [if_neg hc1] at h1
      by_cases hc2 : a = i ∧ b2 = j
      · rw [hc2.1] at h1
        exact absurd h1 (by simp [hnoprow b])
      · rw [if_neg hc2] at h2
        exact hM.primes_row a b b2 h1 h2
  have Hd : ∀ a b, s1.stars a b = true → (primeAt s1 i j).primes a b = false := by
    intro a b hab
    rw [hpr2]
    by_cases hc : a = i ∧ b = j
    · exfalso
      rw [hc.1, hc.2] at hab
      rw [hnostarrow j] at hab
      cases hab
    · rw [if_neg hc]
      exact hM.disj a b hab
  obtain ⟨rk, hrk⟩ := hM.rank
  have Hrk : ∀ a b a2 b2, (primeAt s1 i j).primes a b = true → s1.stars a2 b = true →
      (primeAt s1 i j).primes a2 b2 = true →
      (fun a => if a = i then (Finset.range h).sup rk + 1 else rk a) a2 <
        (fun a => if a = i then (Finset.range h).sup rk + 1 else rk a) a := by
    intro a b a2 b2 hp1 hs1 hp2
    rw [hpr2] at hp1 hp2
    by_cases hc1 : a = i ∧ b = j
    · have ha2 : a2 ≠ i := by
        intro ha2
        rw [ha2] at hs1
        rw [hnostarrow b] at hs1
        cases hs1
      simp only [if_pos hc1.1, if_neg ha2]
      have ha2h : a2 < h := (hS.lt a2 b hs1).1
      have hle : rk a2 ≤ (Finset.range h).sup rk :=
        Finset.le_sup (Finset.mem_range.mpr ha2h)
      omega
    · rw [if_neg hc1] at hp1
      by_cases hc2 : a2 = i ∧ b2 = j
      · exfalso
        rw [hc2.1] at hs1
        rw [hnostarrow b] at hs1
        cases hs1
      · rw [if_neg hc2] at hp2
        have hai : a ≠ i := by
          intro hh
          rw [hh] at hp1
          exact absurd hp1 (by simp [hnoprow b])
        have ha2i : a2 ≠ i := by
          intro hh
          rw [hh] at hp2
          exact absurd hp2 (by simp [hnoprow b2])
        simp only [if_neg ha2i, if_neg hai]
        exact hrk a b a2 b2 hp1 hs1 hp2
  have hpij : (primeAt s1 i j).primes i j = true := by
    rw [hpr2]
    simp
  have hacc : PathAcc s1.stars (primeAt s1 i j).primes
      (fun a => if a = i then (Finset.range h).sup rk + 1 else rk a) (i, j) [] := by
    refine ⟨hpij, ?_, ?_, ?_, ?_, ?_, ?_, ?_, ?_, ?_, ?_⟩
    · intro c hc; simp at hc
    · intro q hq; simp at hq
    · intro q hq; simp at hq
    · intro c hc; simp at hc
    · intro q q2 hq; simp at hq
    · intro q hq; simp at hq
    · rintro ⟨t1, t2⟩ hst htr
      exfalso
      have h1 : t1 = i := htr
      rw [h1, hnostarrow t2] at hst
      cases hst
    · simp
    · simp [List.countP_cons, hpij, hnostarrow j]
    · intro c hc; simp at hc
  obtain ⟨hout, hmemp, _⟩ := buildPath_spec hS.lt hS.rowU hS.colU Hpr Hd Hrk
    (h + 1) (i, j) [] path hbp hacc
  have hstars2 : ∀ a b, (augmentState (primeAt s1 i j) path).stars a b =
      (if (a, b) ∈ path then (primeAt s1 i j).primes a b else s1.stars a b) :=
    fun a b => togglePath_eq s1.stars (primeAt s1 i j).primes path a b
  have hm2 : ∀ a b, (augmentState (primeAt s1 i j) path).m a b = s1.m a b :=
    fun a b => rfl
  refine ⟨⟨⟨?_, ?_, ?_, ?_, ?_⟩,
    Or.inl ⟨rfl, fun a => rfl, fun b => rfl, fun a b => rfl⟩⟩, ?_, ?_, ?_⟩
  · intro a b hab
    rw [hstars2] at hab
    by_cases hmem : (a, b) ∈ path
    · rw [if_pos hmem] at hab
      exact hp2lt a b hab
    · rw [if_neg hmem] at hab
      exact hS.lt a b hab
  · intro a b b2 h1 h2
    rw [hstars2] at h1 h2
    by_cases hm1 : (a, b) ∈ path
    · rw [if_pos hm1] at h1
      by_cases hm2b : (a, b2) ∈ path
      · rw [if_pos hm2b] at h2
        exact Hpr a b b2 h1 h2
      · rw [if_neg hm2b] at h2
        exact absurd (hout.rowstar (a, b) hm1 h1 (a, b2) h2 rfl) hm2b
    · rw [if_neg hm1] at h1
      by_cases hm2b : (a, b2) ∈ path
      · rw [if_pos hm2b] at h2
        exact absurd (hout.rowstar (a, b2) hm2b h2 (a, b) h1 rfl) hm1
      · rw [if_neg hm2b] at h2
        exact hS.rowU a b b2 h1 h2
  · intro a a2 b h1 h2
    rw [hstars2] at h1 h2
    by_cases hm1 : (a, b) ∈ path
    · rw [if_pos hm1] at h1
      by_cases hm2b : (a2, b) ∈ path
      · rw [if_pos hm2b] at h2
        have hqq := hout.distinctcols (a, b) (a2, b) hm1 hm2b h1 h2 rfl
        exact congrArg Prod.fst hqq
      · rw [if_neg hm2b] at h2
        exact absurd (hout.colstar (a, b) hm1 h1 (a2, b) h2 rfl) hm2b
    · rw [if_neg hm1] at h1
      by_cases hm2b : (a2, b) ∈ path
      · rw [if_pos hm2b] at h2
        exact absurd (hout.colstar (a2, b) hm2b h2 (a, b) h1 rfl) hm1
      · rw [if_neg hm2b] at h2
        exact hS.colU a a2 b h1 h2
  · intro a b hab
    rw [hstars2] at hab
    rw [hm2]
    by_cases hmem : (a, b) ∈ path
    · rw [if_pos hmem] at hab
      exact hp2zero a b hab
    · rw [if_neg hmem] at hab
      exact hS.zero a b hab
  · intro a b ha hb
    rw [hm2]
    exact hS.nonneg a b ha hb
  · rintro b ⟨a, hab⟩
    by_cases hmem : (a, b) ∈ path
    · obtain ⟨q, hq, hqp, hq2⟩ := hout.colprime (a, b) hmem hab
      obtain ⟨q1, q2⟩ := q
      have hq2b : q2 = b := hq2
      subst hq2b
      refine ⟨q1, ?_⟩
      rw [hstars2, if_pos hq]
      exact hqp
    · exact ⟨a, by rw [hstars2, if_neg hmem]; exact hab⟩
  · rintro a ⟨b, hab⟩
    by_cases hmem : (a, b) ∈ path
    · obtain ⟨q, hq, hqp, hq1⟩ := hout.starprime (a, b) hmem hab
      obtain ⟨q1, q2⟩ := q
      have hq1b : q1 = a := hq1
      subst hq1b
      refine ⟨q2, ?_⟩
      rw [hstars2, if_pos hq]
      exact hqp
    · exact ⟨b, by rw [hstars2, if_neg hmem]; exact hab⟩
  · show starCount (togglePath s1.stars (primeAt s1 i j).primes path) h w =
      starCount s1.stars h w + 1
    exact starCount_toggle hS.lt hp2lt hout

/-- When step 4 finds an uncovered zero in a star-free row, the path
construction of step 5 cannot run out of fuel or hit a star column
without a prime: it returns some path. -/
theorem augment_ready {h w : Nat} {s1 : State} (hS : StarInv h w s1)
    (hM : MidInv h w s1) {i j : Nat} (hfz : findUZ s1 h w = some (i, j))
    (hnostar : findBelow (fun b => s1.stars i b) w = none) :
    ∃ path, buildPath s1.stars (primeAt s1 i j).primes h w (h + 1) [(i, j)]
      = some path := by
  obtain ⟨hi, hj, hri, hcj, hmz⟩ := findUZ_some hfz
  have hnostarrow : ∀ b, s1.stars i b = false := by
    intro b
    cases hsb : s1.stars i b with
    | false => rfl
    | true =>
      exact absurd hsb (by simp [findBelow_eq_none hnostar b (hS.lt i b hsb).2])
  have hnoprow : ∀ b, s1.primes i b = false := by
    intro b
    cases hp : s1.primes i b with
    | false => rfl
    | true => exact absurd (hM.prime_cover i b hp).1 (by simp [hri])
  have hpr2 : ∀ a b, (primeAt s1 i j).primes a b =
      (if a = i ∧ b = j then true else s1.primes a b) := fun a b => rfl
  have hp2lt : ∀ a b, (primeAt s1 i j).primes a b = true → a < h ∧ b < w := by
    intro a b hab
    rw [hpr2] at hab
    by_cases hc : a = i ∧ b = j
    · exact ⟨hc.1 ▸ hi, hc.2 ▸ hj⟩
    · rw [if_neg hc] at hab; exact hM.primes_lt a b hab
  have Hpr : ∀ a b b2, (primeAt s1 i j).primes a b = true →
      (primeAt s1 i j).primes a b2 = true → b = b2 := by
    intro a b b2 h1 h2
    rw [hpr2] at h1 h2
    by_cases hc1 : a = i ∧ b = j
    · by_cases hc2 : a = i ∧ b2 = j
      · rw [hc1.2, hc2.2]
      · rw [if_neg hc2] at h2
        rw [hc1.1] at h2
        exact absurd h2 (by simp [hnoprow b2])
    · rw [if_neg hc1] at h1
      by_cases hc2 : a = i ∧ b2 = j
      · rw [hc2.1] at h1
        exact absurd h1 (by simp [hnoprow b])
      · rw [if_neg hc2] at h2
        exact hM.primes_row a b b2 h1 h2
  have Hd : ∀ a b, s1.stars a b = true → (primeAt s1 i j).primes a b = false := by
    intro a b hab
    rw [hpr2]
    by_cases hc : a = i ∧ b = j
    · exfalso
      rw [hc.1, hc.2] at hab
      rw [hnostarrow j] at hab
      cases hab
    · rw [if_neg hc]
      exact hM.disj a b hab
  obtain ⟨rk, hrk⟩ := hM.rank
  have Hrk : ∀ a b a2 b2, (primeAt s1 i j).primes a b = true → s1.stars a2 b = true →
      (primeAt s1 i j).primes a2 b2 = true →
      (fun a => if a = i then (Finset.range h).sup rk + 1 else rk a) a2 <
        (fun a => if a = i then (Finset.range h).sup rk + 1 else rk a) a := by
    intro a b a2 b2 hp1 hs1 hp2
    rw [hpr2] at hp1 hp2
    by_cases hc1 : a = i ∧ b = j
    · have ha2 : a2 ≠ i := by
        intro ha2
        rw [ha2] at hs1
        rw [hnostarrow b] at hs1
        cases hs1
      simp only [if_pos hc1.1, if_neg ha2]
      have ha2h : a2 < h := (hS.lt a2 b hs1).1
      have hle : rk a2 ≤ (Finset.range h).sup rk :=
        Finset.le_sup (Finset.mem_range.mpr ha2h)
      omega
    · rw [if_neg hc1] at hp1
      by_cases hc2 : a2 = i ∧ b2 = j
      · exfalso
        rw [hc2.1] at hs1
        rw [hnostarrow b] at hs1
        cases hs1
      · rw [if_neg hc2] at hp2
        have hai : a ≠ i := by
          intro hh
          rw [hh] at hp1
          exact absurd hp1 (by simp [hnoprow b])
        have ha2i : a2 ≠ i := by
          intro hh
          rw [hh] at hp2
          exact absurd hp2 (by simp [hnoprow b2])
        simp only [if_neg ha2i, if_neg hai]
        exact hrk a b a2 b2 hp1 hs1 hp2
  have hpij : (primeAt s1 i j).primes i j = true := by
    rw [hpr2]
    simp
  have hacc : PathAcc s1.stars (primeAt s1 i j).primes
      (fun a => if a = i then (Finset.range h).sup rk + 1 else rk a) (i, j) [] := by
    refine ⟨hpij, ?_, ?_, ?_, ?_, ?_, ?_, ?_, ?_, ?_, ?_⟩
    · intro c hc; simp at hc
    · intro q hq; simp at hq
    · intro q hq; simp at hq
    · intro c hc; simp at hc
    · intro q q2 hq; simp at hq
    · intro q hq; simp at hq
    · rintro ⟨t1, t2⟩ hst htr
      exfalso
      have h1 : t1 = i := htr
      rw [h1, hnostarrow t2] at hst
      cases hst
    · simp
    · simp [List.countP_cons, hpij, hnostarrow j]
    · intro c hc; simp at hc
  have Hsp : ∀ a b a2, s1.stars a b = true →
      (primeAt s1 i j).primes a2 b = true →
      ∃ b2, (primeAt s1 i j).primes a b2 = true := by
    intro a b a2 hst hpr
    have hcb : s1.colCover b = false := by
      rw [hpr2] at hpr
      by_cases hc : a2 = i ∧ b = j
      · rw [hc.2]; exact hcj
      · rw [if_neg hc] at hpr
        exact (hM.prime_cover a2 b hpr).2
    have hra : s1.rowCover a = true := (hM.star_cover a b hst).mpr hcb
    obtain ⟨b2, hb2⟩ := hM.rowCover_prime a hra
    refine ⟨b2, ?_⟩
    rw [hpr2]
    by_cases hc : a = i ∧ b2 = j
    · rw [if_pos hc]
    · rw [if_neg hc]; exact hb2
  exact buildPath_total hS.lt hS.rowU hS.colU Hpr Hd Hrk hp2lt Hsp
    (h + 1) (i, j) [] hacc (Nat.le_add_left _ _)

/-- Every `cont` outcome of an iteration preserves the loop invariant. -/
theorem stepOnce_cont_inv {h w : Nat} {rot : Bool} {s s2 : State}
    (hInv : Inv h w s) (hstep : stepOnce h w rot s = StepRes.cont s2) :
    Inv h w s2 := by
  unfold stepOnce at hstep
  split at hstep
  · split at hstep
    · cases hstep
    · cases hstep
  · rename_i hcond
    obtain ⟨hS1, hM1⟩ := step3_inv hInv (fun hv hcc => hcond ⟨hv, hcc⟩)
    split at hstep
    · cases hstep
      exact adjust_pres hS1 hM1
    · rename_i i j hfz
      split at hstep
      · rename_i j0 hj0
        cases hstep
        exact coverSwitch_pres hS1 hM1 hfz hj0
      · rename_i hnostar
        split at hstep
        · cases hstep
        · rename_i path hbp
          cases hstep
          exact (augment_pres hS1 hM1 hfz hnostar hbp).1

theorem rowReduce_nonneg (m : Nat → Nat → Int) (h w : Nat) :
    ∀ i j, i < h → j < w → 0 ≤ rowReduce m h w i j := by
  intro i j hi hj
  unfold rowReduce
  rw [if_pos ⟨hi, hj⟩]
  have := minBelow_le (f := m i) hj
  omega

/-- The initial state of the loop satisfies the invariant if the matrix it
is given is entry-wise non-negative on the working range. -/
theorem initState_inv {m1 : Nat → Nat → Int} {h w : Nat}
    (hmn : ∀ i j, i < h → j < w → 0 ≤ m1 i j) :
    Inv h w (initState m1 h w) := by
  obtain ⟨g1, g2, g3, g4⟩ := greedyInit_spec m1 w h
  refine ⟨⟨?_, g3, g4, ?_, hmn⟩,
    Or.inl ⟨rfl, fun a => rfl, fun b => rfl, fun a b => rfl⟩⟩
  · intro a b hab
    obtain ⟨h1, h2, _⟩ := g1 a b hab
    exact ⟨h1, h2⟩
  · intro a b hab
    exact (g1 a b hab).2.2

/-- Any result of the main loop started in an invariant state is an
extraction from an invariant state's star set. -/
theorem loopRun_inv {h w : Nat} {rot : Bool} {fuel : Nat} {s : State}
    {r : List (Option Nat)} (hInv : Inv h w s)
    (hrun : loopRun h w rot fuel s = some r) :
    ∃ st : State, Inv h w st ∧ extract st.stars h w rot = some r := by
  induction fuel generalizing s with
  | zero => cases hrun
  | succ n ih =>
    rw [loopRun] at hrun
    cases hstep : stepOnce h w rot s with
    | done r2 =>
      rw [hstep] at hrun
      cases hrun
      exact ⟨s, hInv, stepOnce_done hstep⟩
    | panic => rw [hstep] at hrun; cases hrun
    | cont s2 =>
      rw [hstep] at hrun
      exact ih (stepOnce_cont_inv hInv hstep) hrun

/-! ## Injectivity of the extracted assignment -/

theorem getD_replicate_none (w p : Nat) :
    (List.replicate w (none : Option Nat)).getD p none = none := by
  rw [List.getD_eq_getElem?_getD, List.getElem?_replicate]
  split <;> rfl

theorem getD_map_range (f : Nat → Option Nat) (h p : Nat) (hp : p < h) :
    ((List.range h).map f).getD p none = f p := by
  rw [List.getD_eq_getElem?_getD, List.getElem?_map, List.getElem?_range hp]
  rfl

theorem foldl_set_getD (ps : List (Nat × Nat)) (f : Nat × Nat → Option Nat)
    (init : List (Option Nat)) (p : Nat)
    (hdist : ∀ q q2, q ∈ ps → q2 ∈ ps → q.2 = q2.2 → q = q2)
    (hlt : ∀ q ∈ ps, (q : Nat × Nat).2 < init.length) :
    (ps.foldl (fun res ij => res.set ij.2 (f ij)) init).getD p none =
      (match ps.find? (fun ij => ij.2 == p) with
       | some q => f q
       | none => init.getD p none) := by
  induction ps generalizing init with
  | nil => simp
  | cons q0 tl ih =>
    rw [List.foldl_cons]
    have ih2 := ih (init.set q0.2 (f q0))
      (fun a b ha hb => hdist a b (List.mem_cons_of_mem _ ha) (List.mem_cons_of_mem _ hb))
      (fun a ha => by rw [List.length_set]; exact hlt a (List.mem_cons_of_mem _ ha))
    by_cases hq0 : (q0.2 == p) = true
    · have hfind : (q0 :: tl).find? (fun ij => ij.2 == p) = some q0 := by
        simp only [List.find?_cons, hq0]
      rw [hfind]
      have hp2 : q0.2 = p := by simpa using hq0
      rw [ih2]
      cases hft : tl.find? (fun ij => ij.2 == p) with
      | some q1 =>
        have hq1m := List.mem_of_find?_eq_some hft
        have hq12 : q1.2 = p := by simpa using List.find?_some hft
        have heq : q0 = q1 := hdist q0 q1 (List.mem_cons_self _ _)
          (List.mem_cons_of_mem _ hq1m) (by rw [hp2, hq12])
        rw [← heq]
      | none =>
        have hlen : p < init.length := by
          have := hlt q0 (List.mem_cons_self _ _)
          omega
        rw [List.getD_eq_getElem?_getD, hp2, List.getElem?_set_self hlen]
        rfl
    · have hq0f : (q0.2 == p) = false := by simpa using hq0
      have hfind : (q0 :: tl).find? (fun ij => ij.2 == p) =
          tl.find? (fun ij => ij.2 == p) := by
        simp only [List.find?_cons, hq0f]
      rw [hfind]
      rw [ih2]
      cases hft : tl.find? (fun ij => ij.2 == p) with
      | some q1 => rfl
      | none =>
        have hne : q0.2 ≠ p := by simpa using hq0
        rw [List.getD_eq_getElem?_getD, List.getD_eq_getElem?_getD,
          List.getElem?_set_ne hne]

/-- The entries of a successfully extracted result are pairwise-distinct
column assignments: equal `Some` values force equal positions. -/
theorem extract_inj {stars : Nat → Nat → Bool} {h w : Nat} {rot : Bool}
    {r : List (Option Nat)}
    (hbound : ∀ i j, stars i j = true → i < h ∧ j < w)
    (hcolU : ∀ i i2 j, stars i j = true → stars i2 j = true → i = i2)
    (hex : extract stars h w rot = some r) :
    ∀ p q x, p < r.length → q < r.length → r.getD p none = some x →
      r.getD q none = some x → p = q := by
  unfold extract at hex
  split at hex
  · rename_i hall
    split at hex
    · rename_i hrot
      cases hex
      intro p q x hp hq hgp hgq
      have hmem : ∀ a v,
          (a, v) ∈ ((List.range h).map (fun i => (rowStar stars w i).getD 0)).enum →
          a < h ∧ stars a v = true := by
        intro a v hav
        have hgetl := List.mem_enum_iff_getElem?.mp hav
        rw [List.getElem?_map] at hgetl
        cases hra : (List.range h)[a]? with
        | none => rw [hra] at hgetl; cases hgetl
        | some a2 =>
          rw [hra] at hgetl
          have hah : a < h := by
            by_contra hcon
            rw [List.getElem?_eq_none (by simpa using hcon)] at hra
            cases hra
          rw [List.getElem?_range hah] at hra
          cases hra
          have hsome := hall a (List.mem_range.mpr hah)
          cases hrs : rowStar stars w a with
          | none => rw [hrs] at hsome; simp at hsome
          | some jv =>
            simp only [Option.map_some'] at hgetl
            rw [hrs] at hgetl
            simp only [Option.getD_some] at hgetl
            cases hgetl
            exact ⟨hah, (findBelow_eq_some hrs).2.1⟩
      have hdist : ∀ q1 q2 : Nat × Nat,
          q1 ∈ ((List.range h).map (fun i => (rowStar stars w i).getD 0)).enum →
          q2 ∈ ((List.range h).map (fun i => (rowStar stars w i).getD 0)).enum →
          q1.2 = q2.2 → q1 = q2 := by
        rintro ⟨a1, v1⟩ ⟨a2, v2⟩ h1 h2 hv
        obtain ⟨ha1, hs1⟩ := hmem a1 v1 h1
        obtain ⟨ha2, hs2⟩ := hmem a2 v2 h2
        have hveq : v1 = v2 := hv
        have haeq : a1 = a2 := hcolU a1 a2 v1 hs1 (hveq ▸ hs2)
        rw [haeq, hveq]
      have hltw : ∀ q1 ∈ ((List.range h).map (fun i => (rowStar stars w i).getD 0)).enum,
          (q1 : Nat × Nat).2 < (List.replicate w (none : Option Nat)).length := by
        rintro ⟨a1, v1⟩ h1
        obtain ⟨_, hs1⟩ := hmem a1 v1 h1
        rw [List.length_replicate]
        exact (hbound a1 v1 hs1).2
      rw [foldl_set_getD _ _ _ p hdist hltw] at hgp
      rw [foldl_set_getD _ _ _ q hdist hltw] at hgq
      cases hfp : ((List.range h).map (fun i => (rowStar stars w i).getD 0)).enum.find?
          (fun ij => ij.2 == p) with
      | none =>
        rw [hfp, getD_replicate_none] at hgp
        cases hgp
      | some qp =>
        rw [hfp] at hgp
        cases hfq : ((List.range h).map (fun i => (rowStar stars w i).getD 0)).enum.find?
            (fun ij => ij.2 == q) with
        | none =>
          rw [hfq, getD_replicate_none] at hgq
          cases hgq
        | some qq =>
          rw [hfq] at hgq
          obtain ⟨qp1, qp2⟩ := qp
          obtain ⟨qq1, qq2⟩ := qq
          have hx1 : h - qp1 - 1 = x := Option.some.inj hgp
          have hx2 : h - qq1 - 1 = x := Option.some.inj hgq
          have hqpm := List.mem_of_find?_eq_some hfp
          have hqqm := List.mem_of_find?_eq_some hfq
          obtain ⟨hqp1h, _⟩ := hmem qp1 qp2 hqpm
          obtain ⟨hqq1h, _⟩ := hmem qq1 qq2 hqqm
          have h11 : qp1 = qq1 := by omega
          have e1 := List.mem_enum_iff_getElem?.mp hqpm
          have e2 := List.mem_enum_iff_getElem?.mp hqqm
          rw [h11] at e1
          rw [e2] at e1
          have h22 : qq2 = qp2 := Option.some.inj e1
          have hpe : qp2 = p := by simpa using List.find?_some hfp
          have hqe : qq2 = q := by simpa using List.find?_some hfq
          rw [← hpe, ← hqe, h22]
    · rename_i hrot
      cases hex
      intro p q x hp hq hgp hgq
      simp only [List.length_map, List.length_range] at hp hq
      rw [getD_map_range _ h p hp] at hgp
      rw [getD_map_range _ h q hq] at hgq
      exact hcolU p q x (findBelow_eq_some hgp).2.1 (findBelow_eq_some hgq).2.1
  · cases hex

/-! ## Preservation of the dual certificate -/

theorem dual_mono {m0 : Nat → Nat → Int} {h w : Nat} {s1 s2 : State}
    (hm : ∀ i j, s2.m i j = s1.m i j)
    (hgrow : ∀ b, (∃ a, s1.stars a b = true) → ∃ a, s2.stars a b = true)
    (hgrowR : ∀ a, (∃ b, s1.stars a b = true) → ∃ b, s2.stars a b = true)
    (hD : DualInv m0 h w s1) : DualInv m0 h w s2 := by
  obtain ⟨u, v, D, hdec, hvb, hvD, hu0⟩ := hD
  refine ⟨u, v, D, ?_, hvb, ?_, ?_⟩
  · intro i j hi hj
    rw [hm]
    exact hdec i j hi hj
  · intro j hj hns
    refine hvD j hj ?_
    intro i
    cases hs : s1.stars i j with
    | false => rfl
    | true =>
      obtain ⟨a, ha⟩ := hgrow j ⟨i, hs⟩
      rw [hns a] at ha
      cases ha
  · intro i hi hns
    refine hu0 i hi ?_
    intro j
    cases hs : s1.stars i j with
    | false => rfl
    | true =>
      obtain ⟨b, hb⟩ := hgrowR i ⟨j, hs⟩
      rw [hns b] at hb
      cases hb

theorem dual_init (m0 : Nat → Nat → Int) (h w : Nat)
    (hm0 : ∀ i j, i < h → j < w → 0 ≤ m0 i j) :
    DualInv m0 h w (initState (rowReduce m0 h w) h w) := by
  refine ⟨fun i => minBelow (m0 i) w, fun _ => 0, 0, ?_, ?_, ?_, ?_⟩
  · intro i j hi hj
    show rowReduce m0 h w i j = m0 i j - minBelow (m0 i) w - 0
    unfold rowReduce
    rw [if_pos ⟨hi, hj⟩]
    ring
  · intro j hj
    exact ⟨le_refl 0, le_refl 0⟩
  · intro j hj hns
    rfl
  · intro i hi _
    cases hw : w with
    | zero => exact le_refl 0
    | succ n =>
      obtain ⟨k, hk, hmb⟩ := minBelow_mem (f := m0 i) (Nat.succ_pos n)
      show (0 : Int) ≤ minBelow (m0 i) (n + 1)
      rw [hmb]
      exact hm0 i k hi (hw ▸ hk)

theorem adjust_dual {m0 : Nat → Nat → Int} {h w : Nat} {s1 : State}
    (hS : StarInv h w s1) (hM : MidInv h w s1) (hD : DualInv m0 h w s1) :
    DualInv m0 h w (adjustState s1 h w) := by
  obtain ⟨u, v, D, hdec, hvb, hvD, hu0⟩ := hD
  have hd0 : 0 ≤ uncoveredMin s1 h w :=
    uncoveredMin_lb SENTINEL_pos (fun i j hi hj _ _ => hS.nonneg i j hi hj)
  refine ⟨fun i => u i - (if s1.rowCover i then uncoveredMin s1 h w else 0),
    fun j => v j + (if s1.colCover j then 0 else uncoveredMin s1 h w),
    D + uncoveredMin s1 h w, ?_, ?_, ?_, ?_⟩
  · intro i j hi hj
    show dualAdjust s1.m s1.rowCover s1.colCover (uncoveredMin s1 h w) i j = _
    unfold dualAdjust
    rw [hdec i j hi hj]
    cases hr : s1.rowCover i <;> cases hc : s1.colCover j <;>
      simp [hr, hc] <;> ring
  · intro j hj
    obtain ⟨h1, h2⟩ := hvb j hj
    show 0 ≤ v j + (if s1.colCover j then 0 else uncoveredMin s1 h w) ∧
      v j + (if s1.colCover j then 0 else uncoveredMin s1 h w) ≤
        D + uncoveredMin s1 h w
    by_cases hc : s1.colCover j = true
    · rw [if_pos hc]
      constructor <;> linarith
    · rw [if_neg hc]
      constructor <;> linarith
  · intro j hj hns
    show v j + (if s1.colCover j then 0 else uncoveredMin s1 h w) =
      D + uncoveredMin s1 h w
    have hstars : ∀ i, s1.stars i j = false := hns
    have hcf : s1.colCover j = false := by
      cases hcc : s1.colCover j with
      | false => rfl
      | true =>
        obtain ⟨a, ha⟩ := hM.colCover_star j hcc
        rw [hstars a] at ha
        cases ha
    rw [hvD j hj hstars, if_neg (by simp [hcf])]
  · intro i hi hns
    have hstars : ∀ j, s1.stars i j = false := hns
    have hrf : s1.rowCover i = false := by
      cases hrc : s1.rowCover i with
      | false => rfl
      | true =>
        obtain ⟨b, hb⟩ := hM.rowCover_star i hrc
        rw [hstars b] at hb
        cases hb
    show (0 : Int) ≤ u i - (if s1.rowCover i then uncoveredMin s1 h w else 0)
    rw [hrf]
    have := hu0 i hi hstars
    simp
    omega

/-- Every `cont` outcome of an iteration preserves the dual certificate. -/
theorem stepOnce_cont_dual {m0 : Nat → Nat → Int} {h w : Nat} {rot : Bool}
    {s s2 : State} (hInv : Inv h w s) (hD : DualInv m0 h w s)
    (hstep : stepOnce h w rot s = StepRes.cont s2) : DualInv m0 h w s2 := by
  have hD1 : DualInv m0 h w (step3State h s) :=
    dual_mono (fun i j => rfl) (fun b hb => hb) (fun a ha => ha) hD
  unfold stepOnce at hstep
  split at hstep
  · split at hstep
    · cases hstep
    · cases hstep
  · rename_i hcond
    obtain ⟨hS1, hM1⟩ := step3_inv hInv (fun hv hcc => hcond ⟨hv, hcc⟩)
    split at hstep
    · cases hstep
      exact adjust_dual hS1 hM1 hD1
    · rename_i i j hfz
      split at hstep
      · rename_i j0 hj0
        cases hstep
        exact dual_mono (fun a b => rfl) (fun b hb => hb) (fun a ha => ha) hD1
      · rename_i hnostar
        split at hstep
        · cases hstep
        · rename_i path hbp
          cases hstep
          refine dual_mono ?_ ?_ ?_ hD1
          · intro a b
            rfl
          · exact (augment_pres hS1 hM1 hfz hnostar hbp).2.1
          · exact (augment_pres hS1 hM1 hfz hnostar hbp).2.2.1

/-- The facts recorded by the `done` branch of an iteration: the loop was
in its verification mode, and Step 3 covered exactly `h` columns. -/
theorem stepOnce_done_cover {h w : Nat} {rotated : Bool} {s : State}
    {r : List (Option Nat)} (hstep : stepOnce h w rotated s = StepRes.done r) :
    s.verify = true ∧ coverCount (step3State h s).colCover w = h := by
  unfold stepOnce at hstep
  split at hstep
  · rename_i hcond
    exact hcond
  · split at hstep
    · cases hstep
    · split at hstep
      · cases hstep
      · split at hstep
        · cases hstep
        · cases hstep

/-- A successful run of the main loop ends in a state that satisfies the
loop invariant and the dual certificate, is in verification mode with all
`h` columns covered, and extracts to the returned assignment. -/
theorem loopRun_dual {m0 : Nat → Nat → Int} {h w : Nat} {rot : Bool} {fuel : Nat}
    {s : State} {r : List (Option Nat)} (hInv : Inv h w s) (hD : DualInv m0 h w s)
    (hrun : loopRun h w rot fuel s = some r) :
    ∃ st : State, Inv h w st ∧ DualInv m0 h w st ∧ st.verify = true ∧
      coverCount (step3State h st).colCover w = h ∧
      extract st.stars h w rot = some r := by
  induction fuel generalizing s with
  | zero => cases hrun
  | succ n ih =>
    rw [loopRun] at hrun
    cases hstep : stepOnce h w rot s with
    | done r2 =>
      rw [hstep] at hrun
      cases hrun
      obtain ⟨hv, hcc⟩ := stepOnce_done_cover hstep
      exact ⟨s, hInv, hD, hv, hcc, stepOnce_done hstep⟩
    | panic => rw [hstep] at hrun; cases hrun
    | cont s2 =>
      rw [hstep] at hrun
      exact ih (stepOnce_cont_inv hInv hstep) (stepOnce_cont_dual hInv hD hstep) hrun

/-- Star bookkeeping of a continuing iteration: an augmentation (the only
continuing step that re-enters verification mode) adds exactly one star;
every other continuing step leaves the star set unchanged. -/
theorem stepOnce_star {h w : Nat} {rot : Bool} {s s2 : State}
    (hInv : Inv h w s) (hstep : stepOnce h w rot s = StepRes.cont s2) :
    (s2.verify = true → starCount s2.stars h w = starCount s.stars h w + 1) ∧
    (s2.verify = false → s2.stars = s.stars) := by
  unfold stepOnce at hstep
  split at hstep
  · split at hstep <;> cases hstep
  · rename_i hcond
    obtain ⟨hS1, hM1⟩ := step3_inv hInv (fun hv hcc => hcond ⟨hv, hcc⟩)
    split at hstep
    · cases hstep
      exact ⟨fun hv => Bool.noConfusion hv, fun _ => rfl⟩
    · rename_i i j hfz
      split at hstep
      · rename_i j0 hj0
        cases hstep
        exact ⟨fun hv => Bool.noConfusion hv, fun _ => rfl⟩
      · rename_i hnostar
        split at hstep
        · cases hstep
        · rename_i path hbp
          cases hstep
          refine ⟨fun _ => ?_, fun hv => Bool.noConfusion hv⟩
          exact (augment_pres hS1 hM1 hfz hnostar hbp).2.2.2

/-- Augmentations and current stars never total more than `h`. -/
theorem augCount_star_le {h w : Nat} {rot : Bool} :
    ∀ n (s : State), Inv h w s →
      augCount h w rot n s + starCount s.stars h w ≤ h := by
  intro n
  induction n with
  | zero =>
    intro s hInv
    simpa [augCount] using starCount_le hInv.1.rowU
  | succ n ih =>
    intro s hInv
    rw [augCount]
    cases hstep : stepOnce h w rot s with
    | cont s2 =>
      obtain ⟨hup, hsame⟩ := stepOnce_star hInv hstep
      have hih := ih s2 (stepOnce_cont_inv hInv hstep)
      cases hv : s2.verify with
      | true =>
        rw [hup hv] at hih
        simp only [hv, if_true]
        omega
      | false =>
        rw [hsame hv] at hih
        simp only [hv, Bool.false_eq_true, if_false]
        omega
    | done r =>
      simpa using starCount_le hInv.1.rowU
    | panic =>
      simpa using starCount_le hInv.1.rowU

/-! ## Counting covered columns: the termination test -/

/-- In a verification state whose Step 3 covers exactly `h` columns, every
working row carries a star (the pigeonhole behind the termination test). -/
theorem full_rows_of_coverCount {h w : Nat} {s : State} (hS : StarInv h w s)
    (hV : VerifyInv s) (hv : s.verify = true)
    (hcc : coverCount (step3State h s).colCover w = h) :
    ∀ i, i < h → ∃ j, s.stars i j = true := by
  have hcol : ∀ j, (step3State h s).colCover j =
      (findBelow (fun i => s.stars i j) h).isSome := by
    intro j
    have hstep3 : (step3State h s).colCover = coverStarCols s.stars s.colCover h := by
      show (if s.verify then coverStarCols s.stars s.colCover h else s.colCover) = _
      rw [hv]
      simp
    rw [hstep3]
    unfold coverStarCols
    rw [hV.2.1 j, Bool.false_or]
  have hSC : ((Finset.range w).filter
      (fun j => (findBelow (fun i => s.stars i j) h).isSome = true)).card = h := by
    have h1 : coverCount (step3State h s).colCover w = ((Finset.range w).filter
        (fun j => (findBelow (fun i => s.stars i j) h).isSome = true)).card := by
      rw [coverCount_eq_card]
      congr 1
      apply Finset.filter_congr
      intro j _
      rw [hcol j]
    rw [← h1]
    exact hcc
  have hmaps : ∀ j ∈ (Finset.range w).filter
      (fun j => (findBelow (fun i => s.stars i j) h).isSome = true),
      (findBelow (fun i => s.stars i j) h).getD 0 ∈ (Finset.range h).filter
        (fun i => (findBelow (fun j => s.stars i j) w).isSome = true) := by
    intro j hj
    simp only [Finset.mem_filter, Finset.mem_range] at hj ⊢
    obtain ⟨hjw, hsome⟩ := hj
    cases hfb : findBelow (fun i => s.stars i j) h with
    | none => simp [hfb] at hsome
    | some i0 =>
      obtain ⟨hi0, hst, _⟩ := findBelow_eq_some hfb
      exact ⟨hi0, findBelow_isSome.mpr ⟨j, (hS.lt i0 j hst).2, hst⟩⟩
  have hinj : ∀ j1 ∈ (Finset.range w).filter
      (fun j => (findBelow (fun i => s.stars i j) h).isSome = true),
      ∀ j2 ∈ (Finset.range w).filter
        (fun j => (findBelow (fun i => s.stars i j) h).isSome = true),
      (findBelow (fun i => s.stars i j1) h).getD 0 =
        (findBelow (fun i => s.stars i j2) h).getD 0 → j1 = j2 := by
    intro j1 hj1 j2 hj2 heq
    simp only [Finset.mem_filter, Finset.mem_range] at hj1 hj2
    obtain ⟨hj1w, hsome1⟩ := hj1
    obtain ⟨hj2w, hsome2⟩ := hj2
    cases hfb1 : findBelow (fun i => s.stars i j1) h with
    | none => simp [hfb1] at hsome1
    | some i1 =>
      cases hfb2 : findBelow (fun i => s.stars i j2) h with
      | none => simp [hfb2] at hsome2
      | some i2 =>
        rw [hfb1, hfb2] at heq
        have hi12 : i1 = i2 := heq
        have h1 : s.stars i1 j1 = true := (findBelow_eq_some hfb1).2.1
        have h2 : s.stars i2 j2 = true := (findBelow_eq_some hfb2).2.1
        exact hS.rowU i1 j1 j2 h1 (hi12 ▸ h2)
  have hsub : ((Finset.range w).filter
      (fun j => (findBelow (fun i => s.stars i j) h).isSome = true)).card ≤
      ((Finset.range h).filter
        (fun i => (findBelow (fun j => s.stars i j) w).isSome = true)).card :=
    Finset.card_le_card_of_injOn
      (fun j => (findBelow (fun i => s.stars i j) h).getD 0) hmaps
      (fun j1 hj1 j2 hj2 heq => hinj j1 hj1 j2 hj2 heq)
  have hRS : ((Finset.range h).filter
      (fun i => (findBelow (fun j => s.stars i j) w).isSome = true)) =
      Finset.range h := by
    apply Finset.eq_of_subset_of_card_le (Finset.filter_subset _ _)
    rw [Finset.card_range]
    omega
  intro i hi
  have hin : i ∈ (Finset.range h).filter
      (fun i => (findBelow (fun j => s.stars i j) w).isSome = true) := by
    rw [hRS]
    exact Finset.mem_range.mpr hi
  simp only [Finset.mem_filter] at hin
  obtain ⟨_, hsome⟩ := hin
  cases hfb : findBelow (fun j => s.stars i j) w with
  | none => simp [hfb] at hsome
  | some j0 => exact ⟨j0, (findBelow_eq_some hfb).2.1⟩

/-- One loop iteration either finishes (with a successful extraction) or
continues with a strictly smaller termination measure; it never panics. -/
theorem stepOnce_progress {m0 : Nat → Nat → Int} {h w : Nat} {rot : Bool}
    {s : State} (hInv : Inv h w s) (hD : DualInv m0 h w s)
    (hbd : ∀ i j, i < h → j < w → m0 i j ≤ SENTINEL) (hw : h ≤ w) :
    (∃ r, stepOnce h w rot s = StepRes.done r) ∨
    (∃ s2, stepOnce h w rot s = StepRes.cont s2 ∧
      loopMeasure h w s2 < loopMeasure h w s) := by
  unfold stepOnce
  split
  · rename_i hcond
    obtain ⟨hS, hmode⟩ := hInv
    have hV : VerifyInv s := by
      rcases hmode with ⟨_, hV⟩ | ⟨hf, _⟩
      · exact hV
      · rw [hcond.1] at hf
        cases hf
    have hsome := extract_isSome_full rot hS.lt
      (fun i hi => full_rows_of_coverCount hS hV hcond.1 hcond.2 i hi)
    cases hex : extract s.stars h w rot with
    | none =>
      rw [hex] at hsome
      simp at hsome
    | some r => exact Or.inl ⟨r, rfl⟩
  · rename_i hcond
    obtain ⟨hS1, hM1⟩ := step3_inv hInv (fun hv hcc => hcond ⟨hv, hcc⟩)
    have hD1 : DualInv m0 h w (step3State h s) :=
      dual_mono (fun i j => rfl) (fun b hb => hb) (fun a ha => ha) hD
    split
    · rename_i hfz
      refine Or.inr ⟨_, rfl, ?_⟩
      have hflag2 : (if findUZ (adjustState (step3State h s) h w) h w = none
          then 1 else 0) = 0 := by
        have hsome := findUZ_isSome (adjust_zero hS1 hM1 hD1 hbd hw)
        split
        · rename_i hn
          rw [hn] at hsome
          simp at hsome
        · rfl
      show (h - starCount s.stars h w) * (2 * h + 4) +
          (2 * (h - coverCount s.rowCover h) +
            (if findUZ (adjustState (step3State h s) h w) h w = none
              then 1 else 0)) <
        (h - starCount s.stars h w) * (2 * h + 4) +
          (if s.verify then 2 * h + 3
           else 2 * (h - coverCount s.rowCover h) +
             (if findUZ s h w = none then 1 else 0))
      rw [hflag2]
      apply Nat.add_lt_add_left
      cases hv : s.verify with
      | false =>
        rw [if_neg Bool.false_ne_true]
        have hfz2 : findUZ s h w = none := by
          rw [← step3State_id (h := h) hv]
          exact hfz
        rw [if_pos hfz2]
        omega
      | true =>
        rw [if_pos rfl]
        omega
    · rename_i i j hfz
      obtain ⟨hi, hj, hri0, hcj0, hmz0⟩ := findUZ_some hfz
      have hri : s.rowCover i = false := hri0
      split
      · rename_i j0 hj0
        refine Or.inr ⟨_, rfl, ?_⟩
        have hcu : coverCount (fun a => if a = i then true else s.rowCover a) h =
            coverCount s.rowCover h + 1 := coverCount_update hi hri
        have hclt : coverCount s.rowCover h < h := coverCount_lt hi hri
        show (h - starCount s.stars h w) * (2 * h + 4) +
            (2 * (h - coverCount (fun a => if a = i then true else s.rowCover a) h) +
              (if findUZ (coverSwitch (primeAt (step3State h s) i j) i j0) h w = none
                then 1 else 0)) <
          (h - starCount s.stars h w) * (2 * h + 4) +
            (if s.verify then 2 * h + 3
             else 2 * (h - coverCount s.rowCover h) +
               (if findUZ s h w = none then 1 else 0))
        rw [hcu]
        apply Nat.add_lt_add_left
        have hF : (if findUZ (coverSwitch (primeAt (step3State h s) i j) i j0) h w
            = none then 1 else 0) ≤ 1 := by
          split <;> omega
        cases hv : s.verify with
        | false =>
          rw [if_neg Bool.false_ne_true]
          have hfz2 : findUZ s h w = some (i, j) := by
            rw [← step3State_id (h := h) hv]
            exact hfz
          rw [if_neg (show ¬ findUZ s h w = none by simp [hfz2])]
          omega
        | true =>
          rw [if_pos rfl]
          omega
      · rename_i hnostar
        obtain ⟨path, hbp⟩ := augment_ready hS1 hM1 hfz hnostar
        have hbp2 : buildPath s.stars (primeAt (step3State h s) i j).primes h w
            (h + 1) [(i, j)] = some path := hbp
        split
        · rename_i hbpn
          rw [hbp2] at hbpn
          cases hbpn
        · rename_i path2 hbp3
          refine Or.inr ⟨_, rfl, ?_⟩
          have haug := augment_pres hS1 hM1 hfz hnostar hbp3
          have hsc2 : starCount
              (augmentState (primeAt (step3State h s) i j) path2).stars h w =
              starCount s.stars h w + 1 := haug.2.2.2
          have hsle := starCount_le (h := h) (w := w) haug.1.1.rowU
          rw [hsc2] at hsle
          show (h - starCount
              (augmentState (primeAt (step3State h s) i j) path2).stars h w) *
              (2 * h + 4) + (2 * h + 3) <
            (h - starCount s.stars h w) * (2 * h + 4) +
              (if s.verify then 2 * h + 3
               else 2 * (h - coverCount s.rowCover h) +
                 (if findUZ s h w = none then 1 else 0))
          rw [hsc2]
          have e : (h - starCount s.stars h w) * (2 * h + 4) =
              (h - (starCount s.stars h w + 1)) * (2 * h + 4) + (2 * h + 4) := by
            have h1 : h - starCount s.stars h w =
                (h - (starCount s.stars h w + 1)) + 1 := by omega
            rw [h1]
            ring
          rw [e]
          generalize (h - (starCount s.stars h w + 1)) * (2 * h + 4) = X
          generalize (if s.verify then 2 * h + 3
            else 2 * (h - coverCount s.rowCover h) +
              (if findUZ s h w = none then 1 else 0)) = I
          omega

/-- With enough fuel for the current measure, the main loop completes. -/
theorem loopRun_isSome {m0 : Nat → Nat → Int} {h w : Nat} {rot : Bool}
    (hbd : ∀ i j, i < h → j < w → m0 i j ≤ SENTINEL) (hw : h ≤ w) :
    ∀ fuel (s : State), Inv h w s → DualInv m0 h w s →
      loopMeasure h w s < fuel →
      (loopRun h w rot fuel s).isSome = true := by
  intro fuel
  induction fuel with
  | zero =>
    intro s _ _ hm
    omega
  | succ n ih =>
    intro s hInv hD hm
    rw [loopRun]
    rcases stepOnce_progress hInv hD hbd hw with ⟨r, hstep⟩ | ⟨s2, hstep, hdec⟩
    · rw [hstep]
      simp
    · rw [hstep]
      exact ih s2 (stepOnce_cont_inv hInv hstep)
        (stepOnce_cont_dual hInv hD hstep) (by omega)

/-- The algorithm's core terminates (no fuel exhaustion, no panic) on any
non-negative, sentinel-bounded working matrix with at least as many
columns as rows. -/
theorem minimizeCore_isSome {m0 : Nat → Nat → Int} {h w : Nat} {rot : Bool}
    (hm0 : ∀ i j, i < h → j < w → 0 ≤ m0 i j)
    (hbd : ∀ i j, i < h → j < w → m0 i j ≤ SENTINEL) (hw : h ≤ w) :
    (minimizeCore (rowReduce m0 h w) h w rot).isSome = true := by
  unfold minimizeCore
  apply loopRun_isSome hbd hw (FUEL h) (initState (rowReduce m0 h w) h w)
    (initState_inv (rowReduce_nonneg m0 h w)) (dual_init m0 h w hm0)
  show (h - starCount (initState (rowReduce m0 h w) h w).stars h w) * (2 * h + 4)
      + (2 * h + 3) < FUEL h
  unfold FUEL
  calc (h - starCount (initState (rowReduce m0 h w) h w).stars h w) * (2 * h + 4)
      + (2 * h + 3)
      < (h - starCount (initState (rowReduce m0 h w) h w).stars h w) * (2 * h + 4)
        + (2 * h + 4) := Nat.add_lt_add_left (by omega) _
    _ ≤ h * (2 * h + 4) + (2 * h + 4) :=
        Nat.add_le_add_right (Nat.mul_le_mul_right _ (Nat.sub_le _ _)) _
    _ = (h + 1) * (2 * h + 4) := by ring

/-! ## Fixed-width fidelity: the run stays inside the u64 range -/

theorem uncoveredMin_nonneg {h w : Nat} {s : State}
    (hnn : ∀ i j, i < h → j < w → 0 ≤ s.m i j) :
    0 ≤ uncoveredMin s h w :=
  uncoveredMin_lb SENTINEL_pos (fun i j hi hj _ _ => hnn i j hi hj)

/-- In a mid-phase state with a star-free row, the Step 6 minimum is at
most the matrix bound: the star-free row is uncovered and carries
original costs shifted only downwards. -/
theorem uncoveredMin_le_bound {m0 : Nat → Nat → Int} {M D : Int} {h w : Nat}
    {s : State} (hS : StarInv h w s) (hM1 : MidInv h w s)
    (hB : DualBound m0 h w D s)
    (hm0 : ∀ i j, i < h → j < w → 0 ≤ m0 i j ∧ m0 i j ≤ M) (hw : h ≤ w) :
    uncoveredMin s h w ≤ M := by
  obtain ⟨istar, hilt, hnos⟩ := hM1.incomplete
  have hriu : s.rowCover istar = false := by
    cases hrc : s.rowCover istar with
    | false => rfl
    | true =>
      obtain ⟨b, hb⟩ := hM1.rowCover_star istar hrc
      rw [hnos b] at hb
      cases hb
  obtain ⟨j0, hj0, hcj0⟩ := exists_uncovered_col hS hM1 hw
  have hle := uncoveredMin_le hilt hj0 hriu hcj0
  obtain ⟨u, v, hdec, hv0, hlb, hu0⟩ := hB
  have h1 := hdec istar j0 hilt hj0
  have h2 := hu0 istar hilt hnos
  have h3 := hv0 j0 hj0
  have h4 := (hm0 istar j0 hilt hj0).2
  linarith

/-- Every continuing iteration preserves the growth certificate, with the
allowance `D` growing by at most the matrix bound `M`. -/
theorem stepOnce_dualBound {m0 : Nat → Nat → Int} {M D : Int} {h w : Nat}
    {rot : Bool} {s s2 : State} (hInv : Inv h w s) (hB : DualBound m0 h w D s)
    (hm0 : ∀ i j, i < h → j < w → 0 ≤ m0 i j ∧ m0 i j ≤ M) (hM : 0 ≤ M)
    (hw : h ≤ w) (hstep : stepOnce h w rot s = StepRes.cont s2) :
    DualBound m0 h w (D + M) s2 := by
  unfold stepOnce at hstep
  split at hstep
  · split at hstep <;> cases hstep
  · rename_i hcond
    obtain ⟨hS1, hM1⟩ := step3_inv hInv (fun hv hcc => hcond ⟨hv, hcc⟩)
    have hB1 : DualBound m0 h w D (step3State h s) := hB
    split at hstep
    · rename_i hfz
      cases hstep
      obtain ⟨u, v, hdec, hv0, hlb, hu0⟩ := hB1
      have hd0 : 0 ≤ uncoveredMin (step3State h s) h w :=
        uncoveredMin_nonneg hS1.nonneg
      have hdM : uncoveredMin (step3State h s) h w ≤ M :=
        uncoveredMin_le_bound hS1 hM1 ⟨u, v, hdec, hv0, hlb, hu0⟩ hm0 hw
      refine ⟨fun i => u i - (if (step3State h s).rowCover i then
          uncoveredMin (step3State h s) h w else 0),
        fun j => v j + (if (step3State h s).colCover j then 0 else
          uncoveredMin (step3State h s) h w), ?_, ?_, ?_, ?_⟩
      · intro i j hi hj
        show dualAdjust (step3State h s).m (step3State h s).rowCover
          (step3State h s).colCover (uncoveredMin (step3State h s) h w) i j = _
        unfold dualAdjust
        rw [hdec i j hi hj]
        cases hr : (step3State h s).rowCover i <;>
          cases hc : (step3State h s).colCover j <;> simp [hr, hc] <;> ring
      · intro j hj
        have h1 := hv0 j hj
        show 0 ≤ v j + (if (step3State h s).colCover j then 0 else
          uncoveredMin (step3State h s) h w)
        split <;> omega
      · intro i hi
        have h1 := hlb i hi
        show -(D + M) ≤ u i - (if (step3State h s).rowCover i then
          uncoveredMin (step3State h s) h w else 0)
        split <;> omega
      · intro i hi hfree
        have hfree2 : ∀ j, (step3State h s).stars i j = false := hfree
        have h2 := hu0 i hi hfree2
        have hrc : (step3State h s).rowCover i = false := by
          cases hrc2 : (step3State h s).rowCover i with
          | false => rfl
          | true =>
            obtain ⟨b, hb⟩ := hM1.rowCover_star i hrc2
            rw [hfree2 b] at hb
            cases hb
        show (0 : Int) ≤ u i - (if (step3State h s).rowCover i then
          uncoveredMin (step3State h s) h w else 0)
        rw [hrc]
        simp only [Bool.false_eq_true, if_false]
        omega
    · rename_i i j hfz
      split at hstep
      · rename_i j0 hj0
        cases hstep
        obtain ⟨u, v, hdec, hv0, hlb, hu0⟩ := hB1
        exact ⟨u, v, fun a b ha hb => hdec a b ha hb, hv0,
          fun a ha => by have := hlb a ha; omega,
          fun a ha hfree => hu0 a ha hfree⟩
      · rename_i hnostar
        split at hstep
        · cases hstep
        · rename_i path hbp
          cases hstep
          obtain ⟨u, v, hdec, hv0, hlb, hu0⟩ := hB1
          have hgrowR := (augment_pres hS1 hM1 hfz hnostar hbp).2.2.1
          refine ⟨u, v, fun a b ha hb => hdec a b ha hb, hv0,
            fun a ha => by have := hlb a ha; omega, ?_⟩
          intro a ha hfree
          apply hu0 a ha
          intro b
          cases hsb : (step3State h s).stars a b with
          | false => rfl
          | true =>
            exfalso
            obtain ⟨b2, hb2⟩ := hgrowR a ⟨b, hsb⟩
            rw [hfree b2] at hb2
            cases hb2

/-- Along any run, the growth allowance is at most the bound times the
number of iterations. -/
theorem iterateN_dualBound {m0 : Nat → Nat → Int} {M : Int} {h w : Nat}
    {rot : Bool}
    (hm0 : ∀ i j, i < h → j < w → 0 ≤ m0 i j ∧ m0 i j ≤ M) (hM : 0 ≤ M)
    (hw : h ≤ w) :
    ∀ n (s s2 : State) (D : Int), Inv h w s → DualBound m0 h w D s →
      iterateN h w rot n s = some s2 →
      Inv h w s2 ∧ DualBound m0 h w (D + M * n) s2 := by
  intro n
  induction n with
  | zero =>
    intro s s2 D hInv hB hiter
    cases hiter
    refine ⟨hInv, ?_⟩
    simp only [Nat.cast_zero, mul_zero, add_zero]
    exact hB
  | succ n ih =>
    intro s s2 D hInv hB hiter
    rw [iterateN] at hiter
    cases hstep : stepOnce h w rot s with
    | done r => rw [hstep] at hiter; cases hiter
    | panic => rw [hstep] at hiter; cases hiter
    | cont s1 =>
      rw [hstep] at hiter
      have hB1 := stepOnce_dualBound hInv hB hm0 hM hw hstep
      have h1 := ih s1 s2 (D + M) (stepOnce_cont_inv hInv hstep) hB1 hiter
      refine ⟨h1.1, ?_⟩
      have he : D + M * ((n : Int) + 1) = D + M + M * (n : Int) := by ring
      rw [Nat.cast_succ, he]
      exact h1.2

/-- Each iteration of a run consumes at least one unit of the measure. -/
theorem iterateN_measure {m0 : Nat → Nat → Int} {h w : Nat} {rot : Bool}
    (hbd : ∀ i j, i < h → j < w → m0 i j ≤ SENTINEL) (hw : h ≤ w) :
    ∀ n (s s2 : State), Inv h w s → DualInv m0 h w s →
      iterateN h w rot n s = some s2 →
      n + loopMeasure h w s2 ≤ loopMeasure h w s := by
  intro n
  induction n with
  | zero =>
    intro s s2 hInv hD hiter
    cases hiter
    omega
  | succ n ih =>
    intro s s2 hInv hD hiter
    rw [iterateN] at hiter
    cases hstep : stepOnce h w rot s with
    | done r => rw [hstep] at hiter; cases hiter
    | panic => rw [hstep] at hiter; cases hiter
    | cont s1 =>
      rw [hstep] at hiter
      rcases stepOnce_progress hInv hD hbd hw with ⟨r, hdone⟩ | ⟨s1b, hcont, hdec⟩
      · rw [hstep] at hdone
        cases hdone
      · rw [hstep] at hcont
        cases hcont
        have := ih s1 s2 (stepOnce_cont_inv hInv hstep)
          (stepOnce_cont_dual hInv hD hstep) hiter
        omega

/-- The measure of the initial state fits under the fuel. -/
theorem initState_measure_lt (m1 : Nat → Nat → Int) (h w : Nat) :
    loopMeasure h w (initState m1 h w) < FUEL h := by
  show (h - starCount (initState m1 h w).stars h w) * (2 * h + 4)
      + (2 * h + 3) < FUEL h
  unfold FUEL
  calc (h - starCount (initState m1 h w).stars h w) * (2 * h + 4)
      + (2 * h + 3)
      < (h - starCount (initState m1 h w).stars h w) * (2 * h + 4)
        + (2 * h + 4) := Nat.add_lt_add_left (by omega) _
    _ ≤ h * (2 * h + 4) + (2 * h + 4) :=
        Nat.add_le_add_right (Nat.mul_le_mul_right _ (Nat.sub_le _ _)) _
    _ = (h + 1) * (2 * h + 4) := by ring

/-- Fidelity of the exact-arithmetic embedding on bounded inputs: if every
working-matrix entry times `FUEL h + 2` is at most the sentinel, then at
every state the run reaches, every entry lies in `[0, SENTINEL]`, and at
every non-terminal state the Step 6 minimum is in `[0, M]` and every add-
pass intermediate `entry + min` is at most the sentinel.  Every number the
fixed-width Rust program manipulates on this domain is therefore exactly
the model's. -/
theorem run_in_range {m1 : Nat → Nat → Int} {M : Int} {h w : Nat} {rot : Bool}
    (hm1 : ∀ i j, i < h → j < w → 0 ≤ m1 i j ∧ m1 i j ≤ M) (hM : 0 ≤ M)
    (hMS : M * ((FUEL h : Int) + 2) ≤ SENTINEL) (hw : h ≤ w) :
    ∀ n s2, iterateN h w rot n (initState m1 h w) = some s2 →
      (∀ i j, i < h → j < w → 0 ≤ s2.m i j ∧ s2.m i j ≤ SENTINEL) ∧
      (¬(s2.verify = true ∧ coverCount (step3State h s2).colCover w = h) →
        0 ≤ uncoveredMin (step3State h s2) h w ∧
        uncoveredMin (step3State h s2) h w ≤ M ∧
        ∀ i j, i < h → j < w →
          s2.m i j + uncoveredMin (step3State h s2) h w ≤ SENTINEL) := by
  intro n s2 hiter
  have hInv0 : Inv h w (initState m1 h w) :=
    initState_inv (fun i j hi hj => (hm1 i j hi hj).1)
  have hD0 : DualInv m1 h w (initState m1 h w) := by
    refine ⟨fun i => 0, fun j => 0, 0, ?_, ?_, ?_, ?_⟩
    · intro i j hi hj
      show m1 i j = m1 i j - 0 - 0
      ring
    · intro j hj
      exact ⟨le_refl 0, le_refl 0⟩
    · intro j hj hns
      rfl
    · intro i hi hns
      exact le_refl 0
  have hB0 : DualBound m1 h w 0 (initState m1 h w) := by
    refine ⟨fun i => 0, fun j => 0, ?_, ?_, ?_, ?_⟩
    · intro i j hi hj
      show m1 i j = m1 i j - 0 - 0
      ring
    · intro j hj
      exact le_refl 0
    · intro i hi
      norm_num
    · intro i hi hns
      exact le_refl 0
  have hone : (1 : Int) ≤ (FUEL h : Int) + 2 := by omega
  have hSb : ∀ i j, i < h → j < w → m1 i j ≤ SENTINEL := by
    intro i j hi hj
    have h1 := (hm1 i j hi hj).2
    have h2 : M ≤ M * ((FUEL h : Int) + 2) := le_mul_of_one_le_right hM hone
    linarith
  obtain ⟨hInv2, hB2⟩ :=
    iterateN_dualBound hm1 hM hw n (initState m1 h w) s2 0 hInv0 hB0 hiter
  have hme := iterateN_measure hSb hw n (initState m1 h w) s2 hInv0 hD0 hiter
  have hmi := initState_measure_lt m1 h w
  have hn : n < FUEL h := by omega
  have hents : ∀ i j, i < h → j < w → s2.m i j ≤ M + M * (n : Int) := by
    intro i j hi hj
    obtain ⟨u, v, hdec, hv0, hlb, hu0⟩ := hB2
    have h1 := hdec i j hi hj
    have h2 := hv0 j hj
    have h3 := hlb i hi
    have h4 := (hm1 i j hi hj).2
    rw [h1]
    linarith
  refine ⟨?_, ?_⟩
  · intro i j hi hj
    refine ⟨hInv2.1.nonneg i j hi hj, ?_⟩
    have h1 := hents i j hi hj
    have h2 : M + M * (n : Int) ≤ M * ((FUEL h : Int) + 2) := by
      have h3 : (1 : Int) + (n : Int) ≤ (FUEL h : Int) + 2 := by omega
      calc M + M * (n : Int) = M * (1 + (n : Int)) := by ring
        _ ≤ M * ((FUEL h : Int) + 2) := mul_le_mul_of_nonneg_left h3 hM
    linarith
  · intro hnt
    have hnt2 : s2.verify = true → coverCount (step3State h s2).colCover w ≠ h :=
      fun hv hcc => hnt ⟨hv, hcc⟩
    obtain ⟨hS3, hM3⟩ := step3_inv hInv2 hnt2
    have hB3 : DualBound m1 h w (0 + M * (n : Int)) (step3State h s2) := hB2
    have hdM : uncoveredMin (step3State h s2) h w ≤ M :=
      uncoveredMin_le_bound hS3 hM3 hB3 hm1 hw
    have hd0 : 0 ≤ uncoveredMin (step3State h s2) h w :=
      uncoveredMin_nonneg hS3.nonneg
    refine ⟨hd0, hdM, ?_⟩
    intro i j hi hj
    have h1 := hents i j hi hj
    have h2 : M + M * (n : Int) + M ≤ M * ((FUEL h : Int) + 2) := by
      have h3 : (2 : Int) + (n : Int) ≤ (FUEL h : Int) + 2 := by omega
      calc M + M * (n : Int) + M = M * (2 + (n : Int)) := by ring
        _ ≤ M * ((FUEL h : Int) + 2) := mul_le_mul_of_nonneg_left h3 hM
    linarith

/-! ## List sums as indexed sums -/

theorem sum_map_range (f : Nat → Int) (n : Nat) :
    ((List.range n).map f).sum = ∑ k in Finset.range n, f k := by
  induction n with
  | zero => simp
  | succ n ih =>
    rw [List.range_succ, List.map_append, List.sum_append,
      Finset.sum_range_succ, ih]
    simp

theorem sum_enumFrom (g : Nat × Option Nat → Int) (r : List (Option Nat)) :
    ∀ k, ((r.enumFrom k).map g).sum =
      ∑ c in Finset.range r.length, g (k + c, r.getD c none) := by
  induction r with
  | nil => intro k; simp
  | cons x t ih =>
    intro k
    have h1 : (x :: t).enumFrom k = (k, x) :: t.enumFrom (k + 1) := rfl
    rw [h1, List.map_cons, List.sum_cons, ih (k + 1), List.length_cons,
      Finset.sum_range_succ']
    have h2 : ∀ c ∈ Finset.range t.length,
        g (k + (c + 1), (x :: t).getD (c + 1) none) = g (k + 1 + c, t.getD c none) := by
      intro c _
      rw [List.getD_cons_succ]
      have harg : k + (c + 1) = k + 1 + c := by omega
      rw [harg]
    rw [Finset.sum_congr rfl h2]
    have h3 : g (k + 0, (x :: t).getD 0 none) = g (k, x) := by
      rw [List.getD_cons_zero]
      simp
    rw [h3]
    exact add_comm _ _

/-- The assignment cost as a sum over the row indices. -/
theorem assignCost_eq_sum (matrix : List Int) (width : Nat)
    (r : List (Option Nat)) :
    assignCost matrix width r = ∑ c in Finset.range r.length,
      (match r.getD c none with
       | some j => readCost matrix width c j
       | none => 0) := by
  unfold assignCost
  rw [show r.enum = r.enumFrom 0 from rfl,
    sum_enumFrom (fun p => match p.2 with
      | some j => readCost matrix width p.1 j
      | none => 0) r 0]
  apply Finset.sum_congr rfl
  intro c _
  simp only [Nat.zero_add]

/-! ## Optimality of the star assignment over the working matrix -/

/-- The main loop, run to completion on the row-reduced working matrix,
ends with a full row matching of stars whose total working-matrix cost is
no larger than that of any injective full assignment of rows to columns. -/
theorem core_opt {m0 : Nat → Nat → Int} {h w : Nat} {rot : Bool}
    {r : List (Option Nat)}
    (hm0 : ∀ i j, i < h → j < w → 0 ≤ m0 i j)
    (hr : minimizeCore (rowReduce m0 h w) h w rot = some r) :
    ∃ st : State, Inv h w st ∧ extract st.stars h w rot = some r ∧
      (∀ i, i < h → st.stars i ((rowStar st.stars w i).getD 0) = true) ∧
      ∀ σ : Nat → Nat, (∀ i, i < h → σ i < w) →
        (∀ i i2, i < h → i2 < h → σ i = σ i2 → i = i2) →
        ∑ i in Finset.range h, m0 i ((rowStar st.stars w i).getD 0) ≤
          ∑ i in Finset.range h, m0 i (σ i) := by
  unfold minimizeCore at hr
  obtain ⟨st, hI, hD, hv, hcc, hex⟩ :=
    loopRun_dual (initState_inv (rowReduce_nonneg m0 h w)) (dual_init m0 h w hm0) hr
  obtain ⟨hS, hmode⟩ := hI
  have hV : VerifyInv st := by
    rcases hmode with ⟨_, hV⟩ | ⟨hf, _⟩
    · exact hV
    · rw [hv] at hf; cases hf
  have hfull := full_rows_of_coverCount hS hV hv hcc
  have hA : ∀ i, i < h → st.stars i ((rowStar st.stars w i).getD 0) = true := by
    intro i hi
    obtain ⟨j, hj⟩ := hfull i hi
    obtain ⟨c, hc, hcs⟩ := rowStar_spec hj (hS.lt i j hj).2
    rw [hc]
    exact hcs
  refine ⟨st, ⟨hS, hmode⟩, hex, hA, ?_⟩
  intro σ hσw hσinj
  obtain ⟨u, v, D, hdec, hvb, hvD, hu0⟩ := hD
  have hAw : ∀ i, i < h → (rowStar st.stars w i).getD 0 < w :=
    fun i hi => (hS.lt _ _ (hA i hi)).2
  have e1 : ∀ i ∈ Finset.range h, m0 i ((rowStar st.stars w i).getD 0) =
      u i + v ((rowStar st.stars w i).getD 0) := by
    intro i hi
    rw [Finset.mem_range] at hi
    have hz : st.m i ((rowStar st.stars w i).getD 0) = 0 := hS.zero _ _ (hA i hi)
    have hd := hdec i _ hi (hAw i hi)
    linarith
  have e2 : ∀ i ∈ Finset.range h, m0 i (σ i) = st.m i (σ i) + u i + v (σ i) := by
    intro i hi
    rw [Finset.mem_range] at hi
    have hd := hdec i (σ i) hi (hσw i hi)
    linarith
  rw [Finset.sum_congr rfl e1, Finset.sum_congr rfl e2]
  simp only [Finset.sum_add_distrib]
  have hm_nn : 0 ≤ ∑ i in Finset.range h, st.m i (σ i) :=
    Finset.sum_nonneg (fun i hi => hS.nonneg i (σ i) (Finset.mem_range.mp hi)
      (hσw i (Finset.mem_range.mp hi)))
  have hAinj : ∀ i ∈ Finset.range h, ∀ i2 ∈ Finset.range h,
      (rowStar st.stars w i).getD 0 = (rowStar st.stars w i2).getD 0 → i = i2 := by
    intro i hi i2 hi2 heq
    rw [Finset.mem_range] at hi hi2
    exact hS.colU i i2 _ (hA i hi) (heq ▸ hA i2 hi2)
  have hσinj2 : ∀ i ∈ Finset.range h, ∀ i2 ∈ Finset.range h,
      σ i = σ i2 → i = i2 := by
    intro i hi i2 hi2
    exact hσinj i i2 (Finset.mem_range.mp hi) (Finset.mem_range.mp hi2)
  have hvv : ∑ i in Finset.range h, v ((rowStar st.stars w i).getD 0) ≤
      ∑ i in Finset.range h, v (σ i) := by
    rw [← Finset.sum_image hAinj, ← Finset.sum_image hσinj2]
    have hTsub : (Finset.range h).image (fun i => (rowStar st.stars w i).getD 0) ⊆
        Finset.range w := by
      intro j hj
      obtain ⟨i, hi, rfl⟩ := Finset.mem_image.mp hj
      exact Finset.mem_range.mpr (hAw i (Finset.mem_range.mp hi))
    have hSsub : (Finset.range h).image σ ⊆ Finset.range w := by
      intro j hj
      obtain ⟨i, hi, rfl⟩ := Finset.mem_image.mp hj
      exact Finset.mem_range.mpr (hσw i (Finset.mem_range.mp hi))
    have hcardT :
        ((Finset.range h).image (fun i => (rowStar st.stars w i).getD 0)).card = h := by
      rw [Finset.card_image_of_injOn
        (fun i hi i2 hi2 heq => hAinj i (Finset.mem_coe.mp hi) i2 (Finset.mem_coe.mp hi2) heq),
        Finset.card_range]
    have hcardS : ((Finset.range h).image σ).card = h := by
      rw [Finset.card_image_of_injOn
        (fun i hi i2 hi2 heq => hσinj2 i (Finset.mem_coe.mp hi) i2 (Finset.mem_coe.mp hi2) heq),
        Finset.card_range]
    have hvT : ∀ j ∈ (Finset.range h).image (fun i => (rowStar st.stars w i).getD 0),
        v j ≤ D := fun j hj => (hvb j (Finset.mem_range.mp (hTsub hj))).2
    have hvS : ∀ j ∈ (Finset.range h).image σ,
        j ∉ (Finset.range h).image (fun i => (rowStar st.stars w i).getD 0) →
        v j = D := by
      intro j hj hnT
      apply hvD j (Finset.mem_range.mp (hSsub hj))
      intro a
      cases hsa : st.stars a j with
      | false => rfl
      | true =>
        exfalso
        apply hnT
        have haw : a < h := (hS.lt a j hsa).1
        obtain ⟨c, hc, hcs⟩ := rowStar_spec hsa (hS.lt a j hsa).2
        have hcj : c = j := hS.rowU a c j hcs hsa
        refine Finset.mem_image.mpr ⟨a, Finset.mem_range.mpr haw, ?_⟩
        rw [hc]
        exact hcj
    calc ∑ j in (Finset.range h).image (fun i => (rowStar st.stars w i).getD 0), v j
        = (∑ j in (Finset.range h).image (fun i => (rowStar st.stars w i).getD 0) ∩
            (Finset.range h).image σ, v j) +
          ∑ j in (Finset.range h).image (fun i => (rowStar st.stars w i).getD 0) \
            (Finset.range h).image σ, v j :=
          (Finset.sum_inter_add_sum_diff _ _ _).symm
      _ ≤ (∑ j in (Finset.range h).image (fun i => (rowStar st.stars w i).getD 0) ∩
            (Finset.range h).image σ, v j) +
          ((Finset.range h).image (fun i => (rowStar st.stars w i).getD 0) \
            (Finset.range h).image σ).card • D := by
          have := Finset.sum_le_card_nsmul
            ((Finset.range h).image (fun i => (rowStar st.stars w i).getD 0) \
              (Finset.range h).image σ) v D
            (fun j hj => hvT j (Finset.mem_sdiff.mp hj).1)
          linarith [this]
      _ = (∑ j in (Finset.range h).image (fun i => (rowStar st.stars w i).getD 0) ∩
            (Finset.range h).image σ, v j) +
          ((Finset.range h).image σ \
            (Finset.range h).image (fun i => (rowStar st.stars w i).getD 0)).card • D := by
          rw [Finset.card_sdiff_comm (hcardT.trans hcardS.symm)]
      _ = (∑ j in (Finset.range h).image (fun i => (rowStar st.stars w i).getD 0) ∩
            (Finset.range h).image σ, v j) +
          ∑ j in (Finset.range h).image σ \
            (Finset.range h).image (fun i => (rowStar st.stars w i).getD 0), v j := by
          rw [Finset.sum_congr rfl
            (fun j hj => hvS j (Finset.mem_sdiff.mp hj).1 (Finset.mem_sdiff.mp hj).2),
            Finset.sum_const]
      _ = (∑ j in (Finset.range h).image σ ∩
            (Finset.range h).image (fun i => (rowStar st.stars w i).getD 0), v j) +
          ∑ j in (Finset.range h).image σ \
            (Finset.range h).image (fun i => (rowStar st.stars w i).getD 0), v j := by
          rw [Finset.inter_comm]
      _ = ∑ j in (Finset.range h).image σ, v j :=
          Finset.sum_inter_add_sum_diff _ _ _
  linarith

/-! ## Reading the extracted assignment entry-wise -/

theorem readCost_nonneg {matrix : List Int} (hnn : ∀ x ∈ matrix, 0 ≤ x)
    (width i j : Nat) : 0 ≤ readCost matrix width i j := by
  unfold readCost
  rw [List.getD_eq_getElem?_getD]
  cases hg : matrix[width * i + j]? with
  | none => exact le_refl 0
  | some x => exact hnn x (List.getElem?_mem hg)

theorem workingMatrix_unrot {matrix : List Int} {height width i j : Nat}
    (hr : ¬ width < height) (hi : i < height) (hj : j < width) :
    workingMatrix matrix height width i j = clampNonneg (readCost matrix width i j) := by
  unfold workingMatrix
  rw [if_neg hr]
  show (if i < height ∧ j < width then clampNonneg (readCost matrix width i j)
    else 0) = _
  rw [if_pos ⟨hi, hj⟩]

theorem workingMatrix_rot {matrix : List Int} {height width r c : Nat}
    (hrot : width < height) (hr : r < width) (hc : c < height) :
    workingMatrix matrix height width r c =
      clampNonneg (readCost matrix width c (width - 1 - r)) := by
  unfold workingMatrix
  rw [if_pos hrot]
  show (if r < width ∧ c < height then
    clampNonneg (readCost matrix width c (width - 1 - r)) else 0) = _
  rw [if_pos ⟨hr, hc⟩]

theorem workingMatrix_nonneg (matrix : List Int) (height width i j : Nat) :
    0 ≤ workingMatrix matrix height width i j := by
  unfold workingMatrix
  split
  · show (0 : Int) ≤ if i < width ∧ j < height then
      clampNonneg (readCost matrix width j (width - 1 - i)) else 0
    split
    · exact clampNonneg_nonneg _
    · exact le_refl 0
  · show (0 : Int) ≤ if i < height ∧ j < width then
      clampNonneg (readCost matrix width i j) else 0
    split
    · exact clampNonneg_nonneg _
    · exact le_refl 0

/-- Working-matrix entries never exceed the sentinel when the input does. -/
theorem workingMatrix_bound {matrix : List Int}
    (hbd : ∀ x ∈ matrix, x ≤ SENTINEL) (height width i j : Nat) :
    workingMatrix matrix height width i j ≤ SENTINEL := by
  have hsent : (0 : Int) ≤ SENTINEL := by norm_num [SENTINEL]
  have hread : ∀ a b, clampNonneg (readCost matrix width a b) ≤ SENTINEL := by
    intro a b
    unfold clampNonneg readCost
    split
    · exact hsent
    · rw [List.getD_eq_getElem?_getD]
      cases hx : matrix[width * a + b]? with
      | none =>
        simp only [Option.getD_none]
        exact hsent
      | some x =>
        simp only [Option.getD_some]
        exact hbd x (List.getElem?_mem hx)
  unfold workingMatrix
  split
  · show (if i < width ∧ j < height then
        clampNonneg (readCost matrix width j (width - 1 - i)) else 0) ≤ SENTINEL
    split
    · exact hread _ _
    · exact hsent
  · show (if i < height ∧ j < width then
        clampNonneg (readCost matrix width i j) else 0) ≤ SENTINEL
    split
    · exact hread _ _
    · exact hsent

/-- On any in-contract input (enough entries, all below the sentinel),
`minimize` returns a result: the loop terminates within its fuel and never
panics. -/
theorem minimize_terminates {matrix : List Int} {height width : Nat}
    (hlen : height * width ≤ matrix.length)
    (hbd : ∀ x ∈ matrix, x ≤ SENTINEL) :
    ∃ r, minimize matrix height width = some r := by
  by_cases hz : height = 0 ∨ width = 0
  · refine ⟨[], ?_⟩
    unfold minimize
    rw [if_pos hz]
  · rw [minimize_eq_core hz (by omega)]
    by_cases hr : width < height
    · rw [if_pos hr]
      exact Option.isSome_iff_exists.mp (minimizeCore_isSome
        (fun i j _ _ => workingMatrix_nonneg matrix height width i j)
        (fun i j _ _ => workingMatrix_bound hbd height width i j)
        (le_of_lt hr))
    · rw [if_neg hr]
      exact Option.isSome_iff_exists.mp (minimizeCore_isSome
        (fun i j _ _ => workingMatrix_nonneg matrix height width i j)
        (fun i j _ _ => workingMatrix_bound hbd height width i j)
        (le_of_not_lt hr))

theorem countP_eq_card_filter (r : List (Option Nat)) (p : Option Nat → Bool) :
    r.countP p =
      ((Finset.range r.length).filter (fun c => p (r.getD c none) = true)).card := by
  induction r with
  | nil => simp
  | cons x t ih =>
    rw [List.countP_cons, List.length_cons]
    have hR : ((Finset.range (t.length + 1)).filter
        (fun c => p ((x :: t).getD c none) = true)).card =
        t.countP p + (if p x = true then 1 else 0) := by
      rw [Finset.card_filter, Finset.sum_range_succ']
      have h2 : ∀ c ∈ Finset.range t.length,
          (if p ((x :: t).getD (c + 1) none) = true then (1 : Nat) else 0) =
            (if p (t.getD c none) = true then 1 else 0) := by
        intro c _
        rw [List.getD_cons_succ]
      rw [Finset.sum_congr rfl h2, ← Finset.card_filter, ← ih, List.getD_cons_zero]
    rw [hR]

/-- The unrotated extraction is exactly the list of row stars. -/
theorem extract_unrot_eq {stars : Nat → Nat → Bool} {h w : Nat}
    {r : List (Option Nat)} (hex : extract stars h w false = some r) :
    r = (List.range h).map (fun i => rowStar stars w i) := by
  unfold extract at hex
  split at hex
  · split at hex
    · rename_i hrot
      cases hrot
    · cases hex
      rfl
  · cases hex

theorem enum_rowstar_mem {stars : Nat → Nat → Bool} {h w a v : Nat}
    (hall : ∀ i ∈ List.range h, (rowStar stars w i).isSome = true)
    (hav : (a, v) ∈ ((List.range h).map (fun i => (rowStar stars w i).getD 0)).enum) :
    a < h ∧ rowStar stars w a = some v := by
  have hgetl := List.mem_enum_iff_getElem?.mp hav
  rw [List.getElem?_map] at hgetl
  cases hra : (List.range h)[a]? with
  | none => rw [hra] at hgetl; cases hgetl
  | some a2 =>
    rw [hra] at hgetl
    have hah : a < h := by
      by_contra hcon
      rw [List.getElem?_eq_none (by simpa using hcon)] at hra
      cases hra
    rw [List.getElem?_range hah] at hra
    cases hra
    have hsome := hall a (List.mem_range.mpr hah)
    cases hrs : rowStar stars w a with
    | none => rw [hrs] at hsome; simp at hsome
    | some jv =>
      simp only [Option.map_some'] at hgetl
      rw [hrs] at hgetl
      simp only [Option.getD_some] at hgetl
      cases hgetl
      exact ⟨hah, rfl⟩

theorem enum_rowstar_mem_of {stars : Nat → Nat → Bool} {w h i : Nat} (hi : i < h) :
    (i, (rowStar stars w i).getD 0) ∈
      ((List.range h).map (fun i => (rowStar stars w i).getD 0)).enum := by
  apply List.mem_enum_iff_getElem?.mpr
  rw [List.getElem?_map, List.getElem?_range hi]
  rfl

/-- The rotated extraction, entry by entry: position `c` holds
`h - i - 1` for the starring row `i` of column `c`, if any. -/
theorem extract_rot_entry {stars : Nat → Nat → Bool} {h w : Nat}
    {r : List (Option Nat)}
    (hbound : ∀ i j, stars i j = true → i < h ∧ j < w)
    (hrowU : ∀ i j j2, stars i j = true → stars i j2 = true → j = j2)
    (hcolU : ∀ i i2 j, stars i j = true → stars i2 j = true → i = i2)
    (hex : extract stars h w true = some r) :
    ∀ c, r.getD c none =
      (match findBelow (fun i => stars i c) h with
       | some i => some (h - i - 1)
       | none => none) := by
  unfold extract at hex
  split at hex
  · rename_i hall
    split at hex
    · cases hex
      intro c
      have hdist : ∀ q1 q2 : Nat × Nat,
          q1 ∈ ((List.range h).map (fun i => (rowStar stars w i).getD 0)).enum →
          q2 ∈ ((List.range h).map (fun i => (rowStar stars w i).getD 0)).enum →
          q1.2 = q2.2 → q1 = q2 := by
        rintro ⟨a1, v1⟩ ⟨a2, v2⟩ h1 h2 hv
        obtain ⟨ha1, hs1⟩ := enum_rowstar_mem hall h1
        obtain ⟨ha2, hs2⟩ := enum_rowstar_mem hall h2
        have hveq : v1 = v2 := hv
        have hst1 : stars a1 v1 = true := (findBelow_eq_some hs1).2.1
        have hst2 : stars a2 v2 = true := (findBelow_eq_some hs2).2.1
        have haeq : a1 = a2 := hcolU a1 a2 v1 hst1 (hveq ▸ hst2)
        rw [haeq, hveq]
      have hltw : ∀ q1 ∈ ((List.range h).map (fun i => (rowStar stars w i).getD 0)).enum,
          (q1 : Nat × Nat).2 < (List.replicate w (none : Option Nat)).length := by
        rintro ⟨a1, v1⟩ h1
        obtain ⟨_, hs1⟩ := enum_rowstar_mem hall h1
        rw [List.length_replicate]
        exact (hbound a1 v1 (findBelow_eq_some hs1).2.1).2
      rw [foldl_set_getD _ _ _ c hdist hltw]
      cases hfb : findBelow (fun i => stars i c) h with
      | some i0 =>
        obtain ⟨hi0, hst, _⟩ := findBelow_eq_some hfb
        have hrsi0 : rowStar stars w i0 = some c := by
          cases hrs : rowStar stars w i0 with
          | none =>
            have := hall i0 (List.mem_range.mpr hi0)
            rw [hrs] at this
            simp at this
          | some jv =>
            have hjv : stars i0 jv = true := (findBelow_eq_some hrs).2.1
            rw [hrowU i0 jv c hjv hst]
        have hmem0 := @enum_rowstar_mem_of stars w h i0 hi0
        rw [hrsi0] at hmem0
        simp only [Option.getD_some] at hmem0
        cases hfind : ((List.range h).map
            (fun i => (rowStar stars w i).getD 0)).enum.find? (fun ij => ij.2 == c) with
        | none =>
          exfalso
          have := List.find?_eq_none.mp hfind (i0, c) hmem0
          simp at this
        | some q =>
          have hq2 : q.2 = c := by simpa using List.find?_some hfind
          have hqm := List.mem_of_find?_eq_some hfind
          have hqeq : q = (i0, c) := hdist q (i0, c) hqm hmem0 hq2
          rw [hqeq]
      | none =>
        have hfind : ((List.range h).map
            (fun i => (rowStar stars w i).getD 0)).enum.find? (fun ij => ij.2 == c) =
            none := by
          apply List.find?_eq_none.mpr
          rintro ⟨a, v⟩ hmem
          obtain ⟨hah, hrs⟩ := enum_rowstar_mem hall hmem
          have hsv : stars a v = true := (findBelow_eq_some hrs).2.1
          simp only [beq_iff_eq]
          intro hvc
          rw [hvc] at hsv
          exact absurd hsv (by simp [findBelow_eq_none hfb a hah])
        rw [hfind, getD_replicate_none]
    · rename_i hrot
      exact absurd rfl hrot
  · cases hex

/-- Validity and optimality of the returned assignment: the unrotated
orientation (`height ≤ width`). -/
theorem C1_unrot {matrix : List Int} {height width : Nat} {r : List (Option Nat)}
    (hnn : ∀ x ∈ matrix, 0 ≤ x) (hnr : ¬ width < height)
    (hr : minimizeCore (rowReduce (workingMatrix matrix height width) height width)
      height width false = some r) :
    ValidAssign height width r ∧
      ∀ a, ValidAssign height width a →
        assignCost matrix width r ≤ assignCost matrix width a := by
  obtain ⟨st, hI, hex, hA, hopt⟩ :=
    core_opt (fun i j _ _ => workingMatrix_nonneg matrix height width i j) hr
  obtain ⟨hS, _⟩ := hI
  have hreq := extract_unrot_eq hex
  have hrlen : r.length = height := by rw [hreq]; simp
  have hgetD : ∀ i, i < height → r.getD i none = rowStar st.stars width i := by
    intro i hi
    rw [hreq]
    exact getD_map_range _ height i hi
  have hAc : ∀ i, i < height → (rowStar st.stars width i).getD 0 < width :=
    fun i hi => (hS.lt _ _ (hA i hi)).2
  have hvalid : ValidAssign height width r := by
    refine ⟨hrlen, ?_, ?_, ?_⟩
    · intro p j hp hgp
      rw [hgetD p hp] at hgp
      exact (findBelow_eq_some hgp).1
    · intro p q j hp hq hgp hgq
      exact extract_inj hS.lt hS.colU hex p q j (by omega) (by omega) hgp hgq
    · have hall : ∀ x ∈ r, x.isSome = true := by
        intro x hx
        rw [hreq] at hx
        obtain ⟨i, hi, rfl⟩ := List.mem_map.mp hx
        obtain ⟨c, hc, _⟩ := rowStar_spec (hA i (List.mem_range.mp hi))
          (hAc i (List.mem_range.mp hi))
        rw [hc]
        rfl
      rw [List.countP_eq_length.mpr hall, hrlen]
      omega
  have hcostr : assignCost matrix width r =
      ∑ i in Finset.range height, workingMatrix matrix height width i
        ((rowStar st.stars width i).getD 0) := by
    rw [assignCost_eq_sum, hrlen]
    apply Finset.sum_congr rfl
    intro c hc
    have hch : c < height := Finset.mem_range.mp hc
    obtain ⟨c2, hc2, hc2s⟩ := rowStar_spec (hA c hch) (hAc c hch)
    rw [hgetD c hch, hc2]
    show readCost matrix width c c2 = workingMatrix matrix height width c c2
    rw [workingMatrix_unrot hnr hch (findBelow_eq_some hc2).1,
      clampNonneg_eq_self (readCost_nonneg hnn width c c2)]
  refine ⟨hvalid, ?_⟩
  intro a ha
  obtain ⟨halen, habound, hainj, hacount⟩ := ha
  have hasome : ∀ x ∈ a, x.isSome = true := by
    apply List.countP_eq_length.mp
    rw [hacount, halen]
    omega
  have haget : ∀ i, i < height → a.getD i none = some ((a.getD i none).getD 0) := by
    intro i hi
    rw [List.getD_eq_getElem?_getD]
    cases hg : a[i]? with
    | none =>
      rw [List.getElem?_eq_none_iff] at hg
      omega
    | some x =>
      obtain ⟨j, rfl⟩ := Option.isSome_iff_exists.mp (hasome x (List.getElem?_mem hg))
      rfl
  have hσw : ∀ i, i < height → (a.getD i none).getD 0 < width :=
    fun i hi => habound i _ hi (haget i hi)
  have hσinj : ∀ i i2, i < height → i2 < height →
      (a.getD i none).getD 0 = (a.getD i2 none).getD 0 → i = i2 := by
    intro i i2 hi hi2 heq
    apply hainj i i2 _ hi hi2 (haget i hi)
    rw [haget i2 hi2, ← heq]
  have hcosta : assignCost matrix width a =
      ∑ i in Finset.range height, workingMatrix matrix height width i
        ((a.getD i none).getD 0) := by
    rw [assignCost_eq_sum, halen]
    apply Finset.sum_congr rfl
    intro c hc
    have hch : c < height := Finset.mem_range.mp hc
    rw [haget c hch]
    show readCost matrix width c ((a.getD c none).getD 0) =
      workingMatrix matrix height width c ((a.getD c none).getD 0)
    rw [workingMatrix_unrot hnr hch (hσw c hch),
      clampNonneg_eq_self (readCost_nonneg hnn width c _)]
  rw [hcostr, hcosta]
  exact hopt (fun i => (a.getD i none).getD 0) hσw hσinj

/-- Validity and optimality of the returned assignment: the rotated
orientation (`width < height`, working dimensions `width × height`). -/
theorem C1_rot {matrix : List Int} {height width : Nat} {r : List (Option Nat)}
    (hnn : ∀ x ∈ matrix, 0 ≤ x) (hrot : width < height)
    (hr : minimizeCore (rowReduce (workingMatrix matrix height width) width height)
      width height true = some r) :
    ValidAssign height width r ∧
      ∀ a, ValidAssign height width a →
        assignCost matrix width r ≤ assignCost matrix width a := by
  obtain ⟨st, hI, hex, hA, hopt⟩ :=
    core_opt (fun i j _ _ => workingMatrix_nonneg matrix height width i j) hr
  obtain ⟨hS, _⟩ := hI
  have hrlen : r.length = height := by
    have := extract_length hex
    simpa using this
  have hAc : ∀ i, i < width → (rowStar st.stars height i).getD 0 < height :=
    fun i hi => (hS.lt _ _ (hA i hi)).2
  have hentry := extract_rot_entry hS.lt hS.rowU hS.colU hex
  have hfbA : ∀ i, i < width →
      findBelow (fun a => st.stars a ((rowStar st.stars height i).getD 0)) width =
        some i := by
    intro i hi
    cases hfb : findBelow
        (fun a => st.stars a ((rowStar st.stars height i).getD 0)) width with
    | none => exact absurd (hA i hi) (by simp [findBelow_eq_none hfb i hi])
    | some i0 =>
      have hst0 : st.stars i0 ((rowStar st.stars height i).getD 0) = true :=
        (findBelow_eq_some hfb).2.1
      rw [hS.colU i0 i _ hst0 (hA i hi)]
  have hbounds : ∀ p j, p < height → r.getD p none = some j → j < width := by
    intro p j hp hgp
    rw [hentry p] at hgp
    cases hfb : findBelow (fun i => st.stars i p) width with
    | none => rw [hfb] at hgp; cases hgp
    | some i0 =>
      rw [hfb] at hgp
      cases hgp
      have hi0 : i0 < width := (findBelow_eq_some hfb).1
      omega
  have hinj_part : ∀ p q j, p < height → q < height → r.getD p none = some j →
      r.getD q none = some j → p = q := by
    intro p q j hp hq hgp hgq
    exact extract_inj hS.lt hS.colU hex p q j (by omega) (by omega) hgp hgq
  have hcount : r.countP (fun x => x.isSome) = min height width := by
    rw [countP_eq_card_filter, hrlen]
    have hcongr : (Finset.range height).filter
        (fun c => (r.getD c none).isSome = true) =
        (Finset.range height).filter
          (fun c => (findBelow (fun i => st.stars i c) width).isSome = true) := by
      apply Finset.filter_congr
      intro c _
      rw [hentry c]
      cases hfb : findBelow (fun i => st.stars i c) width with
      | none => simp
      | some i0 => simp
    rw [hcongr, starCols_card hS.lt hS.rowU hS.colU hA]
    omega
  have hcostr : assignCost matrix width r =
      ∑ i in Finset.range width, workingMatrix matrix height width i
        ((rowStar st.stars height i).getD 0) := by
    rw [assignCost_eq_sum, hrlen]
    have hzero : ∀ c ∈ Finset.range height,
        (match r.getD c none with
         | some j => readCost matrix width c j
         | none => 0) ≠ 0 →
        (findBelow (fun i => st.stars i c) width).isSome = true := by
      intro c _ hne
      rw [hentry c] at hne
      cases hfb : findBelow (fun i => st.stars i c) width with
      | none => rw [hfb] at hne; simp at hne
      | some i0 => rfl
    rw [← Finset.sum_filter_of_ne hzero, starCols_eq_image hS.lt hS.rowU hA]
    have hAinj : ∀ x ∈ Finset.range width, ∀ y ∈ Finset.range width,
        (rowStar st.stars height x).getD 0 = (rowStar st.stars height y).getD 0 →
        x = y := by
      intro x hx y hy heq
      have heq2 : (rowStar st.stars height x).getD 0 =
        (rowStar st.stars height y).getD 0 := heq
      exact hS.colU x y _ (hA x (Finset.mem_range.mp hx))
        (heq2 ▸ hA y (Finset.mem_range.mp hy))
    rw [Finset.sum_image hAinj]
    apply Finset.sum_congr rfl
    intro i hi
    have hiw : i < width := Finset.mem_range.mp hi
    rw [hentry ((rowStar st.stars height i).getD 0), hfbA i hiw]
    show readCost matrix width ((rowStar st.stars height i).getD 0) (width - i - 1) =
      workingMatrix matrix height width i ((rowStar st.stars height i).getD 0)
    rw [workingMatrix_rot hrot hiw (hAc i hiw),
      clampNonneg_eq_self (readCost_nonneg hnn width _ _)]
    have hswap : width - 1 - i = width - i - 1 := by omega
    rw [hswap]
  refine ⟨⟨hrlen, hbounds, hinj_part, hcount⟩, ?_⟩
  intro a ha
  obtain ⟨halen, habound, hainj, hacount⟩ := ha
  have hacard : ((Finset.range height).filter
      (fun c => (a.getD c none).isSome = true)).card = width := by
    have hcp := countP_eq_card_filter a (fun x => x.isSome)
    rw [hacount, halen] at hcp
    omega
  have haget : ∀ i, i < height → (a.getD i none).isSome = true →
      a.getD i none = some ((a.getD i none).getD 0) := by
    intro i hi hsome
    obtain ⟨j, hj⟩ := Option.isSome_iff_exists.mp hsome
    rw [hj]
    rfl
  have hvinj : ∀ c ∈ (Finset.range height).filter
      (fun c => (a.getD c none).isSome = true),
      ∀ c2 ∈ (Finset.range height).filter
        (fun c => (a.getD c none).isSome = true),
      (a.getD c none).getD 0 = (a.getD c2 none).getD 0 → c = c2 := by
    intro c hc c2 hc2 heq
    simp only [Finset.mem_filter, Finset.mem_range] at hc hc2
    apply hainj c c2 _ hc.1 hc2.1 (haget c hc.1 hc.2)
    rw [haget c2 hc2.1 hc2.2, ← heq]
  have himgv : ((Finset.range height).filter
      (fun c => (a.getD c none).isSome = true)).image
        (fun c => (a.getD c none).getD 0) = Finset.range width := by
    apply Finset.eq_of_subset_of_card_le
    · intro j hj
      obtain ⟨c, hc, rfl⟩ := Finset.mem_image.mp hj
      simp only [Finset.mem_filter, Finset.mem_range] at hc
      exact Finset.mem_range.mpr (habound c _ hc.1 (haget c hc.1 hc.2))
    · rw [Finset.card_range, Finset.card_image_of_injOn
        (fun c hc c2 hc2 heq => hvinj c hc c2 hc2 heq), hacard]
  have hσget : ∀ i, i < width →
      (findBelow (fun c => a.getD c none == some (width - 1 - i)) height).getD 0 <
        height ∧
      a.getD ((findBelow (fun c => a.getD c none == some (width - 1 - i))
        height).getD 0) none = some (width - 1 - i) := by
    intro i hi
    have hval : width - 1 - i ∈ Finset.range width := Finset.mem_range.mpr (by omega)
    rw [← himgv] at hval
    obtain ⟨c, hcmem, hcv⟩ := Finset.mem_image.mp hval
    simp only [Finset.mem_filter, Finset.mem_range] at hcmem
    have hcv2 : (a.getD c none).getD 0 = width - 1 - i := hcv
    have hceq : a.getD c none = some (width - 1 - i) := by
      rw [haget c hcmem.1 hcmem.2, hcv2]
    have hsome : (findBelow (fun c => a.getD c none == some (width - 1 - i))
        height).isSome = true :=
      findBelow_isSome.mpr ⟨c, hcmem.1, by
        simp only [beq_iff_eq]
        exact hceq⟩
    cases hfb : findBelow (fun c => a.getD c none == some (width - 1 - i)) height with
    | none => rw [hfb] at hsome; simp at hsome
    | some c0 =>
      obtain ⟨hc0h, hpred, _⟩ := findBelow_eq_some hfb
      exact ⟨hc0h, eq_of_beq hpred⟩
  have hσinj : ∀ i i2, i < width → i2 < width →
      (findBelow (fun c => a.getD c none == some (width - 1 - i)) height).getD 0 =
      (findBelow (fun c => a.getD c none == some (width - 1 - i2)) height).getD 0 →
      i = i2 := by
    intro i i2 hi hi2 heq
    have h1 := (hσget i hi).2
    have h2 := (hσget i2 hi2).2
    rw [heq, h2] at h1
    have := Option.some.inj h1
    omega
  have hcosta : assignCost matrix width a =
      ∑ i in Finset.range width, workingMatrix matrix height width i
        ((findBelow (fun c => a.getD c none == some (width - 1 - i)) height).getD 0) := by
    rw [assignCost_eq_sum, halen]
    have hzero : ∀ c ∈ Finset.range height,
        (match a.getD c none with
         | some j => readCost matrix width c j
         | none => 0) ≠ 0 → (a.getD c none).isSome = true := by
      intro c _ hne
      cases hg : a.getD c none with
      | none => rw [hg] at hne; simp at hne
      | some j => rfl
    rw [← Finset.sum_filter_of_ne hzero]
    have himgσ : (Finset.range width).image
        (fun i => (findBelow (fun c => a.getD c none == some (width - 1 - i))
          height).getD 0) =
        (Finset.range height).filter (fun c => (a.getD c none).isSome = true) := by
      apply Finset.eq_of_subset_of_card_le
      · intro c hc
        obtain ⟨i, hi, rfl⟩ := Finset.mem_image.mp hc
        have hiw := Finset.mem_range.mp hi
        simp only [Finset.mem_filter, Finset.mem_range]
        refine ⟨(hσget i hiw).1, ?_⟩
        rw [(hσget i hiw).2]
        rfl
      · rw [hacard, Finset.card_image_of_injOn
          (fun i hi i2 hi2 heq => hσinj i i2 (Finset.mem_range.mp hi)
            (Finset.mem_range.mp hi2) heq), Finset.card_range]
    rw [← himgσ, Finset.sum_image
      (fun i hi i2 hi2 heq => hσinj i i2 (Finset.mem_range.mp hi)
        (Finset.mem_range.mp hi2) heq)]
    apply Finset.sum_congr rfl
    intro i hi
    have hiw := Finset.mem_range.mp hi
    rw [(hσget i hiw).2]
    show readCost matrix width
      ((findBelow (fun c => a.getD c none == some (width - 1 - i)) height).getD 0)
      (width - 1 - i) = workingMatrix matrix height width i
      ((findBelow (fun c => a.getD c none == some (width - 1 - i)) height).getD 0)
    rw [workingMatrix_rot hrot hiw (hσget i hiw).1,
      clampNonneg_eq_self (readCost_nonneg hnn width _ _)]
  rw [hcostr, hcosta]
  exact hopt
    (fun i => (findBelow (fun c => a.getD c none == some (width - 1 - i)) height).getD 0)
    (fun i hi => (hσget i hi).1) hσinj

/-! ## Claim theorems -/

/-- States along the trace keep the loop invariant. -/
theorem iterateN_inv {h w : Nat} {rot : Bool} {n : Nat} {s s2 : State}
    (hInv : Inv h w s) (hiter : iterateN h w rot n s = some s2) :
    Inv h w s2 := by
  induction n generalizing s with
  | zero =>
    cases hiter
    exact hInv
  | succ k ih =>
    rw [iterateN] at hiter
    cases hstep : stepOnce h w rot s with
    | cont s3 =>
      rw [hstep] at hiter
      exact ih (stepOnce_cont_inv hInv hstep) hiter
    | done r => rw [hstep] at hiter; cases hiter
    | panic => rw [hstep] at hiter; cases hiter

/-- The combined optimality statement over both orientations and the
degenerate dimensions: some valid assignment attains the returned cost,
and no valid assignment costs less. -/
theorem minimize_opt (matrix : List Int) (height width : Nat) (r : List (Option Nat))
    (hlen : matrix.length = height * width) (hnn : ∀ x ∈ matrix, 0 ≤ x)
    (hr : minimize matrix height width = some r) :
    (∃ a, ValidAssign height width a ∧
      assignCost matrix width a = assignCost matrix width r) ∧
    ∀ a, ValidAssign height width a →
      assignCost matrix width r ≤ assignCost matrix width a := by
  by_cases hz : height = 0 ∨ width = 0
  · have hre : r = [] := by
      unfold minimize at hr
      rw [if_pos hz] at hr
      cases hr
      rfl
    subst hre
    have hcost0 : assignCost matrix width ([] : List (Option Nat)) = 0 := rfl
    constructor
    · refine ⟨List.replicate height none, ⟨?_, ?_, ?_, ?_⟩, ?_⟩
      · simp
      · intro p j hp hgp
        rw [getD_replicate_none] at hgp
        cases hgp
      · intro p q j hp hq hgp
        rw [getD_replicate_none] at hgp
        cases hgp
      · have hz2 : (List.replicate height (none : Option Nat)).countP
            (fun x => x.isSome) = 0 := by
          rw [List.countP_eq_zero]
          intro x hx
          rw [List.eq_of_mem_replicate hx]
          simp
        rcases hz with hz0 | hz0 <;> rw [hz2, hz0] <;> simp
      · rw [hcost0]
        unfold assignCost
        apply List.sum_eq_zero
        intro x hx
        obtain ⟨p, hp, rfl⟩ := List.mem_map.mp hx
        rcases p with ⟨n, v⟩
        have hv : v = none := by
          have h1 := List.mem_enum_iff_getElem?.mp hp
          rw [List.getElem?_replicate] at h1
          split at h1
          · cases h1
            rfl
          · cases h1
        rw [hv]
    · intro a ha
      rw [hcost0]
      unfold assignCost
      apply List.sum_nonneg
      intro x hx
      obtain ⟨p, hp, rfl⟩ := List.mem_map.mp hx
      cases hp2 : p.2 with
      | none => simp
      | some j => exact readCost_nonneg hnn width p.1 j
  · have hns : ¬ (matrix.length < height * width) := by omega
    rw [minimize_eq_core hz hns] at hr
    by_cases hrot : width < height
    · rw [if_pos hrot] at hr
      obtain ⟨hval, hopt⟩ := C1_rot hnn hrot hr
      exact ⟨⟨r, hval, rfl⟩, hopt⟩
    · rw [if_neg hrot] at hr
      obtain ⟨hval, hopt⟩ := C1_unrot hnn hrot hr
      exact ⟨⟨r, hval, rfl⟩, hopt⟩

/-- Transposing a valid assignment: when `matrixT` reads as the transpose
of `matrix`, every valid assignment of `matrix` has a transposed valid
assignment of `matrixT` of equal total cost. -/
theorem transpose_cost {matrix matrixT : List Int} {height width : Nat}
    (hT : ∀ i j, i < height → j < width →
      readCost matrixT height j i = readCost matrix width i j)
    {a : List (Option Nat)} (ha : ValidAssign height width a) :
    ∃ a2, ValidAssign width height a2 ∧
      assignCost matrixT height a2 = assignCost matrix width a := by
  obtain ⟨halen, habound, hainj, hacount⟩ := ha
  have ha2get : ∀ j, j < width →
      ((List.range width).map
        (fun j => findBelow (fun i => a.getD i none == some j) height)).getD j none =
      findBelow (fun i => a.getD i none == some j) height :=
    fun j hj => getD_map_range _ width j hj
  have hfwd : ∀ i j, a.getD i none = some j → i < height →
      findBelow (fun i2 => a.getD i2 none == some j) height = some i := by
    intro i j hg hi
    cases hfb : findBelow (fun i2 => a.getD i2 none == some j) height with
    | none =>
      have hth := findBelow_eq_none hfb i hi
      rw [hg] at hth
      simp at hth
    | some i0 =>
      obtain ⟨hi0, hpred, _⟩ := findBelow_eq_some hfb
      have hg0 : a.getD i0 none = some j := eq_of_beq hpred
      rw [hainj i0 i j hi0 hi hg0 hg]
  have hbk : ∀ i j, findBelow (fun i2 => a.getD i2 none == some j) height = some i →
      a.getD i none = some j ∧ i < height := by
    intro i j hfb
    obtain ⟨hi, hpred, _⟩ := findBelow_eq_some hfb
    exact ⟨eq_of_beq hpred, hi⟩
  have haget : ∀ i, i < height → (a.getD i none).isSome = true →
      a.getD i none = some ((a.getD i none).getD 0) := by
    intro i hi hsome
    obtain ⟨j, hj⟩ := Option.isSome_iff_exists.mp hsome
    rw [hj]
    rfl
  have hvinj : ∀ c ∈ (Finset.range height).filter
      (fun c => (a.getD c none).isSome = true),
      ∀ c2 ∈ (Finset.range height).filter
        (fun c => (a.getD c none).isSome = true),
      (a.getD c none).getD 0 = (a.getD c2 none).getD 0 → c = c2 := by
    intro c hc c2 hc2 heq
    simp only [Finset.mem_filter, Finset.mem_range] at hc hc2
    apply hainj c c2 _ hc.1 hc2.1 (haget c hc.1 hc.2)
    rw [haget c2 hc2.1 hc2.2, ← heq]
  have himg : (Finset.range width).filter
      (fun j => (findBelow (fun i => a.getD i none == some j) height).isSome = true) =
      ((Finset.range height).filter
        (fun c => (a.getD c none).isSome = true)).image
        (fun c => (a.getD c none).getD 0) := by
    apply Finset.ext
    intro j
    simp only [Finset.mem_filter, Finset.mem_range, Finset.mem_image]
    constructor
    · rintro ⟨hjw, hsome⟩
      have hsome2 : (findBelow (fun i => a.getD i none == some j) height).isSome =
        true := hsome
      cases hfb : findBelow (fun i => a.getD i none == some j) height with
      | none => rw [hfb] at hsome2; simp at hsome2
      | some i0 =>
        obtain ⟨hg0, hi0⟩ := hbk i0 j hfb
        refine ⟨i0, ⟨hi0, by rw [hg0]; rfl⟩, by rw [hg0]; rfl⟩
    · rintro ⟨c, ⟨hch, hcs⟩, rfl⟩
      have hceq := haget c hch hcs
      refine ⟨habound c _ hch hceq, ?_⟩
      rw [hfwd c _ hceq hch]
      rfl
  have hacard : ((Finset.range height).filter
      (fun c => (a.getD c none).isSome = true)).card = min height width := by
    have hcp := countP_eq_card_filter a (fun x => x.isSome)
    rw [hacount, halen] at hcp
    omega
  refine ⟨(List.range width).map
    (fun j => findBelow (fun i => a.getD i none == some j) height), ⟨?_, ?_, ?_, ?_⟩, ?_⟩
  · simp
  · intro p i hp hgp
    rw [ha2get p hp] at hgp
    exact (hbk i p hgp).2
  · intro p q i hp hq hgp hgq
    rw [ha2get p hp] at hgp
    rw [ha2get q hq] at hgq
    have h1 := (hbk i p hgp).1
    have h2 := (hbk i q hgq).1
    rw [h1] at h2
    exact Option.some.inj h2
  · rw [countP_eq_card_filter]
    have hl2 : ((List.range width).map
        (fun j => findBelow (fun i => a.getD i none == some j) height)).length =
        width := by simp
    rw [hl2]
    have hcongr : (Finset.range width).filter
        (fun j => (((List.range width).map
          (fun j => findBelow (fun i => a.getD i none == some j) height)).getD j
            none).isSome = true) =
        (Finset.range width).filter
          (fun j => (findBelow (fun i => a.getD i none == some j) height).isSome =
            true) := by
      apply Finset.filter_congr
      intro j hj
      rw [ha2get j (Finset.mem_range.mp hj)]
    rw [hcongr, himg, Finset.card_image_of_injOn
      (fun c hc c2 hc2 heq => hvinj c hc c2 hc2 heq), hacard]
    omega
  · have hl2 : ((List.range width).map
        (fun j => findBelow (fun i => a.getD i none == some j) height)).length =
        width := by simp
    rw [assignCost_eq_sum, assignCost_eq_sum, hl2, halen]
    have hzeroL : ∀ j ∈ Finset.range width,
        (match ((List.range width).map
          (fun j => findBelow (fun i => a.getD i none == some j) height)).getD j
            none with
         | some i => readCost matrixT height j i
         | none => 0) ≠ 0 →
        (findBelow (fun i => a.getD i none == some j) height).isSome = true := by
      intro j hj hne
      rw [ha2get j (Finset.mem_range.mp hj)] at hne
      cases hfb : findBelow (fun i => a.getD i none == some j) height with
      | none => rw [hfb] at hne; simp at hne
      | some i0 => rfl
    have hzeroR : ∀ c ∈ Finset.range height,
        (match a.getD c none with
         | some j => readCost matrix width c j
         | none => 0) ≠ 0 → (a.getD c none).isSome = true := by
      intro c _ hne
      cases hg : a.getD c none with
      | none => rw [hg] at hne; simp at hne
      | some j => rfl
    rw [← Finset.sum_filter_of_ne hzeroL, ← Finset.sum_filter_of_ne hzeroR, himg,
      Finset.sum_image (fun c hc c2 hc2 heq => hvinj c hc c2 hc2 heq)]
    apply Finset.sum_congr rfl
    intro c hc
    simp only [Finset.mem_filter, Finset.mem_range] at hc
    have hceq := haget c hc.1 hc.2
    have hjw : (a.getD c none).getD 0 < width := habound c _ hc.1 hceq
    rw [ha2get _ hjw, hfwd c _ hceq hc.1, hceq]
    show readCost matrixT height ((a.getD c none).getD 0) c =
      readCost matrix width c ((a.getD c none).getD 0)
    exact hT c _ hc.1 hjw

/-- C1: for a cost matrix of the declared `height × width` shape whose
entries are all non-negative and small enough that the fixed-width
arithmetic cannot overflow (every entry times `FUEL (min height width) + 2`
at most `N::max_value()` — on that domain `run_in_range` shows the whole
run, intermediates included, stays inside `[0, SENTINEL]`, so the exact
embedding computes the program's numbers), the total cost of the
assignment returned by `minimize` equals the minimum total cost over all
valid partial injective assignments of size `min height width`: some valid
assignment attains the returned cost, and no valid assignment costs
less. -/
theorem C1_theorem (matrix : List Int) (height width : Nat) (r : List (Option Nat))
    (hlen : matrix.length = height * width) (hnn : ∀ x ∈ matrix, 0 ≤ x)
    (hbd : ∀ x ∈ matrix,
      x * ((FUEL (min height width) : Int) + 2) ≤ SENTINEL)
    (hr : minimize matrix height width = some r) :
    (∃ a, ValidAssign height width a ∧
      assignCost matrix width a = assignCost matrix width r) ∧
    ∀ a, ValidAssign height width a →
      assignCost matrix width r ≤ assignCost matrix width a :=
  minimize_opt matrix height width r hlen hnn hr

/-- Witness for C1: the `2 × 2` instance `[[0,1],[1,0]]`, whose returned
assignment `[some 0, some 1]` has minimal cost `0`. -/
theorem C1_witness :
    (∃ a, ValidAssign 2 2 a ∧
      assignCost [0, 1, 1, 0] 2 a = assignCost [0, 1, 1, 0] 2 [some 0, some 1]) ∧
    ∀ a, ValidAssign 2 2 a →
      assignCost [0, 1, 1, 0] 2 [some 0, some 1] ≤ assignCost [0, 1, 1, 0] 2 a :=
  C1_theorem [0, 1, 1, 0] 2 2 [some 0, some 1] (by decide) (by decide) (by decide)
    (by decide)

/-- C2: every returned assignment is a partial injective map from rows to
columns — no column index occurs in two `Some` entries of the result. -/
theorem C2_theorem (matrix : List Int) (height width : Nat)
    (r : List (Option Nat)) (hr : minimize matrix height width = some r) :
    ∀ p q x, p < r.length → q < r.length → r.getD p none = some x →
      r.getD q none = some x → p = q := by
  by_cases h0 : height = 0 ∨ width = 0
  · unfold minimize at hr
    rw [if_pos h0] at hr
    cases hr
    intro p q x hp hq _ _
    simp at hp
  · by_cases hshort : matrix.length < height * width
    · rw [minimize_short (by omega) (by omega) hshort] at hr; cases hr
    · rw [minimize_eq_core h0 hshort] at hr
      by_cases hrot : width < height
      · rw [if_pos hrot] at hr
        unfold minimizeCore at hr
        have hInv0 : Inv width height
            (initState (rowReduce (workingMatrix matrix height width) width height)
              width height) :=
          initState_inv (rowReduce_nonneg _ width height)
        obtain ⟨st, hInv, hex⟩ := loopRun_inv hInv0 hr
        exact extract_inj hInv.1.lt hInv.1.colU hex
      · rw [if_neg hrot] at hr
        unfold minimizeCore at hr
        have hInv0 : Inv height width
            (initState (rowReduce (workingMatrix matrix height width) height width)
              height width) :=
          initState_inv (rowReduce_nonneg _ height width)
        obtain ⟨st, hInv, hex⟩ := loopRun_inv hInv0 hr
        exact extract_inj hInv.1.lt hInv.1.colU hex

/-- Witness for C2: the `2 × 2` instance `[[0,0],[0,1]]`, whose result is
`[Some 1, Some 0]`; both positions holding column `1` coincide. -/
theorem C2_witness :
    minimize [(0 : Int), 0, 0, 1] 2 2 = some [some 1, some 0] ∧ (0 : Nat) = 0 :=
  ⟨by decide,
   C2_theorem [(0 : Int), 0, 0, 1] 2 2 [some 1, some 0] (by decide) 0 0 1
     (by decide) (by decide) (by decide) (by decide)⟩

/-- C3: on every in-contract input (enough entries, every cost small
enough that the fixed-width arithmetic cannot overflow: entry times
`FUEL (min height width) + 2` at most `N::max_value()`, the domain on
which `run_in_range` keeps the whole run inside `[0, SENTINEL]`),
`minimize` terminates with a result; every augmentation step of the main
loop (a continuing iteration that returns to verification mode) increases
the star count by exactly one; and any run from the initial state performs
at most `min height width` augmentations. -/
theorem C3_theorem (matrix : List Int) (height width : Nat)
    (hlen : height * width ≤ matrix.length)
    (hbd : ∀ x ∈ matrix,
      x * ((FUEL (min height width) : Int) + 2) ≤ SENTINEL) :
    (∃ r, minimize matrix height width = some r) ∧
    (∀ h w rot s s2, Inv h w s → stepOnce h w rot s = StepRes.cont s2 →
      s2.verify = true →
      starCount s2.stars h w = starCount s.stars h w + 1) ∧
    (∀ n, (if width < height then
        augCount width height true n
          (initState (rowReduce (workingMatrix matrix height width) width height)
            width height)
      else
        augCount height width false n
          (initState (rowReduce (workingMatrix matrix height width) height width)
            height width)) ≤ min height width) := by
  have hbdS : ∀ x ∈ matrix, x ≤ SENTINEL := by
    intro x hx
    have h1 := hbd x hx
    rcases le_or_lt 0 x with hx0 | hx0
    · have h2 : x ≤ x * ((FUEL (min height width) : Int) + 2) :=
        le_mul_of_one_le_right hx0 (by omega)
      linarith
    · have := SENTINEL_pos
      linarith
  refine ⟨minimize_terminates hlen hbdS, ?_, ?_⟩
  · intro h w rot s s2 hInv hstep hv
    exact (stepOnce_star hInv hstep).1 hv
  · intro n
    by_cases hr : width < height
    · rw [if_pos hr]
      have hb := @augCount_star_le width height true n
        (initState (rowReduce (workingMatrix matrix height width) width height)
          width height)
        (initState_inv (rowReduce_nonneg (workingMatrix matrix height width)
          width height))
      have hmin : min height width = width := by omega
      omega
    · rw [if_neg hr]
      have hb := @augCount_star_le height width false n
        (initState (rowReduce (workingMatrix matrix height width) height width)
          height width)
        (initState_inv (rowReduce_nonneg (workingMatrix matrix height width)
          height width))
      have hmin : min height width = height := by omega
      omega

/-- Witness for C3: the `2 × 2` instance `[[0,1],[1,0]]` terminates, with
the augmentation-count bound `min 2 2`. -/
theorem C3_witness :
    (∃ r, minimize [0, 1, 1, 0] 2 2 = some r) ∧
    (∀ h w rot s s2, Inv h w s → stepOnce h w rot s = StepRes.cont s2 →
      s2.verify = true →
      starCount s2.stars h w = starCount s.stars h w + 1) ∧
    (∀ n, (if (2 : Nat) < 2 then
        augCount 2 2 true n
          (initState (rowReduce (workingMatrix [0, 1, 1, 0] 2 2) 2 2) 2 2)
      else
        augCount 2 2 false n
          (initState (rowReduce (workingMatrix [0, 1, 1, 0] 2 2) 2 2) 2 2))
      ≤ min 2 2) :=
  C3_theorem [0, 1, 1, 0] 2 2 (by decide) (by decide)

/-- C4, counterexample: the input `[-1]` contains a negative entry, yet
`minimize` does not fail with a validation error — it runs the algorithm
and returns the assignment `[Some(0)]`. -/
theorem C4_counterexample :
    minimize [(-1 : Int)] 1 1 = some [some 0] ∧ minimize [(-1 : Int)] 1 1 ≠ none := by
  constructor
  · decide
  · decide

/-- C4 (amended): for every input containing a negative cost entry,
`minimize` does not reject the input; the negative entries are silently
clamped to zero, i.e. the result is exactly the result for the input with
every negative entry replaced by `0`. -/
theorem C4_theorem (matrix : List Int) (height width : Nat)
    (_hneg : ∃ x ∈ matrix, x < 0) :
    minimize matrix height width = minimize (matrix.map clampNonneg) height width :=
  minimize_map_clamp matrix height width

/-- Witness for C4: instantiation at the input `[-1]`. -/
theorem C4_witness :
    (∃ x ∈ [(-1 : Int)], x < 0) ∧
      minimize [(-1 : Int)] 1 1 = minimize ([(-1 : Int)].map clampNonneg) 1 1 :=
  ⟨by decide, C4_theorem [(-1 : Int)] 1 1 (by decide)⟩

/-- C5, counterexample: for `height = 1`, `width = 2` and a cost slice of
length `3 ≠ 1 * 2`, `minimize` does not fail with a validation error — it
ignores the extra entry and returns the assignment `[Some(0)]`. -/
theorem C5_counterexample :
    [(0 : Int), 0, 0].length ≠ 1 * 2 ∧ minimize [(0 : Int), 0, 0] 1 2 = some [some 0] := by
  constructor
  · decide
  · decide

/-- C5 (amended): `minimize` performs no dimension validation.  If the
slice is longer than `height * width`, the extra entries are ignored (the
result is that of the truncated slice); if it is shorter (with
`height, width > 0`), the function panics with an out-of-bounds index
while copying the input, producing no result. -/
theorem C5_theorem (matrix : List Int) (height width : Nat) :
    (height * width ≤ matrix.length →
      minimize matrix height width = minimize (matrix.take (height * width)) height width) ∧
    (0 < height → 0 < width → matrix.length < height * width →
      minimize matrix height width = none) :=
  ⟨fun hlen => minimize_take hlen, fun hh hw hlen => minimize_short hh hw hlen⟩

/-- Witness for C5: a long slice (`length 3 > 1 * 2`) is truncated; a short
slice (`length 1 < 1 * 2`) panics. -/
theorem C5_witness :
    (minimize [(0 : Int), 0, 0] 1 2 = minimize ([(0 : Int), 0, 0].take (1 * 2)) 1 2) ∧
      minimize [(0 : Int)] 1 2 = none :=
  ⟨(C5_theorem [(0 : Int), 0, 0] 1 2).1 (by decide),
   (C5_theorem [(0 : Int)] 1 2).2 (by decide) (by decide) (by decide)⟩

/-- C6: zero-sized input yields the empty result; otherwise every returned
sequence has length `height`, its `Some` entries are column indices below
`width`, and a `None` entry can occur only when `width < height`. -/
theorem C6_theorem (matrix : List Int) (height width : Nat) :
    ((height = 0 ∨ width = 0) → minimize matrix height width = some []) ∧
    (∀ r, minimize matrix height width = some r → height ≠ 0 → width ≠ 0 →
      r.length = height ∧
      (height ≤ width → ∀ x ∈ r, x.isSome = true) ∧
      (∀ x ∈ r, ∀ j, x = some j → j < width)) := by
  constructor
  · intro h0; unfold minimize; rw [if_pos h0]
  · intro r hr hh hw
    by_cases hshort : matrix.length < height * width
    · rw [minimize_short (by omega) (by omega) hshort] at hr; cases hr
    · rw [minimize_eq_core (by omega) hshort] at hr
      by_cases hrot : width < height
      · rw [if_pos hrot] at hr
        unfold minimizeCore at hr
        obtain ⟨st, hex⟩ := loopRun_some hr
        have hlen := extract_length hex
        refine ⟨by simpa using hlen, fun hle => absurd hle (by omega), ?_⟩
        intro x hx j hj
        have h2 := extract_entry_lt hex (by omega) x hx j hj
        simpa using h2
      · rw [if_neg hrot] at hr
        unfold minimizeCore at hr
        obtain ⟨st, hex⟩ := loopRun_some hr
        have hlen := extract_length hex
        refine ⟨by simpa using hlen, fun _ => extract_isSome_unrotated hex, ?_⟩
        intro x hx j hj
        have h2 := extract_entry_lt hex (by omega) x hx j hj
        simpa using h2

/-- Witness for C6: the zero-sized case `0 × 5`, and the `1 × 2` instance
`[1, 2]` whose result is `[Some 0]`. -/
theorem C6_witness :
    minimize ([] : List Int) 0 5 = some [] ∧
    ([some 0] : List (Option Nat)).length = 1 ∧
    (1 ≤ 2 → ∀ x ∈ [some (0 : Nat)], x.isSome = true) ∧
    (∀ x ∈ [some (0 : Nat)], ∀ j, x = some j → j < 2) :=
  ⟨(C6_theorem [] 0 5).1 (Or.inl rfl),
   (C6_theorem [1, 2] 1 2).2 [some 0] (by decide) (by decide) (by decide)⟩

/-- C7, counterexample: for the `2 × 3` matrix `[[0,0,5],[0,5,0]]` and its
`3 × 2` transpose `[[0,0],[0,5],[5,0]]` (the transpose relation between
the two slices is checked explicitly), the two returned assignments are
not transposes of each other: the direct run matches row `0` to column
`0`, but the transposed run does not match its row `0` to column `0`. -/
theorem C7_counterexample :
    minimize [0, 0, 5, 0, 5, 0] 2 3 = some [some 0, some 2] ∧
    minimize [0, 0, 0, 5, 5, 0] 3 2 = some [some 1, some 0, none] ∧
    (∀ i, i < 2 → ∀ j, j < 3 →
      readCost [0, 0, 0, 5, 5, 0] 2 j i = readCost [0, 0, 5, 0, 5, 0] 3 i j) ∧
    ¬ ((List.getD [some 0, some 2] 0 none = some 0) ↔
       (List.getD [some 1, some 0, none] 0 none = some 0)) := by
  decide

/-- C7, amended: of the claimed conjunction, the equal-total-cost half
holds on the overflow-free domain: when `matrixT` reads as the transpose
of `matrix`, both slices have their declared shapes, the entries are
non-negative, and both matrices satisfy the overflow-exclusion bound
(entry times `FUEL (min height width) + 2` at most `N::max_value()`;
`run_in_range` keeps both runs inside `[0, SENTINEL]` there, so the
exact embedding computes the program's numbers), then the two returned
assignments have equal total cost (each is a cost minimum of the same
value by the dual certificate, transported across the transpose). -/
theorem C7_theorem (matrix matrixT : List Int) (height width : Nat)
    (r rT : List (Option Nat))
    (hlen : matrix.length = height * width)
    (hTlen : matrixT.length = width * height)
    (hnn : ∀ x ∈ matrix, 0 ≤ x)
    (hbd : ∀ x ∈ matrix,
      x * ((FUEL (min height width) : Int) + 2) ≤ SENTINEL)
    (hbdT : ∀ x ∈ matrixT,
      x * ((FUEL (min height width) : Int) + 2) ≤ SENTINEL)
    (hT : ∀ i, i < height → ∀ j, j < width →
      readCost matrixT height j i = readCost matrix width i j)
    (hr : minimize matrix height width = some r)
    (hrT : minimize matrixT width height = some rT) :
    assignCost matrix width r = assignCost matrixT height rT := by
  have hTnn : ∀ x ∈ matrixT, 0 ≤ x := by
    intro x hx
    obtain ⟨k, hk, rfl⟩ := List.mem_iff_getElem.mp hx
    by_cases hh : height = 0
    · rw [hTlen, hh] at hk
      omega
    · have hh0 : 0 < height := Nat.pos_of_ne_zero hh
      have h1 : matrixT[k] = readCost matrixT height (k / height) (k % height) := by
        unfold readCost
        have hdm : height * (k / height) + k % height = k := Nat.div_add_mod k height
        rw [hdm, List.getD_eq_getElem?_getD, List.getElem?_eq_getElem hk]
        rfl
      have hkb : k < width * height := by rw [hTlen] at hk; exact hk
      rw [h1, hT (k % height) (Nat.mod_lt _ hh0) (k / height)
        ((Nat.div_lt_iff_lt_mul hh0).mpr (by omega))]
      exact readCost_nonneg hnn width _ _
  obtain ⟨⟨a1, ha1v, ha1c⟩, hopt1⟩ := minimize_opt matrix height width r hlen hnn hr
  obtain ⟨⟨a2, ha2v, ha2c⟩, hopt2⟩ :=
    minimize_opt matrixT width height rT hTlen hTnn hrT
  obtain ⟨b1, hb1v, hb1c⟩ := transpose_cost (fun i j hi hj => hT i hi j hj) ha1v
  obtain ⟨b2, hb2v, hb2c⟩ :=
    transpose_cost (fun i j hi hj => (hT j hj i hi).symm) ha2v
  have h1 : assignCost matrixT height rT ≤ assignCost matrix width r := by
    calc assignCost matrixT height rT ≤ assignCost matrixT height b1 := hopt2 b1 hb1v
      _ = assignCost matrix width a1 := hb1c
      _ = assignCost matrix width r := ha1c
  have h2 : assignCost matrix width r ≤ assignCost matrixT height rT := by
    calc assignCost matrix width r ≤ assignCost matrix width b2 := hopt1 b2 hb2v
      _ = assignCost matrixT height a2 := hb2c
      _ = assignCost matrixT height rT := ha2c
  exact le_antisymm h2 h1

/-- Witness for C7: the `2 × 2` matrix `[[0,1],[2,3]]` and its transpose
`[[0,2],[1,3]]`, both of whose returned assignments `[Some 1, Some 0]`
cost `3`. -/
theorem C7_witness :
    assignCost [0, 1, 2, 3] 2 [some 1, some 0] =
      assignCost [0, 2, 1, 3] 2 [some 1, some 0] :=
  C7_theorem [0, 1, 2, 3] [0, 2, 1, 3] 2 2 [some 1, some 0] [some 1, some 0]
    (by decide) (by decide) (by decide) (by decide) (by decide) (by decide)
    (by decide) (by decide)

/-- C8, counterexample: subtracting the constant `1` from column `0` of
the all-ones `2 × 2` matrix (all entries remain non-negative) changes the
returned assignment from `[Some(0), Some(1)]` to `[Some(1), Some(0)]`;
likewise, subtracting `1` from row `1` of the `2 × 1` matrix `[1, 1]`
changes the returned assignment from `[Some(0), None]` to
`[None, Some(0)]`. -/
theorem C8_counterexample :
    minimize [(1 : Int), 1, 1, 1] 2 2 = some [some 0, some 1] ∧
    minimize [(0 : Int), 1, 0, 1] 2 2 = some [some 1, some 0] ∧
    minimize [(1 : Int), 1] 2 1 = some [some 0, none] ∧
    minimize [(1 : Int), 0] 2 1 = some [none, some 0] := by
  refine ⟨by decide, by decide, by decide, by decide⟩

/-- C8 (amended): subtracting a constant from a single *row* of an input
with `height ≤ width`, or from a single *column* of an input with
`width < height` (the shifted line becomes a working row in both cases),
keeping all entries non-negative, does not change the returned
assignment.  Shifting the other kind of line may change which
optimal assignment is returned (see the counterexample). -/
theorem C8_theorem :
    (∀ (matrix matrix2 : List Int) (height width i0 : Nat) (c : Int),
      height ≤ width → i0 < height →
      matrix2.length = matrix.length →
      (∀ k, k < matrix.length →
        matrix2.getD k 0 = matrix.getD k 0 - (if k / width = i0 then c else 0)) →
      (∀ k, k < matrix.length → 0 ≤ matrix.getD k 0) →
      (∀ k, k < matrix2.length → 0 ≤ matrix2.getD k 0) →
      minimize matrix2 height width = minimize matrix height width) ∧
    (∀ (matrix matrix2 : List Int) (height width j0 : Nat) (c : Int),
      width < height → j0 < width →
      matrix2.length = matrix.length →
      (∀ k, k < matrix.length →
        matrix2.getD k 0 = matrix.getD k 0 - (if k % width = j0 then c else 0)) →
      (∀ k, k < matrix.length → 0 ≤ matrix.getD k 0) →
      (∀ k, k < matrix2.length → 0 ≤ matrix2.getD k 0) →
      minimize matrix2 height width = minimize matrix height width) :=
  ⟨fun _ _ _ _ _ _ h1 h2 h3 h4 h5 h6 => minimize_rowShift h1 h2 h3 h4 h5 h6,
   fun _ _ _ _ _ _ h1 h2 h3 h4 h5 h6 => minimize_colShift h1 h2 h3 h4 h5 h6⟩

/-- Witness for C8: subtracting `1` from row `0` of `[[1,2],[3,4]]`, and
subtracting `1` from column `0` of the `2 × 1` matrix `[1, 2]`. -/
theorem C8_witness :
    (minimize [(0 : Int), 1, 3, 4] 2 2 = minimize [(1 : Int), 2, 3, 4] 2 2) ∧
      minimize [(0 : Int), 1] 2 1 = minimize [(1 : Int), 2] 2 1 :=
  ⟨C8_theorem.1 [1, 2, 3, 4] [0, 1, 3, 4] 2 2 0 1 (by decide) (by decide) (by decide)
      (by decide) (by decide) (by decide),
   C8_theorem.2 [1, 2] [0, 1] 2 1 0 1 (by decide) (by decide) (by decide)
      (by decide) (by decide) (by decide)⟩

/-- C9: along any run on a working matrix that is non-negative and
satisfies the overflow-exclusion bound (entries at most `M`, with
`M * (FUEL h + 2)` at most `N::max_value()`, and at least as many columns
as rows, as `minimize` arranges), every entry of the reduced matrix lies
in `[0, SENTINEL]` at the start of every outer iteration; and whenever
the dual-adjustment step actually runs (the scan found no uncovered zero
and the termination test failed), its minimum is strictly positive and at
most `M`, and adding it to every covered row then subtracting it from
every uncovered column keeps every entry — including the add-pass
intermediate `entry + min`, the largest number the fixed-width program
holds — inside `[0, SENTINEL]`. -/
theorem C9_theorem (m1 : Nat → Nat → Int) (M : Int) (h w n : Nat) (rot : Bool)
    (s : State) (hw : h ≤ w) (hM : 0 ≤ M)
    (hm1 : ∀ i, i < h → ∀ j, j < w → 0 ≤ m1 i j ∧ m1 i j ≤ M)
    (hMS : M * ((FUEL h : Int) + 2) ≤ SENTINEL)
    (hiter : iterateN h w rot n (initState m1 h w) = some s) :
    (∀ i j, i < h → j < w → 0 ≤ s.m i j ∧ s.m i j ≤ SENTINEL) ∧
    (findUZ (step3State h s) h w = none →
      ¬(s.verify = true ∧ coverCount (step3State h s).colCover w = h) →
      0 < uncoveredMin (step3State h s) h w ∧
      uncoveredMin (step3State h s) h w ≤ M ∧
      ∀ i j, i < h → j < w →
        (0 ≤ dualAdjust (step3State h s).m (step3State h s).rowCover
            (step3State h s).colCover (uncoveredMin (step3State h s) h w) i j ∧
          dualAdjust (step3State h s).m (step3State h s).rowCover
            (step3State h s).colCover (uncoveredMin (step3State h s) h w) i j
            ≤ SENTINEL) ∧
        (step3State h s).m i j + uncoveredMin (step3State h s) h w
          ≤ SENTINEL) := by
  have hm1b : ∀ i j, i < h → j < w → 0 ≤ m1 i j ∧ m1 i j ≤ M :=
    fun i j hi hj => hm1 i hi j hj
  have hrun := run_in_range hm1b hM hMS hw n s hiter
  have hInv := iterateN_inv
    (initState_inv (fun i j hi hj => (hm1 i hi j hj).1)) hiter
  have hS1 : StarInv h w (step3State h s) :=
    ⟨hInv.1.lt, hInv.1.rowU, hInv.1.colU, hInv.1.zero, hInv.1.nonneg⟩
  refine ⟨hrun.1, ?_⟩
  intro hfz hnt
  obtain ⟨hd0, hdM, hint⟩ := hrun.2 hnt
  have hpos : (1 : Int) ≤ uncoveredMin (step3State h s) h w := by
    apply uncoveredMin_lb
    · norm_num [SENTINEL]
    · intro i j hi hj hri hcj
      have hne := findUZ_none hfz i j hi hj hri hcj
      have := hS1.nonneg i j hi hj
      omega
  refine ⟨by omega, hdM, ?_⟩
  intro i j hi hj
  have hnn := hS1.nonneg i j hi hj
  have hmS : (step3State h s).m i j ≤ SENTINEL := (hrun.1 i j hi hj).2
  have hmd : (step3State h s).m i j + uncoveredMin (step3State h s) h w
      ≤ SENTINEL := hint i j hi hj
  have hA : 0 ≤ dualAdjust (step3State h s).m (step3State h s).rowCover
      (step3State h s).colCover (uncoveredMin (step3State h s) h w) i j := by
    unfold dualAdjust
    cases hri : (step3State h s).rowCover i with
    | true =>
      cases hcj : (step3State h s).colCover j with
      | true => simp; omega
      | false => simp; omega
    | false =>
      cases hcj : (step3State h s).colCover j with
      | true => simp; omega
      | false =>
        have hle := uncoveredMin_le hi hj hri hcj
        simp
        omega
  have hB2 : dualAdjust (step3State h s).m (step3State h s).rowCover
      (step3State h s).colCover (uncoveredMin (step3State h s) h w) i j
      ≤ SENTINEL := by
    unfold dualAdjust
    cases hri : (step3State h s).rowCover i with
    | true =>
      cases hcj : (step3State h s).colCover j with
      | true => simp; omega
      | false => simp; omega
    | false =>
      cases hcj : (step3State h s).colCover j with
      | true => simp; omega
      | false => simp; omega
  exact ⟨⟨hA, hB2⟩, hmd⟩

/-- Witness for C9: the `2 × 2` working matrix `[[0,1],[0,2]]` (the row
reduction of `[[0,1],[1,3]]`), bounded by `M = 2` with
`2 * (FUEL 2 + 2) = 52` far below the sentinel; at the start of the first
iteration the entries and the pending dual adjustment all stay in
range. -/
theorem C9_witness :
    (∀ i j, i < 2 → j < 2 →
      0 ≤ (initState (rowReduce (workingMatrix [(0 : Int), 1, 1, 3] 2 2) 2 2) 2 2).m i j ∧ (initState (rowReduce (workingMatrix [(0 : Int), 1, 1, 3] 2 2) 2 2) 2 2).m i j ≤ SENTINEL) ∧
    (findUZ (step3State 2 (initState (rowReduce (workingMatrix [(0 : Int), 1, 1, 3] 2 2) 2 2) 2 2)) 2 2 = none →
      ¬((initState (rowReduce (workingMatrix [(0 : Int), 1, 1, 3] 2 2) 2 2) 2 2).verify = true ∧ coverCount (step3State 2 (initState (rowReduce (workingMatrix [(0 : Int), 1, 1, 3] 2 2) 2 2) 2 2)).colCover 2 = 2) →
      0 < (uncoveredMin (step3State 2 (initState (rowReduce (workingMatrix [(0 : Int), 1, 1, 3] 2 2) 2 2) 2 2)) 2 2) ∧ (uncoveredMin (step3State 2 (initState (rowReduce (workingMatrix [(0 : Int), 1, 1, 3] 2 2) 2 2) 2 2)) 2 2) ≤ 2 ∧
      ∀ i j, i < 2 → j < 2 →
        (0 ≤ dualAdjust (step3State 2 (initState (rowReduce (workingMatrix [(0 : Int), 1, 1, 3] 2 2) 2 2) 2 2)).m (step3State 2 (initState (rowReduce (workingMatrix [(0 : Int), 1, 1, 3] 2 2) 2 2) 2 2)).rowCover (step3State 2 (initState (rowReduce (workingMatrix [(0 : Int), 1, 1, 3] 2 2) 2 2) 2 2)).colCover (uncoveredMin (step3State 2 (initState (rowReduce (workingMatrix [(0 : Int), 1, 1, 3] 2 2) 2 2) 2 2)) 2 2) i j ∧
          dualAdjust (step3State 2 (initState (rowReduce (workingMatrix [(0 : Int), 1, 1, 3] 2 2) 2 2) 2 2)).m (step3State 2 (initState (rowReduce (workingMatrix [(0 : Int), 1, 1, 3] 2 2) 2 2) 2 2)).rowCover (step3State 2 (initState (rowReduce (workingMatrix [(0 : Int), 1, 1, 3] 2 2) 2 2) 2 2)).colCover (uncoveredMin (step3State 2 (initState (rowReduce (workingMatrix [(0 : Int), 1, 1, 3] 2 2) 2 2) 2 2)) 2 2) i j ≤ SENTINEL) ∧
        (step3State 2 (initState (rowReduce (workingMatrix [(0 : Int), 1, 1, 3] 2 2) 2 2) 2 2)).m i j + (uncoveredMin (step3State 2 (initState (rowReduce (workingMatrix [(0 : Int), 1, 1, 3] 2 2) 2 2) 2 2)) 2 2) ≤ SENTINEL) :=
  C9_theorem (rowReduce (workingMatrix [(0 : Int), 1, 1, 3] 2 2) 2 2) 2 2 2 0
    false (initState (rowReduce (workingMatrix [(0 : Int), 1, 1, 3] 2 2) 2 2) 2 2) (le_refl 2) (by decide) (by decide) (by decide) rfl

/-- C10: `minimize` treats every negative entry of the input exactly as if
it were `0` — the result on any input equals the result on the input with
every negative entry replaced by zero. -/
theorem C10_theorem (matrix : List Int) (height width : Nat) :
    minimize matrix height width = minimize (matrix.map clampNonneg) height width :=
  minimize_map_clamp matrix height width

end Hungarian
